import Mathlib

/-!
Shallow embedding of the mini-sglang CPU core (rust/minisgl-cpu-core) in Lean 4.

Part 1 embeds `src/radix.rs`: the radix prefix cache (`RadixCacheManager`) with
`match_prefix`, `insert_prefix`, `lock_handle`, `evict`, `size_info`,
`check_integrity`.

Representation choices, mapped to the Rust source:
* The Rust tree uses `Rc<RefCell<RadixNode>>` with the parent owning its
  children through `children: HashMap<i32, NodeRef>` and each child keeping a
  `Weak` back-pointer used only for upward walks.  Since every node has exactly
  one strong owner, the heap graph is an ownership tree; we embed it as an
  inductive rose tree whose child map is an association list of
  `(edge token, child)` pairs (the well-formedness predicate requires the edge
  keys to be distinct, which the `HashMap` gives for free).  Parent
  back-pointers are implicit: a node is addressed by the list of edge tokens
  from the root (its path), which is exactly the information the upward
  `Weak`-pointer walks recover, and the `Weak`-upgrade failure branches of the
  source are mirrored by the `Option`-failure branches of path lookups.
* A `RadixCacheHandle` stores `cached_len` plus the path of its node, playing
  the role of the `NodeRef` stored by the Rust handle.
* `SystemTime::now()` nanosecond ticks are replaced by a logical clock stored
  in the manager: each `now_tick` returns the clock and increments it.  Only
  the strict monotonicity of the tick source is ever used.
* Rust `usize` arithmetic becomes `Nat` (`saturating_sub` is `Nat`
  subtraction, `checked_sub` is an explicit comparison), `i32` token ids and
  KV indices become `Int` (they are only stored and compared, never computed
  with), `u64` ids and `u128` timestamps become `Nat`.
* Loops become fuel recursion; the fuel-exhaustion branches return
  `CorruptedTree` errors and are proved unreachable from well-formed states
  (in the Rust source the corresponding corrupted states would loop forever).
* Fallible code returns `Except CacheError`.  On the error paths the Rust code
  can leave partially applied mutations behind (e.g. a failed `lock_handle`
  keeps the refcount changes already made below the failure point); the model
  returns the error without a state, which is faithful for every theorem below
  because all of them only constrain successful (`Except.ok`) operations.
-/

/-- Error enum of `src/cache.rs` (`CacheError`). -/
inductive CacheError : Type where
  | EmptyInput : CacheError
  | MismatchedInputAndIndices (input_len indices_len : Nat) : CacheError
  | EvictTooLarge (requested evictable : Nat) : CacheError
  | UnlockUnderflow : CacheError
  | CorruptedTree (reason : String) : CacheError
  deriving Repr, DecidableEq

/-- A radix tree node (`RadixNode` in `src/radix.rs`): node id, edge label
`key`, parallel KV-slot slice `value`, refcount, timestamp, and the child map
as an association list from first-token to child. -/
inductive RadixNode : Type where
  | mk (node_id : Nat) (key : List Int) (value : List Int) (ref_count : Nat)
       (timestamp : Nat) (children : List (Int × RadixNode)) : RadixNode

namespace RadixNode

def node_id : RadixNode → Nat
  | .mk i _ _ _ _ _ => i

def key : RadixNode → List Int
  | .mk _ k _ _ _ _ => k

def value : RadixNode → List Int
  | .mk _ _ v _ _ _ => v

def ref_count : RadixNode → Nat
  | .mk _ _ _ r _ _ => r

def timestamp : RadixNode → Nat
  | .mk _ _ _ _ ts _ => ts

def children : RadixNode → List (Int × RadixNode)
  | .mk _ _ _ _ _ cs => cs

/-- `RadixNode::len` — the length of the edge label. -/
def len (t : RadixNode) : Nat := t.key.length

/-- `RadixNode::is_leaf` — no children. -/
def is_leaf (t : RadixNode) : Bool := t.children.isEmpty

def withTimestamp : RadixNode → Nat → RadixNode
  | .mk i k v r _ cs, ts => .mk i k v r ts cs

def withRefCount : RadixNode → Nat → RadixNode
  | .mk i k v _ ts cs, r => .mk i k v r ts cs

def withChildren : RadixNode → List (Int × RadixNode) → RadixNode
  | .mk i k v r ts _, cs => .mk i k v r ts cs

end RadixNode

/-- `HashMap::get` on the child map: lookup by edge token. -/
def findChild : List (Int × RadixNode) → Int → Option RadixNode
  | [], _ => none
  | (e, c) :: rest, x => if e = x then some c else findChild rest x

/-- `HashMap::insert` on the child map: replace the binding of the edge token
if present (keeping its position), otherwise append a new binding. -/
def setChild : List (Int × RadixNode) → Int → RadixNode → List (Int × RadixNode)
  | [], x, n => [(x, n)]
  | (e, c) :: rest, x, n => if e = x then (x, n) :: rest else (e, c) :: setChild rest x n

/-- `HashMap::remove` on the child map. -/
def removeChild : List (Int × RadixNode) → Int → List (Int × RadixNode)
  | [], _ => []
  | (e, c) :: rest, x => if e = x then rest else (e, c) :: removeChild rest x

/-- `RadixCacheManager::common_prefix_len`. -/
def commonPrefixLen : List Int → List Int → Nat
  | a :: as_, b :: bs => if a = b then commonPrefixLen as_ bs + 1 else 0
  | _, _ => 0

mutual

/-- Sum of `|key|` over the node and all its descendants with `ref_count = 0`
(the quantity `check_integrity` recomputes as `evictable_sum`). -/
def evictableSum : RadixNode → Nat
  | .mk _ k _ rc _ cs => (if rc = 0 then k.length else 0) + evictableSumL cs

def evictableSumL : List (Int × RadixNode) → Nat
  | [] => 0
  | (_, c) :: rest => evictableSum c + evictableSumL rest

end

mutual

/-- Sum of `|key|` over the node and all its descendants with `ref_count > 0`
(the quantity `check_integrity` recomputes as `protected_sum`). -/
def protectedSum : RadixNode → Nat
  | .mk _ k _ rc _ cs => (if rc = 0 then 0 else k.length) + protectedSumL cs

def protectedSumL : List (Int × RadixNode) → Nat
  | [] => 0
  | (_, c) :: rest => protectedSum c + protectedSumL rest

end

mutual

/-- All node ids in the subtree, the node's own id first. -/
def treeIds : RadixNode → List Nat
  | .mk i _ _ _ _ cs => i :: treeIdsL cs

def treeIdsL : List (Int × RadixNode) → List Nat
  | [] => []
  | (_, c) :: rest => treeIds c ++ treeIdsL rest

end

mutual

/-- Number of nodes in the subtree. -/
def nodeCount : RadixNode → Nat
  | .mk _ _ _ _ _ cs => 1 + nodeCountL cs

def nodeCountL : List (Int × RadixNode) → Nat
  | [] => 0
  | (_, c) :: rest => nodeCount c + nodeCountL rest

end

mutual

/-- Structural well-formedness of a non-root node: non-empty key, key and
value of equal length, and well-formed children. -/
def wfNode : RadixNode → Bool
  | .mk _ k v _ _ cs => !k.isEmpty && k.length == v.length && wfChildren cs

/-- Well-formedness of a child map: every child is stored under its first key
token, edge tokens are pairwise distinct (as `HashMap` keys are), and every
child is a well-formed non-root node. -/
def wfChildren : List (Int × RadixNode) → Bool
  | [] => true
  | (e, c) :: rest =>
      c.key.head? == some e && wfNode c && (findChild rest e).isNone && wfChildren rest

end

/-- Handle returned by `match_prefix` (`RadixCacheHandle`): the matched length
plus the path of the matched node, standing for the stored `NodeRef`. -/
structure RadixCacheHandle where
  cached_len : Nat
  path : List Int
  deriving Repr, DecidableEq

/-- The cache manager state (`RadixCacheManager`), with the logical clock that
models the `SystemTime` nanosecond tick source. -/
structure RadixCacheManager where
  root_node : RadixNode
  next_node_id : Nat
  evictable_size : Nat
  protected_size : Nat
  clock : Nat

/-- `SizeInfo` of `src/cache.rs`. -/
structure SizeInfo where
  evictable_size : Nat
  protected_size : Nat
  deriving Repr, DecidableEq

/-- `RadixCacheManager::new`: a fresh cache; the root is created with the
first tick and is permanently protected (`ref_count = 1`). -/
def newCache : RadixCacheManager :=
  { root_node := RadixNode.mk 0 [] [] 1 0 []
    next_node_id := 1
    evictable_size := 0
    protected_size := 0
    clock := 1 }

/-- `RadixCacheManager::size_info`. -/
def size_info (m : RadixCacheManager) : SizeInfo :=
  ⟨m.evictable_size, m.protected_size⟩

/-- Look up the node at a path of edge tokens. -/
def nodeAt : RadixNode → List Int → Option RadixNode
  | t, [] => some t
  | t, e :: p =>
      match findChild t.children e with
      | none => none
      | some c => nodeAt c p

/-- Rewrite the node at a path of edge tokens. -/
def updateAt : RadixNode → List Int → (RadixNode → RadixNode) → Option RadixNode
  | t, [], f => some (f t)
  | t, e :: p, f =>
      match findChild t.children e with
      | none => none
      | some c =>
          match updateAt c p f with
          | none => none
          | some c' => some (t.withChildren (setChild t.children e c'))

/-- Concatenation of the `key` slices of the nodes strictly below the start of
the path, in root-to-node order. -/
def keysAlong : RadixNode → List Int → Option (List Int)
  | _, [] => some []
  | t, e :: p =>
      match findChild t.children e with
      | none => none
      | some c =>
          match keysAlong c p with
          | none => none
          | some r => some (c.key ++ r)

/-- Concatenation of the `value` slices of the nodes strictly below the start
of the path, in root-to-node order.  This is what the upward reconstruction
loop of `match_prefix` computes (collect values climbing to the root, then
reverse and flatten). -/
def valuesAlong : RadixNode → List Int → Option (List Int)
  | _, [] => some []
  | t, e :: p =>
      match findChild t.children e with
      | none => none
      | some c =>
          match valuesAlong c p with
          | none => none
          | some r => some (c.value ++ r)

/-- `RadixCacheManager::split_node` restricted to building the replacement
node: the split node keeps the refcount, timestamp and the first `pos` tokens
of key/value, and adopts the truncated original as its only child under the
truncated first token.  (The caller re-inserts the result into the parent's
child map, as the source does.) -/
def split_node (nid : Nat) (child : RadixNode) (pos : Nat) :
    Except CacheError (RadixNode × Nat) :=
  if pos = 0 ∨ child.key.length ≤ pos then
    .error (.CorruptedTree "invalid split position")
  else
    let truncated :=
      RadixNode.mk child.node_id (child.key.drop pos) (child.value.drop pos)
        child.ref_count child.timestamp child.children
    match (child.key.drop pos).head? with
    | none => .error (.CorruptedTree "split child became empty")
    | some edge =>
        .ok (RadixNode.mk nid (child.key.take pos) (child.value.take pos)
              child.ref_count child.timestamp [(edge, truncated)], nid + 1)

/-- The loop body of `RadixCacheManager::walk`, as fuel recursion starting
from an arbitrary node.  Returns the updated subtree, the path (edge tokens)
from the start node to the reached node, the number of input tokens consumed,
and the updated id allocator.  The fuel-exhaustion error is unreachable from
well-formed trees (it corresponds to the infinite loop the source would enter
on a node with an empty key). -/
def walkLoop (tick : Nat) : Nat → RadixNode → List Int → Nat →
    Except CacheError (RadixNode × List Int × Nat × Nat)
  | 0, _, _, _ => .error (.CorruptedTree "walk fuel exhausted")
  | fuel + 1, t, input_ids, nid =>
      match input_ids with
      | [] => .ok (t, [], 0, nid)
      | x :: _ =>
          match findChild t.children x with
          | none => .ok (t, [], 0, nid)
          | some child =>
              let matchLen := commonPrefixLen child.key input_ids
              if matchLen = child.key.length then
                let child' := child.withTimestamp tick
                match walkLoop tick fuel child' (input_ids.drop matchLen) nid with
                | .error e => .error e
                | .ok (c', p, n, nid') =>
                    .ok (t.withChildren (setChild t.children x c'), x :: p,
                         matchLen + n, nid')
              else
                match split_node nid child matchLen with
                | .error e => .error e
                | .ok (splitN, nid') =>
                    match child.key.head? with
                    | none => .error (.CorruptedTree "invalid split position")
                    | some k0 =>
                        .ok (t.withChildren (setChild t.children k0 splitN),
                             [k0], matchLen, nid')

/-- Longest-prefix length the tree spells for `ids` (pure observer of the
walk, fuel recursion like the walk itself). -/
def lookupLen : Nat → RadixNode → List Int → Nat
  | 0, _, _ => 0
  | fuel + 1, t, ids =>
      match ids with
      | [] => 0
      | x :: _ =>
          match findChild t.children x with
          | none => 0
          | some c =>
              let m := commonPrefixLen c.key ids
              if m = c.key.length then m + lookupLen fuel c (ids.drop m) else m

/-- `RadixCacheManager::walk`: take one tick, then run the walk loop from the
root.  Returns the updated manager, the path of the reached node and the
number of consumed tokens. -/
def walk (m : RadixCacheManager) (input_ids : List Int) :
    Except CacheError (RadixCacheManager × List Int × Nat) :=
  let tick := m.clock
  match walkLoop tick (input_ids.length + 1) m.root_node input_ids m.next_node_id with
  | .error e => .error e
  | .ok (t, p, n, nid) =>
      .ok ({ m with root_node := t, next_node_id := nid, clock := m.clock + 1 }, p, n)

/-- `match_prefix` for `RadixCacheManager`: walk, then reconstruct the matched
indices along the path (the source climbs the parent chain collecting `value`
slices and reverses; along an ownership tree that is exactly `valuesAlong`). -/
def matchPrefix (m : RadixCacheManager) (input_ids : List Int) :
    Except CacheError (RadixCacheManager × RadixCacheHandle × List Int) :=
  match walk m input_ids with
  | .error e => .error e
  | .ok (m', path, prefixLen) =>
      if prefixLen = 0 then .ok (m', ⟨0, path⟩, [])
      else
        match valuesAlong m'.root_node path with
        | none => .error (.CorruptedTree "missing parent while reconstructing match")
        | some indices => .ok (m', ⟨prefixLen, path⟩, indices)

/-- `insert_prefix` for `RadixCacheManager`: length check, walk, and if the
walk did not consume the whole input attach a fresh leaf (new id, fresh tick,
`ref_count = 0`) under the reached node, growing `evictable_size` by the new
leaf's length.  Returns the number of tokens that were already cached. -/
def insertPrefix (m : RadixCacheManager) (input_ids indices : List Int) :
    Except CacheError (RadixCacheManager × Nat) :=
  if input_ids.length ≠ indices.length then
    .error (.MismatchedInputAndIndices input_ids.length indices.length)
  else
    match walk m input_ids with
    | .error e => .error e
    | .ok (m₁, path, prefixLen) =>
        if h : prefixLen < input_ids.length then
          let newNode : RadixNode :=
            RadixNode.mk m₁.next_node_id (input_ids.drop prefixLen)
              (indices.drop prefixLen) 0 m₁.clock []
          let edge := input_ids.get ⟨prefixLen, h⟩
          match updateAt m₁.root_node path
              (fun nd => nd.withChildren (setChild nd.children edge newNode)) with
          | none => .error (.CorruptedTree "missing parent pointer")
          | some root' =>
              .ok ({ m₁ with
                      root_node := root'
                      next_node_id := m₁.next_node_id + 1
                      clock := m₁.clock + 1
                      evictable_size := m₁.evictable_size + newNode.len }, prefixLen)
        else .ok (m₁, prefixLen)

/-- The per-node refcount update of `lock_handle`, together with the
`evictable_size`/`protected_size` transfers (with the `checked_sub` failure
branches of the source). -/
def lockNodeOp (unlock : Bool) (nd : RadixNode) (ev pr : Nat) :
    Except CacheError (RadixNode × Nat × Nat) :=
  if unlock then
    if nd.ref_count = 0 then .error .UnlockUnderflow
    else
      let nd' := nd.withRefCount (nd.ref_count - 1)
      if nd.ref_count - 1 = 0 then
        if nd.len ≤ pr then .ok (nd', ev + nd.len, pr - nd.len)
        else .error (.CorruptedTree "protected_size underflow during unlock")
      else .ok (nd', ev, pr)
  else
    if nd.ref_count = 0 then
      if nd.len ≤ ev then
        .ok (nd.withRefCount (nd.ref_count + 1), ev - nd.len, pr + nd.len)
      else .error (.CorruptedTree "evictable_size underflow during lock")
    else .ok (nd.withRefCount (nd.ref_count + 1), ev, pr)

/-- The walk-to-root loop of `lock_handle`: apply `lockNodeOp` to every node
strictly below `t` along the path, deepest node first (the order the source's
upward walk uses), threading the two size counters. -/
def lockPath (unlock : Bool) : RadixNode → List Int → Nat → Nat →
    Except CacheError (RadixNode × Nat × Nat)
  | t, [], ev, pr => .ok (t, ev, pr)
  | t, e :: p, ev, pr =>
      match findChild t.children e with
      | none => .error (.CorruptedTree "missing parent pointer")
      | some c =>
          match lockPath unlock c p ev pr with
          | .error err => .error err
          | .ok (c₁, ev₁, pr₁) =>
              match lockNodeOp unlock c₁ ev₁ pr₁ with
              | .error err => .error err
              | .ok (c₂, ev₂, pr₂) =>
                  .ok (t.withChildren (setChild t.children e c₂), ev₂, pr₂)

/-- `lock_handle` for `RadixCacheManager`. -/
def lock_handle (m : RadixCacheManager) (h : RadixCacheHandle) (unlock : Bool) :
    Except CacheError RadixCacheManager :=
  match lockPath unlock m.root_node h.path m.evictable_size m.protected_size with
  | .error e => .error e
  | .ok (t, ev, pr) =>
      .ok { m with root_node := t, evictable_size := ev, protected_size := pr }

/-- An entry of the eviction min-heap (`HeapEntry`), with the node addressed
by its path. -/
structure HeapEntry where
  timestamp : Nat
  node_id : Nat
  path : List Int
  deriving Repr, DecidableEq

/-- The `(timestamp, node_id)` order of `impl Ord for HeapEntry` (the heap is
a `BinaryHeap<Reverse<HeapEntry>>`, so pops take the minimum). -/
def entryLe (a b : HeapEntry) : Bool :=
  if a.timestamp < b.timestamp then true
  else if b.timestamp < a.timestamp then false
  else a.node_id ≤ b.node_id

/-- Ordered insertion into the heap, kept as a list sorted by `entryLe`;
popping the head is then exactly the `BinaryHeap` pop of the minimum. -/
def heapPush : List HeapEntry → HeapEntry → List HeapEntry
  | [], e => [e]
  | x :: xs, e => if entryLe e x then e :: x :: xs else x :: heapPush xs e

mutual

/-- `collect_leaf_nodes_for_evict`: every leaf with `ref_count = 0`, with its
path and heap key.  (The source's DFS order is irrelevant: the entries go
into a heap ordered by the pairwise-distinct `(timestamp, node_id)` keys.) -/
def collectLeaves : RadixNode → List Int → List HeapEntry
  | .mk i _ _ rc ts cs, p =>
      if cs.isEmpty then
        if rc = 0 then [⟨ts, i, p⟩] else []
      else collectLeavesL cs p

def collectLeavesL : List (Int × RadixNode) → List Int → List HeapEntry
  | [], _ => []
  | (e, c) :: rest, p => collectLeaves c (p ++ [e]) ++ collectLeavesL rest p

end

/-- A record of one leaf removal performed by `evict`, in removal order:
the heap key, refcount, value and key length of the removed node. -/
structure EvictedInfo where
  timestamp : Nat
  node_id : Nat
  ref_count : Nat
  value : List Int
  key_len : Nat
  deriving Repr, DecidableEq

/-- The pop loop of `evict`, as fuel recursion.  Mirrors the source: pop the
minimum entry; skip it if its node is the root, is no longer a leaf, or has
acquired a refcount; otherwise remove the leaf from its parent (the edge is
the node's own first key token, as in the source), update `evictable_size`
with a `checked_sub`, and re-enqueue the parent if it just became an
evictable non-root leaf.  Also returns the trace of removals. -/
def evictLoop (size : Nat) : Nat → List HeapEntry → RadixNode → Nat → Nat →
    List Int → List EvictedInfo →
    Except CacheError (RadixNode × Nat × List Int × List EvictedInfo)
  | 0, _, _, _, _, _, _ => .error (.CorruptedTree "eviction fuel exhausted")
  | fuel + 1, heap, t, ev, evictedSize, acc, trace =>
      if size ≤ evictedSize then .ok (t, ev, acc, trace)
      else
        match heap with
        | [] => .error (.CorruptedTree "failed to evict enough cache")
        | entry :: heap' =>
            match nodeAt t entry.path with
            | none => .error (.CorruptedTree "missing parent pointer")
            | some nd =>
                if entry.path = [] ∨ ¬ nd.children.isEmpty ∨ 0 < nd.ref_count then
                  evictLoop size fuel heap' t ev evictedSize acc trace
                else
                  match nd.key.head? with
                  | none => .error (.CorruptedTree "evicted node has empty key")
                  | some edge =>
                      if nd.len ≤ ev then
                        match updateAt t entry.path.dropLast
                            (fun par =>
                              par.withChildren (removeChild par.children edge)) with
                        | none => .error (.CorruptedTree "missing parent pointer")
                        | some t' =>
                            match nodeAt t' entry.path.dropLast with
                            | none => .error (.CorruptedTree "missing parent pointer")
                            | some par =>
                                let heap'' :=
                                  if entry.path.dropLast ≠ [] ∧
                                      par.children.isEmpty ∧ par.ref_count = 0 then
                                    heapPush heap'
                                      ⟨par.timestamp, par.node_id, entry.path.dropLast⟩
                                  else heap'
                                evictLoop size fuel heap'' t' (ev - nd.len)
                                  (evictedSize + nd.len) (acc ++ nd.value)
                                  (trace ++ [⟨nd.timestamp, nd.node_id, nd.ref_count,
                                             nd.value, nd.len⟩])
                      else .error (.CorruptedTree "evictable_size underflow during eviction")

/-- `evict` for `RadixCacheManager`, instrumented with the removal trace
(which the claims about removal order are stated over); `evict` below projects
the trace away and returns exactly what the source returns. -/
def evictWithTrace (m : RadixCacheManager) (size : Nat) :
    Except CacheError (RadixCacheManager × List Int × List EvictedInfo) :=
  if size = 0 then .ok (m, [], [])
  else if m.evictable_size < size then
    .error (.EvictTooLarge size m.evictable_size)
  else
    let heap0 := (collectLeaves m.root_node []).foldl heapPush []
    match evictLoop size (nodeCount m.root_node + 1) heap0 m.root_node
        m.evictable_size 0 [] [] with
    | .error e => .error e
    | .ok (t, ev, acc, trace) =>
        .ok ({ m with root_node := t, evictable_size := ev }, acc, trace)

/-- `evict` for `RadixCacheManager`. -/
def evict (m : RadixCacheManager) (size : Nat) :
    Except CacheError (RadixCacheManager × List Int) :=
  match evictWithTrace m size with
  | .error e => .error e
  | .ok (m', acc, _) => .ok (m', acc)

mutual

/-- The DFS of `check_integrity` over the non-root part of the tree: verify
each child is stored under its first key token, each non-root node has a
non-empty key matching its value in length, and recompute the evictable and
protected sums.  (The parent back-link checks of the source are definitional
in an ownership tree and have no counterpart here.) -/
def checkChildren : List (Int × RadixNode) → Except CacheError (Nat × Nat)
  | [] => .ok (0, 0)
  | (e, c) :: rest =>
      if c.key.head? ≠ some e then .error (.CorruptedTree "child edge key mismatch")
      else
        match checkSubtree c with
        | .error err => .error err
        | .ok (a, b) =>
            match checkChildren rest with
            | .error err => .error err
            | .ok (a', b') => .ok (a + a', b + b')

def checkSubtree : RadixNode → Except CacheError (Nat × Nat)
  | .mk _ k v rc _ cs =>
      if k.isEmpty ∨ k.length ≠ v.length then
        .error (.CorruptedTree "node key/value shape mismatch")
      else
        match checkChildren cs with
        | .error err => .error err
        | .ok (a, b) =>
            if rc = 0 then .ok (k.length + a, b) else .ok (a, k.length + b)

end

/-- `check_integrity` for `RadixCacheManager`: root refcount pinned at 1,
root key/value empty, edge/shape checks along the tree, and the recomputed
sums must equal the running counters. -/
def check_integrity (m : RadixCacheManager) : Except CacheError Unit :=
  if m.root_node.ref_count ≠ 1 then
    .error (.CorruptedTree "root ref_count must stay at 1")
  else if ¬ m.root_node.key.isEmpty ∨ ¬ m.root_node.value.isEmpty then
    .error (.CorruptedTree "root key/value must be empty")
  else
    match checkChildren m.root_node.children with
    | .error err => .error err
    | .ok (a, b) =>
        if a ≠ m.evictable_size ∨ b ≠ m.protected_size then
          .error (.CorruptedTree "size accounting mismatch")
        else .ok ()

/-- Manager-level well-formedness: the invariant the integrity/eviction
theorems are proved from.  It packages the root shape, the structural
well-formedness of the tree, the agreement of the running counters with the
recomputed sums, and freshness/distinctness of node ids. -/
def wfManager (m : RadixCacheManager) : Bool :=
  m.root_node.key.isEmpty && m.root_node.value.isEmpty &&
  m.root_node.ref_count == 1 &&
  wfChildren m.root_node.children &&
  m.evictable_size == evictableSumL m.root_node.children &&
  m.protected_size == protectedSumL m.root_node.children &&
  decide (treeIds m.root_node).Nodup &&
  (treeIds m.root_node).all (fun i => i < m.next_node_id)

/-- One public cache operation, for stating "after any sequence of successful
operations".  A lock/unlock takes the path of the handle's node: every handle
the Rust API can produce for a live node corresponds to such a path (handles
to evicted nodes are undefined behaviour per the spec and fail here). -/
inductive RadixOp : Type where
  | insert (input_ids indices : List Int) : RadixOp
  | matchP (input_ids : List Int) : RadixOp
  | lock (path : List Int) (unlock : Bool) : RadixOp
  | evictOp (size : Nat) : RadixOp

/-- Run one operation, keeping only the resulting manager state. -/
def runOp (m : RadixCacheManager) : RadixOp → Except CacheError RadixCacheManager
  | .insert ids idxs =>
      match insertPrefix m ids idxs with
      | .error e => .error e
      | .ok (m', _) => .ok m'
  | .matchP ids =>
      match matchPrefix m ids with
      | .error e => .error e
      | .ok (m', _, _) => .ok m'
  | .lock p u => lock_handle m ⟨0, p⟩ u
  | .evictOp s =>
      match evict m s with
      | .error e => .error e
      | .ok (m', _) => .ok m'

/-- Run a sequence of operations, failing as soon as one fails. -/
def runOps (m : RadixCacheManager) : List RadixOp → Except CacheError RadixCacheManager
  | [] => .ok m
  | op :: ops =>
      match runOp m op with
      | .error e => .error e
      | .ok m' => runOps m' ops

/-- Iterate `lock_handle` with the same handle and flag `n` times, stopping
at the first failure (for stating the balanced lock/unlock law). -/
def lockHandleIter (h : RadixCacheHandle) (unlock : Bool) :
    Nat → RadixCacheManager → Except CacheError RadixCacheManager
  | 0, m => .ok m
  | n + 1, m =>
      match lock_handle m h unlock with
      | .error e => .error e
      | .ok m₁ => lockHandleIter h unlock n m₁

/-!
Part 2 embeds `src/prefill.rs`: the prefill admission planner.  The
`PrefillCache`/`PrefillTable` traits become records of state-transforming
functions over abstract state types `σ`/`τ` (every `&mut self` method takes
and returns the state), so the theorems quantify over all collaborator
implementations, as the source's generics do.
-/

/-- `PrefillError` of `src/prefill.rs`. -/
inductive PrefillError : Type where
  | EmptyInput : PrefillError
  | TableExhausted : PrefillError
  | CacheBackend (msg : String) : PrefillError
  deriving Repr, DecidableEq

/-- `ChunkedReqState<H>`. -/
structure ChunkedReqState (H : Type) where
  cache_handle : H
  table_idx : Int
  cached_len : Nat
  deriving DecidableEq

/-- `PendingReq<H>`. -/
structure PendingReq (H : Type) where
  uid : Nat
  input_ids : List Int
  output_len : Nat
  chunked_req : Option (ChunkedReqState H)
  deriving DecidableEq

/-- `PendingReq::input_len`. -/
def PendingReq.input_len {H : Type} (r : PendingReq H) : Nat := r.input_ids.length

/-- `ScheduledReq<H>`. -/
structure ScheduledReq (H : Type) where
  uid : Nat
  table_idx : Int
  cached_len : Nat
  device_len : Nat
  max_device_len : Nat
  output_len : Nat
  cache_handle : H
  is_chunked : Bool
  deriving DecidableEq

/-- `ScheduledReq::remain_len` (saturating). -/
def ScheduledReq.remain_len {H : Type} (r : ScheduledReq H) : Nat :=
  r.max_device_len - r.device_len

/-- `ScheduledReq::extend_len` (saturating). -/
def ScheduledReq.extend_len {H : Type} (r : ScheduledReq H) : Nat :=
  r.device_len - r.cached_len

/-- `ScheduledReq::can_decode`. -/
def ScheduledReq.can_decode {H : Type} (r : ScheduledReq H) : Bool :=
  !r.is_chunked && decide (0 < r.output_len)

/-- `CacheMatch<H>`. -/
structure CacheMatch (H : Type) where
  handle : H
  cached_len : Nat
  match_indices : List Int

/-- The `PrefillCache` trait as a record over a cache state type `σ`. -/
structure PrefillCacheImpl (σ H : Type) where
  match_req : σ → List Int → Except String (σ × CacheMatch H)
  lock : σ → H → Except String σ
  unlock : σ → H → Except String σ
  available_size : σ → Nat

/-- The `PrefillTable` trait as a record over a table state type `τ`. -/
structure PrefillTableImpl (τ : Type) where
  available_size : τ → Nat
  allocate : τ → τ × Option Int

/-- The mutable state of a `PrefillAdder` (its two counters plus the borrowed
cache and table states). -/
structure AdderState (σ τ : Type) where
  token_budget : Nat
  reserved_size : Nat
  cacheState : σ
  tableState : τ

variable {σ τ H : Type}

/-- `PrefillAdder::try_allocate_one`: capacity pre-check, match on the input
minus its last token, reserve-check, lock, re-check (rolling the lock back if
now over), allocate a table slot. -/
def try_allocate_one (C : PrefillCacheImpl σ H) (T : PrefillTableImpl τ)
    (s : AdderState σ τ) (req : PendingReq H) :
    Except PrefillError (AdderState σ τ × Option (ChunkedReqState H)) :=
  if T.available_size s.tableState = 0 then .ok (s, none)
  else if req.input_len = 0 then .error .EmptyInput
  else
    match C.match_req s.cacheState (req.input_ids.take (req.input_len - 1)) with
    | .error msg => .error (.CacheBackend msg)
    | .ok (cs₁, matched) =>
        let s₁ : AdderState σ τ := { s with cacheState := cs₁ }
        let cached_len := matched.cached_len
        let extend_len := req.input_len - cached_len
        let estimated_len := extend_len + req.output_len
        if C.available_size s₁.cacheState < estimated_len + s₁.reserved_size then
          .ok (s₁, none)
        else
          match C.lock s₁.cacheState matched.handle with
          | .error msg => .error (.CacheBackend msg)
          | .ok cs₂ =>
              let s₂ : AdderState σ τ := { s₁ with cacheState := cs₂ }
              if C.available_size s₂.cacheState < estimated_len + s₂.reserved_size then
                match C.unlock s₂.cacheState matched.handle with
                | .error msg => .error (.CacheBackend msg)
                | .ok cs₃ => .ok ({ s₂ with cacheState := cs₃ }, none)
              else
                match T.allocate s₂.tableState with
                | (_, none) => .error .TableExhausted
                | (ts', some idx) =>
                    .ok ({ s₂ with tableState := ts' },
                         some ⟨matched.handle, idx, cached_len⟩)

/-- `PrefillAdder::add_one_req`: chunk the remaining prompt under the token
budget, reserve the full still-to-do cost, and emit the `ScheduledReq`. -/
def add_one_req (s : AdderState σ τ) (req : PendingReq H)
    (allocated : ChunkedReqState H) : AdderState σ τ × ScheduledReq H :=
  let remain_len := req.input_len - allocated.cached_len
  let chunk_size := min s.token_budget remain_len
  let device_len := allocated.cached_len + chunk_size
  ({ s with
      token_budget := s.token_budget - chunk_size
      reserved_size := s.reserved_size + remain_len + req.output_len },
   { uid := req.uid
     table_idx := allocated.table_idx
     cached_len := allocated.cached_len
     device_len := device_len
     max_device_len := device_len + req.output_len
     output_len := req.output_len
     cache_handle := allocated.cache_handle
     is_chunked := decide (chunk_size < remain_len) })

/-- `PrefillAdder::try_add_one`. -/
def try_add_one (C : PrefillCacheImpl σ H) (T : PrefillTableImpl τ)
    (s : AdderState σ τ) (req : PendingReq H) :
    Except PrefillError (AdderState σ τ × Option (ScheduledReq H)) :=
  if s.token_budget = 0 then .ok (s, none)
  else
    match req.chunked_req with
    | some chunked =>
        let p := add_one_req s req chunked
        .ok (p.1, some p.2)
    | none =>
        match try_allocate_one C T s req with
        | .error e => .error e
        | .ok (s₁, none) => .ok (s₁, none)
        | .ok (s₁, some allocated) =>
            let p := add_one_req s₁ req allocated
            .ok (p.1, some p.2)

/-- `PrefillBatch<H>`. -/
structure PrefillBatch (H : Type) where
  reqs : List (ScheduledReq H)
  deriving DecidableEq

/-- The state of a `PrefillManager`: the cache and table states plus the FIFO
pending queue. -/
structure PrefillManagerState (σ τ H : Type) where
  cacheState : σ
  tableState : τ
  pending : List (PendingReq H)

/-- The admission loop of `schedule_next_batch`: walk the pending queue in
FIFO order, admitting until the first refusal; collect the admitted requests
and, in order, the re-queue entries for the chunked ones (each with the
handle, the slot, and `cached_len` set to the scheduled chunk's device
length). -/
def scheduleLoop (C : PrefillCacheImpl σ H) (T : PrefillTableImpl τ) :
    AdderState σ τ → List (PendingReq H) →
    Except PrefillError (AdderState σ τ × List (ScheduledReq H) × List (PendingReq H))
  | s, [] => .ok (s, [], [])
  | s, req :: rest =>
      match try_add_one C T s req with
      | .error e => .error e
      | .ok (s₁, none) => .ok (s₁, [], [])
      | .ok (s₁, some r) =>
          let tail : PendingReq H :=
            { req with
                chunked_req := some (ChunkedReqState.mk r.cache_handle r.table_idx r.device_len) }
          match scheduleLoop C T s₁ rest with
          | .error e => .error e
          | .ok (s₂, rs, ch) =>
              .ok (s₂, r :: rs, (if r.is_chunked then [tail] else []) ++ ch)

/-- `PrefillManager::schedule_next_batch`: run the admission loop; drop the
consumed pending entries from the front and push the chunked tails back at
the front preserving their relative order (the source's pop-back/push-front
loop amounts to prepending the chunked list). -/
def schedule_next_batch (C : PrefillCacheImpl σ H) (T : PrefillTableImpl τ)
    (ms : PrefillManagerState σ τ H) (prefill_budget decode_inflight_tokens : Nat) :
    Except PrefillError (Option (PrefillBatch H) × PrefillManagerState σ τ H) :=
  if ms.pending.isEmpty then .ok (none, ms)
  else
    match scheduleLoop C T
        ⟨prefill_budget, decode_inflight_tokens, ms.cacheState, ms.tableState⟩
        ms.pending with
    | .error e => .error e
    | .ok (s, reqs, chunked) =>
        if reqs.isEmpty then
          .ok (none, { ms with cacheState := s.cacheState, tableState := s.tableState })
        else
          .ok (some ⟨reqs⟩,
               { cacheState := s.cacheState
                 tableState := s.tableState
                 pending := chunked ++ ms.pending.drop reqs.length })

/-- The `usize as i32` cast (two's-complement wrap into `[-2^31, 2^31)`). -/
def i32cast (n : Nat) : Int :=
  if n % 4294967296 < 2147483648 then ((n % 4294967296 : Nat) : Int)
  else ((n % 4294967296 : Nat) : Int) - 4294967296

/-- `decode_inflight_tokens`. -/
def decodeInflightTokens (running : List (ScheduledReq H)) : Nat :=
  ((running.filter fun r => r.can_decode).map fun r => r.remain_len).sum

/-- `make_positions`. -/
def make_positions (padded : List (ScheduledReq H)) : List Int :=
  padded.flatMap fun r =>
    (List.range' r.cached_len (r.device_len - r.cached_len)).map i32cast

/-- `make_input_mapping`. -/
def make_input_mapping (padded : List (ScheduledReq H)) : List Int :=
  padded.flatMap fun r => List.replicate r.extend_len r.table_idx

/-- `make_input_tuple`. -/
def make_input_tuple (padded : List (ScheduledReq H)) (positions : List Int) :
    List Int × List Int :=
  (make_input_mapping padded, positions)

/-- `make_write_tuple`: one entry per request; the write position is the
device length cast to `i32` when the request can decode, `-1` otherwise. -/
def make_write_tuple (reqs : List (ScheduledReq H)) : List Int × List Int :=
  (reqs.map fun r => r.table_idx,
   reqs.map fun r => if r.can_decode then i32cast r.device_len else -1)

/-- The front-of-queue entry that `schedule_next_batch` re-queues for an
admitted request: present exactly when the scheduled request is chunked, and
then carrying its handle, its table slot, and `cached_len` equal to the
scheduled chunk's `device_len`. -/
def requeueOf {H : Type} (pr : PendingReq H × ScheduledReq H) : Option (PendingReq H) :=
  if pr.2.is_chunked then
    some { pr.1 with
             chunked_req := some
               (ChunkedReqState.mk pr.2.cache_handle pr.2.table_idx pr.2.device_len) }
  else none


/-- Lexicographic order on `(timestamp, node_id)` pairs, the eviction
priority of the heap. -/
def lexLe (a b : Nat × Nat) : Prop :=
  a.1 < b.1 ∨ (a.1 = b.1 ∧ a.2 ≤ b.2)

/-- A heap entry is valid for a tree: its path addresses an evictable leaf
whose heap key matches the entry. -/
def entryValid (t : RadixNode) (e : HeapEntry) : Prop :=
  ∃ nd, nodeAt t e.path = some nd ∧ nd.node_id = e.node_id ∧
    nd.timestamp = e.timestamp ∧ nd.children = [] ∧ nd.ref_count = 0 ∧
    e.path ≠ []

/-- Every node of the tree whose id belongs to `S` is a leaf (used with `S`
the ids of the leaves collected at the start of an eviction). -/
def leafIdsOnly (S : List Nat) (t : RadixNode) : Prop :=
  ∀ q nd, nodeAt t q = some nd → nd.node_id ∈ S → nd.children = []

/-!
Theorems.  First the prefill-planner lemmas and claims, then the radix-cache
development.
-/

theorem try_allocate_one_budget {σ τ H : Type} {C : PrefillCacheImpl σ H}
    {T : PrefillTableImpl τ} {s s' : AdderState σ τ} {req : PendingReq H}
    {o : Option (ChunkedReqState H)}
    (h : try_allocate_one C T s req = .ok (s', o)) :
    s'.token_budget = s.token_budget ∧ s'.reserved_size = s.reserved_size := by
  unfold try_allocate_one at h
  split at h
  · cases h; exact ⟨rfl, rfl⟩
  · split at h
    · cases h
    · split at h
      · cases h
      · dsimp only at h
        split at h
        · cases h; exact ⟨rfl, rfl⟩
        · split at h
          · cases h
          · split at h
            · split at h
              · cases h
              · cases h; exact ⟨rfl, rfl⟩
            · split at h
              · cases h
              · cases h; exact ⟨rfl, rfl⟩

theorem add_one_req_budget {σ τ H : Type} {s : AdderState σ τ} {req : PendingReq H}
    {allocated : ChunkedReqState H} :
    (add_one_req s req allocated).2.extend_len + (add_one_req s req allocated).1.token_budget
      = s.token_budget := by
  simp [add_one_req, ScheduledReq.extend_len]

theorem try_add_one_budget {σ τ H : Type} {C : PrefillCacheImpl σ H}
    {T : PrefillTableImpl τ} {s s₁ : AdderState σ τ} {req : PendingReq H}
    {r : ScheduledReq H}
    (h : try_add_one C T s req = .ok (s₁, some r)) :
    r.extend_len + s₁.token_budget = s.token_budget := by
  unfold try_add_one at h
  split at h
  · cases h
  · split at h
    · dsimp only at h
      cases h
      exact add_one_req_budget
    · split at h
      · cases h
      · cases h
      · dsimp only at h
        cases h
        rename_i s₀ alloc heq
        have := try_allocate_one_budget heq
        rw [← this.1]
        exact add_one_req_budget

theorem try_add_one_budget_none {σ τ H : Type} {C : PrefillCacheImpl σ H}
    {T : PrefillTableImpl τ} {s s₁ : AdderState σ τ} {req : PendingReq H}
    (h : try_add_one C T s req = .ok (s₁, none)) :
    s₁.token_budget = s.token_budget := by
  unfold try_add_one at h
  split at h
  · cases h; rfl
  · split at h
    · dsimp only at h; cases h
    · split at h
      · cases h
      · cases h
        rename_i heq
        exact (try_allocate_one_budget heq).1
      · dsimp only at h; cases h

theorem scheduleLoop_budget {σ τ H : Type} {C : PrefillCacheImpl σ H}
    {T : PrefillTableImpl τ} :
    ∀ (pending : List (PendingReq H)) (s s' : AdderState σ τ)
      (rs : List (ScheduledReq H)) (ch : List (PendingReq H)),
      scheduleLoop C T s pending = .ok (s', rs, ch) →
      (rs.map ScheduledReq.extend_len).sum + s'.token_budget = s.token_budget := by
  intro pending
  induction pending with
  | nil =>
      intro s s' rs ch h
      unfold scheduleLoop at h
      cases h
      simp
  | cons req rest ih =>
      intro s s' rs ch h
      unfold scheduleLoop at h
      split at h
      · cases h
      · rename_i heq
        cases h
        simp [try_add_one_budget_none heq]
      · dsimp only at h
        split at h
        · cases h
        · cases h
          rename_i s₁ r heq s₂ rs' ch' heq₂
          have h1 := try_add_one_budget heq
          have h2 := ih _ _ _ _ heq₂
          simp
          omega

theorem scheduleLoop_requeue {σ τ H : Type} {C : PrefillCacheImpl σ H}
    {T : PrefillTableImpl τ} :
    ∀ (pending : List (PendingReq H)) (s s' : AdderState σ τ)
      (rs : List (ScheduledReq H)) (ch : List (PendingReq H)),
      scheduleLoop C T s pending = .ok (s', rs, ch) →
      rs.length ≤ pending.length ∧
      ch = ((pending.take rs.length).zip rs).filterMap requeueOf := by
  intro pending
  induction pending with
  | nil =>
      intro s s' rs ch h
      unfold scheduleLoop at h
      cases h
      simp
  | cons req rest ih =>
      intro s s' rs ch h
      unfold scheduleLoop at h
      split at h
      · cases h
      · cases h; simp
      · dsimp only at h
        split at h
        · cases h
        · cases h
          rename_i s₁ r heq s₂ rs' ch' heq₂
          have ihh := ih _ _ _ _ heq₂
          refine ⟨by simp; omega, ?_⟩
          simp only [List.length_cons, List.take_succ_cons, List.zip_cons_cons,
            List.filterMap_cons]
          rw [ihh.2]
          by_cases hc : r.is_chunked
          · simp [requeueOf, hc]
          · simp [requeueOf, hc]

/-- C3: for every pending queue, every `prefill_budget` and every
`decode_inflight_tokens`, when `schedule_next_batch` returns `Some(batch)`
the sum of `extend_len` over all requests of the batch is at most
`prefill_budget`. -/
theorem C3_batch_within_budget {σ τ H : Type} (C : PrefillCacheImpl σ H)
    (T : PrefillTableImpl τ) (ms ms' : PrefillManagerState σ τ H)
    (prefill_budget decode_inflight_tokens : Nat) (batch : PrefillBatch H)
    (h : schedule_next_batch C T ms prefill_budget decode_inflight_tokens
          = .ok (some batch, ms')) :
    (batch.reqs.map ScheduledReq.extend_len).sum ≤ prefill_budget := by
  unfold schedule_next_batch at h
  split at h
  · cases h
  · split at h
    · cases h
    · split at h
      · cases h
      · cases h
        rename_i s reqs chunked heq hne
        have := scheduleLoop_budget _ _ _ _ _ heq
        dsimp only at this ⊢
        omega

/-- Witness for C3 at a concrete two-request schedule. -/
theorem C3_batch_within_budget_witness :
    (((PrefillBatch.mk [ScheduledReq.mk 1 0 0 2 4 2 () false,
        ScheduledReq.mk 2 1 0 1 2 1 () true]).reqs).map ScheduledReq.extend_len).sum ≤ 3 :=
  C3_batch_within_budget
    (PrefillCacheImpl.mk (fun s _ => .ok (s, ⟨(), 0, []⟩)) (fun s _ => .ok s)
      (fun s _ => .ok s) (fun _ => 1000))
    (PrefillTableImpl.mk (fun t => 10 - t)
      (fun t => (t + 1, if t < 10 then some (Int.ofNat t) else none)))
    (PrefillManagerState.mk () 0
      [PendingReq.mk 1 [5, 6] 2 none, PendingReq.mk 2 [7, 7, 7, 7, 7] 1 none])
    (PrefillManagerState.mk () 2
      [PendingReq.mk 2 [7, 7, 7, 7, 7] 1 (some (ChunkedReqState.mk () 1 1))])
    3 0
    (PrefillBatch.mk [ScheduledReq.mk 1 0 0 2 4 2 () false,
        ScheduledReq.mk 2 1 0 1 2 1 () true])
    rfl

/-- C7: when `schedule_next_batch` returns `Some(batch)`, the batch is drawn
from a prefix of the pending queue; that prefix is removed from the front and
replaced by exactly the chunked tails, at the front, in their original
relative order, each carrying the scheduled chunk's handle, table slot and
`cached_len = device_len` (see `requeueOf`). -/
theorem C7_chunked_requeue {σ τ H : Type} (C : PrefillCacheImpl σ H)
    (T : PrefillTableImpl τ) (ms ms' : PrefillManagerState σ τ H)
    (prefill_budget decode_inflight_tokens : Nat) (batch : PrefillBatch H)
    (h : schedule_next_batch C T ms prefill_budget decode_inflight_tokens
          = .ok (some batch, ms')) :
    batch.reqs.length ≤ ms.pending.length ∧
    ms'.pending =
      ((ms.pending.take batch.reqs.length).zip batch.reqs).filterMap requeueOf
        ++ ms.pending.drop batch.reqs.length := by
  unfold schedule_next_batch at h
  split at h
  · cases h
  · split at h
    · cases h
    · split at h
      · cases h
      · cases h
        rename_i s reqs chunked heq hne
        have := scheduleLoop_requeue _ _ _ _ _ heq
        exact ⟨this.1, by rw [this.2]⟩

/-- Witness for C7 at a concrete schedule producing one chunked tail. -/
theorem C7_chunked_requeue_witness :
    (PrefillBatch.mk [ScheduledReq.mk 1 0 0 2 4 2 () false,
        ScheduledReq.mk 2 1 0 1 2 1 () true]).reqs.length ≤
      (PrefillManagerState.mk () 0
        [PendingReq.mk 1 [5, 6] 2 none, PendingReq.mk 2 [7, 7, 7, 7, 7] 1 none]
        : PrefillManagerState Unit Nat Unit).pending.length :=
  (C7_chunked_requeue
    (PrefillCacheImpl.mk (fun s _ => .ok (s, ⟨(), 0, []⟩)) (fun s _ => .ok s)
      (fun s _ => .ok s) (fun _ => 1000))
    (PrefillTableImpl.mk (fun t => 10 - t)
      (fun t => (t + 1, if t < 10 then some (Int.ofNat t) else none)))
    (PrefillManagerState.mk () 0
      [PendingReq.mk 1 [5, 6] 2 none, PendingReq.mk 2 [7, 7, 7, 7, 7] 1 none])
    (PrefillManagerState.mk () 2
      [PendingReq.mk 2 [7, 7, 7, 7, 7] 1 (some (ChunkedReqState.mk () 1 1))])
    3 0
    (PrefillBatch.mk [ScheduledReq.mk 1 0 0 2 4 2 () false,
        ScheduledReq.mk 2 1 0 1 2 1 () true])
    rfl).1

/-- C4: `add_one_req` computes `remain_len = |input_ids| - cached_len`,
`chunk_size = min(token_budget, remain_len)`, marks the request chunked iff
`chunk_size < remain_len`, emits `device_len = cached_len + chunk_size` and
`max_device_len = device_len + output_len`, and updates the planner state to
`token_budget - chunk_size` and `reserved_size + remain_len + output_len`. -/
theorem C4_add_one_req_spec {σ τ H : Type} (s : AdderState σ τ) (req : PendingReq H)
    (allocated : ChunkedReqState H)
    (hc : allocated.cached_len ≤ req.input_ids.length) :
    (add_one_req s req allocated).2.is_chunked
        = decide (min s.token_budget (req.input_ids.length - allocated.cached_len)
            < req.input_ids.length - allocated.cached_len) ∧
    (add_one_req s req allocated).2.device_len
        = allocated.cached_len
            + min s.token_budget (req.input_ids.length - allocated.cached_len) ∧
    (add_one_req s req allocated).2.max_device_len
        = (add_one_req s req allocated).2.device_len + req.output_len ∧
    (add_one_req s req allocated).1.token_budget
        = s.token_budget - min s.token_budget (req.input_ids.length - allocated.cached_len) ∧
    (add_one_req s req allocated).1.reserved_size
        = s.reserved_size + (req.input_ids.length - allocated.cached_len)
            + req.output_len :=
  ⟨rfl, rfl, rfl, rfl, rfl⟩

/-- Witness for C4 at a concrete admission. -/
theorem C4_add_one_req_spec_witness :
    (add_one_req (AdderState.mk 5 0 () ()) (PendingReq.mk 0 [1, 2, 3] 2 none)
        (ChunkedReqState.mk () 3 1)).1.reserved_size
      = 0 + ((3 : Nat) - 1) + 2 :=
  (C4_add_one_req_spec (H := Unit) (AdderState.mk 5 0 () ())
    (PendingReq.mk 0 [1, 2, 3] 2 none) (ChunkedReqState.mk () 3 1) (by decide)).2.2.2.2

theorem i32cast_ne_neg_one {n : Nat} (h : n % 4294967296 ≠ 4294967295) :
    i32cast n ≠ -1 := by
  unfold i32cast
  have hm : n % 4294967296 < 4294967296 := Nat.mod_lt n (by decide)
  intro hcon
  split at hcon
  · omega
  · omega

/-- C9 counterexample: a decodable request whose `device_len` wraps to `-1`
under the `usize as i32` cast defeats the claimed "write position is `-1` if
and only if the request cannot decode". -/
theorem C9_counterexample :
    ¬ (((make_write_tuple [ScheduledReq.mk 0 7 0 4294967295 4294967296 1 () false]).2[0]?
          = some (-1))
        ↔ (ScheduledReq.mk 0 7 0 4294967295 4294967296 1 () false).can_decode = false) := by
  decide

/-- C9 (amended): `make_write_tuple` returns two vectors of length `|reqs|`;
the first maps each request to its `table_idx`; the second entry is the
`i32`-cast `device_len` for decodable requests and `-1` otherwise, and when
`device_len` does not cast to `-1` (in particular whenever it is below
`2^31`), the entry is `-1` if and only if the request cannot decode. -/
theorem C9_make_write_tuple {H : Type} (reqs : List (ScheduledReq H)) (i : Nat)
    (h : i < reqs.length) :
    (make_write_tuple reqs).1.length = reqs.length ∧
    (make_write_tuple reqs).2.length = reqs.length ∧
    (make_write_tuple reqs).1[i]? = some reqs[i].table_idx ∧
    (reqs[i].can_decode = true →
        (make_write_tuple reqs).2[i]? = some (i32cast reqs[i].device_len)) ∧
    (reqs[i].can_decode = false → (make_write_tuple reqs).2[i]? = some (-1)) ∧
    (reqs[i].device_len % 4294967296 ≠ 4294967295 →
        ((make_write_tuple reqs).2[i]? = some (-1) ↔ reqs[i].can_decode = false)) := by
  refine ⟨by simp [make_write_tuple], by simp [make_write_tuple], ?_, ?_, ?_, ?_⟩
  · simp [make_write_tuple, List.getElem?_map, List.getElem?_eq_getElem h]
  · intro hd
    simp [make_write_tuple, List.getElem?_map, List.getElem?_eq_getElem h, hd]
  · intro hd
    simp [make_write_tuple, List.getElem?_map, List.getElem?_eq_getElem h, hd]
  · intro ho
    constructor
    · intro he
      by_contra hcd
      simp only [Bool.not_eq_false] at hcd
      simp [make_write_tuple, List.getElem?_map, List.getElem?_eq_getElem h, hcd] at he
      exact i32cast_ne_neg_one ho he
    · intro hcd
      simp [make_write_tuple, List.getElem?_map, List.getElem?_eq_getElem h, hcd]

/-- Witness for the amended C9. -/
theorem C9_make_write_tuple_witness :
    ((make_write_tuple [ScheduledReq.mk 1 7 2 5 9 4 () false]).2[0]? = some (-1)
      ↔ (ScheduledReq.mk 1 7 2 5 9 4 () false).can_decode = false) :=
  (C9_make_write_tuple (H := Unit) [ScheduledReq.mk 1 7 2 5 9 4 () false] 0
    (by decide)).2.2.2.2.2 (by decide)


/-!
Radix cache development: small algebraic facts about the child map and node
updaters, then the lock/unlock theory.
-/


theorem findChild_setChild_self (cs : List (Int × RadixNode)) (e : Int) (n : RadixNode) :
    findChild (setChild cs e n) e = some n := by
  induction cs with
  | nil => simp [setChild, findChild]
  | cons hd tl ih =>
      obtain ⟨e', c⟩ := hd
      by_cases he : e' = e
      · simp [setChild, findChild, he]
      · simp [setChild, findChild, he, ih]

theorem withChildren_children (t : RadixNode) (cs : List (Int × RadixNode)) :
    (t.withChildren cs).children = cs := by
  cases t; rfl

theorem withRefCount_children (t : RadixNode) (r : Nat) :
    (t.withRefCount r).children = t.children := by
  cases t; rfl

theorem withRefCount_self (t : RadixNode) : t.withRefCount t.ref_count = t := by
  cases t; rfl

theorem withRefCount_withRefCount (t : RadixNode) (a b : Nat) :
    (t.withRefCount a).withRefCount b = t.withRefCount b := by
  cases t; rfl

theorem withRefCount_withChildren_comm (t : RadixNode) (r : Nat) (cs : List (Int × RadixNode)) :
    (t.withRefCount r).withChildren cs = (t.withChildren cs).withRefCount r := by
  cases t; rfl

theorem lockPath_withRefCount (unlock : Bool) (t : RadixNode) (p : List Int)
    (ev pr : Nat) (k : Nat) :
    lockPath unlock (t.withRefCount k) p ev pr
      = (lockPath unlock t p ev pr).map (fun x => (x.1.withRefCount k, x.2)) := by
  cases p with
  | nil => simp [lockPath, Except.map]
  | cons e p =>
      simp only [lockPath, withRefCount_children]
      cases hfc : findChild t.children e with
      | none => simp [Except.map]
      | some c =>
          dsimp only
          cases hlp : lockPath unlock c p ev pr with
          | error err => simp [Except.map]
          | ok res =>
              obtain ⟨c₁, ev₁, pr₁⟩ := res
              dsimp only
              cases hop : lockNodeOp unlock c₁ ev₁ pr₁ with
              | error err => simp [Except.map]
              | ok res₂ =>
                  obtain ⟨c₂, ev₂, pr₂⟩ := res₂
                  simp [Except.map, withRefCount_withChildren_comm]

theorem lockPath_top (unlock : Bool) (t t' : RadixNode) (p : List Int)
    (ev pr ev' pr' : Nat) (h : lockPath unlock t p ev pr = .ok (t', ev', pr')) :
    t'.node_id = t.node_id ∧ t'.key = t.key ∧ t'.value = t.value ∧
    t'.ref_count = t.ref_count ∧ t'.timestamp = t.timestamp := by
  cases p with
  | nil =>
      simp only [lockPath] at h
      cases h
      exact ⟨rfl, rfl, rfl, rfl, rfl⟩
  | cons e p =>
      simp only [lockPath] at h
      cases hfc : findChild t.children e with
      | none => rw [hfc] at h; cases h
      | some c =>
          rw [hfc] at h
          dsimp only at h
          cases hlp : lockPath unlock c p ev pr with
          | error err => rw [hlp] at h; cases h
          | ok res =>
              rw [hlp] at h
              obtain ⟨c₁, ev₁, pr₁⟩ := res
              dsimp only at h
              cases hop : lockNodeOp unlock c₁ ev₁ pr₁ with
              | error err => rw [hop] at h; cases h
              | ok res₂ =>
                  rw [hop] at h
                  obtain ⟨c₂, ev₂, pr₂⟩ := res₂
                  dsimp only at h
                  cases h
                  cases t
                  exact ⟨rfl, rfl, rfl, rfl, rfl⟩

theorem lockNodeOp_inverse (nd nd' : RadixNode) (ev pr ev' pr' : Nat)
    (h : lockNodeOp false nd ev pr = .ok (nd', ev', pr')) :
    lockNodeOp true nd' ev' pr' = .ok (nd, ev, pr) := by
  cases nd with
  | mk i k v r ts cs =>
      by_cases hrc : r = 0
      · subst hrc
        by_cases hle : k.length ≤ ev
        · simp only [lockNodeOp, RadixNode.len, RadixNode.key, RadixNode.ref_count,
            RadixNode.withRefCount, Bool.false_eq_true, if_false, if_pos rfl,
            if_pos hle] at h
          cases h
          simp only [lockNodeOp, RadixNode.len, RadixNode.key, RadixNode.ref_count,
            RadixNode.withRefCount]
          have h1 : ¬ (1 = 0) := by omega
          have h2 : k.length ≤ pr + k.length := by omega
          simp only [if_true, if_neg h1, if_pos rfl, if_pos h2, Nat.sub_add_cancel hle,
            Nat.add_sub_cancel]
        · simp only [lockNodeOp, RadixNode.len, RadixNode.key, RadixNode.ref_count,
            RadixNode.withRefCount, Bool.false_eq_true, if_false, if_pos rfl,
            if_neg hle] at h
          cases h
      · simp only [lockNodeOp, RadixNode.len, RadixNode.key, RadixNode.ref_count,
          RadixNode.withRefCount, Bool.false_eq_true, if_false, if_neg hrc] at h
        cases h
        simp only [lockNodeOp, RadixNode.len, RadixNode.key, RadixNode.ref_count,
          RadixNode.withRefCount]
        have h1 : ¬ (r + 1 = 0) := by omega
        simp only [if_true, if_neg h1, Nat.add_sub_cancel, if_neg hrc]

theorem lockNodeOp_unlock_shift (nd nd' : RadixNode) (ev pr ev' pr' : Nat)
    (h : lockNodeOp true nd ev pr = .ok (nd', ev', pr')) :
    ev ≤ ev' ∧ pr' ≤ pr ∧
    ∀ ev₀ b, lockNodeOp true nd ev₀ (pr + b) = .ok (nd', ev₀ + (ev' - ev), pr' + b) := by
  cases nd with
  | mk i k v r ts cs =>
      by_cases hrc : r = 0
      · simp only [lockNodeOp, RadixNode.ref_count, if_true, if_pos hrc] at h
        cases h
      · simp only [lockNodeOp, RadixNode.ref_count, RadixNode.len, RadixNode.key,
          RadixNode.withRefCount, if_true, if_neg hrc] at h
        by_cases hr1 : r - 1 = 0
        · rw [if_pos hr1] at h
          by_cases hle : k.length ≤ pr
          · rw [if_pos hle] at h
            cases h
            refine ⟨by omega, by omega, ?_⟩
            intro ev₀ b
            simp only [lockNodeOp, RadixNode.ref_count, RadixNode.len, RadixNode.key,
              RadixNode.withRefCount, if_true, if_neg hrc, if_pos hr1,
              if_pos (show k.length ≤ pr + b by omega)]
            have e1 : ev₀ + (ev + k.length - ev) = ev₀ + k.length := by omega
            have e2 : pr - k.length + b = pr + b - k.length := by omega
            rw [e1, e2]
          · rw [if_neg hle] at h
            cases h
        · rw [if_neg hr1] at h
          cases h
          refine ⟨Nat.le_refl _, Nat.le_refl _, ?_⟩
          intro ev₀ b
          simp only [lockNodeOp, RadixNode.ref_count, RadixNode.len, RadixNode.key,
            RadixNode.withRefCount, if_true, if_neg hrc, if_neg hr1, Nat.sub_self,
            Nat.add_zero]

theorem lockPath_unlock_shift (p : List Int) :
    ∀ (t t' : RadixNode) (ev pr ev' pr' : Nat),
      lockPath true t p ev pr = .ok (t', ev', pr') →
      ev ≤ ev' ∧ pr' ≤ pr ∧
      ∀ ev₀ b, lockPath true t p ev₀ (pr + b) = .ok (t', ev₀ + (ev' - ev), pr' + b) := by
  induction p with
  | nil =>
      intro t t' ev pr ev' pr' h
      simp only [lockPath] at h
      cases h
      exact ⟨Nat.le_refl _, Nat.le_refl _, fun ev₀ b => by simp [lockPath]⟩
  | cons e p ih =>
      intro t t' ev pr ev' pr' h
      simp only [lockPath] at h
      cases hfc : findChild t.children e with
      | none => rw [hfc] at h; cases h
      | some c =>
          rw [hfc] at h
          dsimp only at h
          cases hlp : lockPath true c p ev pr with
          | error err => rw [hlp] at h; cases h
          | ok res =>
              rw [hlp] at h
              obtain ⟨c₁, ev₁, pr₁⟩ := res
              dsimp only at h
              cases hop : lockNodeOp true c₁ ev₁ pr₁ with
              | error err => rw [hop] at h; cases h
              | ok res₂ =>
                  rw [hop] at h
                  obtain ⟨c₂, ev₂, pr₂⟩ := res₂
                  dsimp only at h
                  have hrec := ih c c₁ ev pr ev₁ pr₁ hlp
                  have hnode := lockNodeOp_unlock_shift _ _ _ _ _ _ hop
                  cases h
                  refine ⟨by omega, by omega, ?_⟩
                  intro ev₀ b
                  simp only [lockPath, hfc]
                  rw [hrec.2.2 ev₀ b]
                  dsimp only
                  rw [hnode.2.2 (ev₀ + (ev₁ - ev)) b]
                  have e3 : ev₀ + (ev₁ - ev) + (ev' - ev₁) = ev₀ + (ev' - ev) := by omega
                  rw [e3]

theorem setChild_setChild (cs : List (Int × RadixNode)) (e : Int) (a b : RadixNode) :
    setChild (setChild cs e a) e b = setChild cs e b := by
  induction cs with
  | nil => simp [setChild]
  | cons hd tl ih =>
      obtain ⟨e', c⟩ := hd
      by_cases he : e' = e
      · simp [setChild, he]
      · simp [setChild, he, ih]

theorem setChild_findChild_self (cs : List (Int × RadixNode)) (e : Int) (c : RadixNode)
    (h : findChild cs e = some c) : setChild cs e c = cs := by
  induction cs with
  | nil => simp [findChild] at h
  | cons hd tl ih =>
      obtain ⟨e', c'⟩ := hd
      by_cases he : e' = e
      · subst he
        simp [findChild] at h
        simp [setChild, h]
      · simp [findChild, he] at h
        simp [setChild, he, ih h]

theorem withChildren_withChildren (t : RadixNode) (a b : List (Int × RadixNode)) :
    (t.withChildren a).withChildren b = t.withChildren b := by
  cases t; rfl

theorem withChildren_self (t : RadixNode) : t.withChildren t.children = t := by
  cases t; rfl

theorem lockNodeOp_lock_cases (nd nd' : RadixNode) (ev pr ev' pr' : Nat)
    (h : lockNodeOp false nd ev pr = .ok (nd', ev', pr')) :
    nd' = nd.withRefCount (nd.ref_count + 1) ∧
    ((nd.ref_count = 0 ∧ nd.len ≤ ev ∧ ev' = ev - nd.len ∧ pr' = pr + nd.len) ∨
     (nd.ref_count ≠ 0 ∧ ev' = ev ∧ pr' = pr)) := by
  unfold lockNodeOp at h
  simp only [Bool.false_eq_true, if_false] at h
  by_cases hrc : nd.ref_count = 0
  · rw [if_pos hrc] at h
    by_cases hle : nd.len ≤ ev
    · rw [if_pos hle] at h
      cases h
      exact ⟨rfl, Or.inl ⟨hrc, hle, rfl, rfl⟩⟩
    · rw [if_neg hle] at h
      cases h
  · rw [if_neg hrc] at h
    cases h
    exact ⟨rfl, Or.inr ⟨hrc, rfl, rfl⟩⟩

theorem lockNodeOp_unlock_to_zero (nd : RadixNode) (hrc : nd.ref_count = 0)
    (A B : Nat) (hB : nd.len ≤ B) :
    lockNodeOp true (nd.withRefCount 1) A B = .ok (nd, A + nd.len, B - nd.len) := by
  cases nd with
  | mk i k v r ts cs =>
      simp only [RadixNode.ref_count] at hrc
      subst hrc
      simp only [RadixNode.withRefCount, lockNodeOp, RadixNode.ref_count, RadixNode.len,
        RadixNode.key, if_true] at hB ⊢
      have h1 : ¬ (1 = 0) := by omega
      simp only [if_neg h1, if_pos rfl, if_pos hB]

theorem lockNodeOp_unlock_pos (nd : RadixNode) (hrc : nd.ref_count ≠ 0) (A B : Nat) :
    lockNodeOp true (nd.withRefCount (nd.ref_count + 1)) A B = .ok (nd, A, B) := by
  cases nd with
  | mk i k v r ts cs =>
      simp only [RadixNode.ref_count] at hrc
      simp only [RadixNode.withRefCount, lockNodeOp, RadixNode.ref_count, RadixNode.len,
        RadixNode.key, if_true]
      have h1 : ¬ (r + 1 = 0) := by omega
      simp only [if_neg h1, Nat.add_sub_cancel, if_neg hrc]

theorem lockPath_lock_unlock (p : List Int) :
    ∀ (t t' : RadixNode) (ev pr ev' pr' : Nat),
      lockPath false t p ev pr = .ok (t', ev', pr') →
      lockPath true t' p ev' pr' = .ok (t, ev, pr) := by
  induction p with
  | nil =>
      intro t t' ev pr ev' pr' h
      simp only [lockPath] at h ⊢
      cases h
      rfl
  | cons e p ih =>
      intro t t' ev pr ev' pr' h
      simp only [lockPath] at h
      cases hfc : findChild t.children e with
      | none => rw [hfc] at h; cases h
      | some c =>
          rw [hfc] at h
          dsimp only at h
          cases hlp : lockPath false c p ev pr with
          | error err => rw [hlp] at h; cases h
          | ok res =>
              rw [hlp] at h
              obtain ⟨c₁, ev₁, pr₁⟩ := res
              dsimp only at h
              cases hop : lockNodeOp false c₁ ev₁ pr₁ with
              | error err => rw [hop] at h; cases h
              | ok res₂ =>
                  rw [hop] at h
                  obtain ⟨c₂, ev₂, pr₂⟩ := res₂
                  dsimp only at h
                  have hihc := ih c c₁ ev pr ev₁ pr₁ hlp
                  have htop := lockPath_top true c₁ c p ev₁ pr₁ ev pr hihc
                  have hshift := lockPath_unlock_shift p c₁ c ev₁ pr₁ ev pr hihc
                  have hcase := lockNodeOp_lock_cases _ _ _ _ _ _ hop
                  have hlen : c.len = c₁.len := by
                    simp only [RadixNode.len, htop.2.1]
                  have hrceq : c.ref_count = c₁.ref_count := htop.2.2.2.1
                  cases h
                  simp only [lockPath, withChildren_children, findChild_setChild_self]
                  rcases hcase.2 with ⟨hrc0, hle, hev2, hpr2⟩ | ⟨hrcpos, hev2, hpr2⟩
                  · -- the deepest lock moved this node from evictable to protected
                    subst hev2
                    subst hpr2
                    rw [hcase.1, lockPath_withRefCount, hshift.2.2 (ev₁ - c₁.len) c₁.len]
                    dsimp only [Except.map]
                    rw [hrc0, lockNodeOp_unlock_to_zero c (hrceq.trans hrc0) _ _
                      (by rw [hlen]; omega)]
                    have e1 : ev₁ - c₁.len + (ev - ev₁) + c.len = ev := by
                      rw [hlen]; omega
                    have e2 : pr + c₁.len - c.len = pr := by rw [hlen]; omega
                    rw [e1, e2]
                    dsimp only
                    rw [withChildren_withChildren, setChild_setChild,
                      setChild_findChild_self _ _ _ hfc, withChildren_self]
                  · -- the node already had a positive refcount
                    subst hev2
                    subst hpr2
                    rw [hcase.1, lockPath_withRefCount, hihc]
                    dsimp only [Except.map]
                    rw [← hrceq, lockNodeOp_unlock_pos c (by rw [hrceq]; exact hrcpos)]
                    dsimp only
                    rw [withChildren_withChildren, setChild_setChild,
                      setChild_findChild_self _ _ _ hfc, withChildren_self]

theorem lock_handle_inverse (m m₁ : RadixCacheManager) (h : RadixCacheHandle)
    (hl : lock_handle m h false = .ok m₁) :
    lock_handle m₁ h true = .ok m := by
  unfold lock_handle at hl ⊢
  cases hlp : lockPath false m.root_node h.path m.evictable_size m.protected_size with
  | error e => rw [hlp] at hl; cases hl
  | ok res =>
      rw [hlp] at hl
      obtain ⟨t, ev, pr⟩ := res
      dsimp only at hl
      cases hl
      dsimp only
      rw [lockPath_lock_unlock _ _ _ _ _ _ _ hlp]

theorem lockHandleIter_succ_last (h : RadixCacheHandle) (u : Bool) :
    ∀ (n : Nat) (m : RadixCacheManager),
      lockHandleIter h u (n + 1) m =
        match lockHandleIter h u n m with
        | .error e => .error e
        | .ok w => lock_handle w h u := by
  intro n
  induction n with
  | zero =>
      intro m
      simp only [lockHandleIter]
      cases lock_handle m h u with
      | error e => rfl
      | ok w => simp [lockHandleIter]
  | succ n ih =>
      intro m
      show (match lock_handle m h u with
            | .error e => (.error e : Except CacheError RadixCacheManager)
            | .ok m₁ => lockHandleIter h u (n + 1) m₁) = _
      cases hl : lock_handle m h u with
      | error e =>
          simp only [lockHandleIter, hl]
      | ok m₁ =>
          dsimp only
          rw [ih m₁]
          have heval : lockHandleIter h u (n + 1) m = lockHandleIter h u n m₁ := by
            simp only [lockHandleIter, hl]
          rw [heval]

/-- C6: lock and unlock are balanced — for every well-formed cache and every
handle to a live node, `n` successful `lock_handle(h, lock)` calls followed by
`n` `lock_handle(h, unlock)` calls restore exactly the starting manager state:
every refcount on the handle's root path, and both `evictable_size` and
`protected_size`, return to their initial values. -/
theorem C6_balanced_lock_unlock (m m' : RadixCacheManager) (h : RadixCacheHandle)
    (N : Nat) (hl : lockHandleIter h false N m = .ok m') :
    lockHandleIter h true N m' = .ok m := by
  induction N generalizing m m' with
  | zero =>
      simp only [lockHandleIter] at hl ⊢
      cases hl
      rfl
  | succ n ih =>
      simp only [lockHandleIter] at hl
      cases hfirst : lock_handle m h false with
      | error e => rw [hfirst] at hl; cases hl
      | ok m₁ =>
          rw [hfirst] at hl
          have hrest := ih m₁ m' hl
          rw [lockHandleIter_succ_last, hrest]
          exact lock_handle_inverse m m₁ h hfirst

/-- Witness for C6 at a concrete cache, handle and `N = 2`: double-locking the
leaf of a freshly inserted `[1, 2]` moves 2 units from evictable to protected,
and double-unlocking restores the original manager state. -/
theorem C6_balanced_lock_unlock_witness :
    lockHandleIter ⟨2, [1]⟩ true 2
      (RadixCacheManager.mk
        (RadixNode.mk 0 [] [] 1 0 [(1, RadixNode.mk 1 [1, 2] [5, 6] 2 2 [])]) 2 0 2 3)
      = .ok (RadixCacheManager.mk
        (RadixNode.mk 0 [] [] 1 0 [(1, RadixNode.mk 1 [1, 2] [5, 6] 0 2 [])]) 2 2 0 3) :=
  C6_balanced_lock_unlock
    (RadixCacheManager.mk
      (RadixNode.mk 0 [] [] 1 0 [(1, RadixNode.mk 1 [1, 2] [5, 6] 0 2 [])]) 2 2 0 3)
    (RadixCacheManager.mk
      (RadixNode.mk 0 [] [] 1 0 [(1, RadixNode.mk 1 [1, 2] [5, 6] 2 2 [])]) 2 0 2 3)
    ⟨2, [1]⟩ 2 rfl


/-!
Walk theory: the master specification of `walkLoop` and its consequences for
`match_prefix`, `insert_prefix` and the integrity check.
-/


theorem commonPrefixLen_le_left (a b : List Int) : commonPrefixLen a b ≤ a.length := by
  induction a generalizing b with
  | nil => simp [commonPrefixLen]
  | cons x xs ih =>
      cases b with
      | nil => simp [commonPrefixLen]
      | cons y ys =>
          simp only [commonPrefixLen]
          split
      
          · exact Nat.succ_le_succ (ih ys)
          · omega

theorem commonPrefixLen_le_right (a b : List Int) : commonPrefixLen a b ≤ b.length := by
  induction a generalizing b with
  | nil => simp [commonPrefixLen]
  | cons x xs ih =>
      cases b with
      | nil => simp [commonPrefixLen]
      | cons y ys =>
          simp only [commonPrefixLen, List.length_cons]
          split
          · exact Nat.succ_le_succ (ih ys)
          · omega

theorem commonPrefixLen_self_append (k r : List Int) :
    commonPrefixLen k (k ++ r) = k.length := by
  induction k with
  | nil => cases r <;> simp [commonPrefixLen]
  | cons x xs ih => simp [commonPrefixLen, ih]

theorem take_commonPrefixLen_eq (a b : List Int) :
    a.take (commonPrefixLen a b) = b.take (commonPrefixLen a b) := by
  induction a generalizing b with
  | nil => simp [commonPrefixLen]
  | cons x xs ih =>
      cases b with
      | nil => simp [commonPrefixLen]
      | cons y ys =>
          simp only [commonPrefixLen]
          split
          · rename_i hxy
            subst hxy
            simp [List.take_succ_cons, ih ys]
          · simp

theorem commonPrefixLen_full_take (a b : List Int) (h : commonPrefixLen a b = a.length) :
    b.take a.length = a := by
  have := take_commonPrefixLen_eq a b
  rw [h] at this
  simpa using this.symm

theorem wfChildren_findChild (cs : List (Int × RadixNode)) (e : Int) (c : RadixNode)
    (hwf : wfChildren cs = true) (h : findChild cs e = some c) :
    wfNode c = true ∧ c.key.head? = some e := by
  induction cs with
  | nil => simp [findChild] at h
  | cons hd tl ih =>
      obtain ⟨e', c'⟩ := hd
      simp only [wfChildren, Bool.and_eq_true] at hwf
      by_cases he : e' = e
      · subst he
        simp [findChild] at h
        subst h
        exact ⟨hwf.1.1.2, by simpa using hwf.1.1.1⟩
      · simp only [findChild, if_neg he] at h
        exact ih hwf.2 h

theorem findChild_setChild_ne (cs : List (Int × RadixNode)) (e e' : Int) (n : RadixNode)
    (h : e' ≠ e) : findChild (setChild cs e n) e' = findChild cs e' := by
  induction cs with
  | nil => simp [setChild, findChild, Ne.symm h]
  | cons hd tl ih =>
      obtain ⟨e₁, c⟩ := hd
      by_cases he : e₁ = e
      · subst he
        simp only [setChild, if_pos rfl, findChild]
        rw [if_neg (Ne.symm h), if_neg (Ne.symm h)]
      · simp only [setChild, if_neg he, findChild]
        by_cases he' : e₁ = e'
        · simp [he']
        · simp [he', ih]

theorem wfChildren_setChild (cs : List (Int × RadixNode)) (e : Int) (c' : RadixNode)
    (hwf : wfChildren cs = true) (hhead : c'.key.head? = some e)
    (hnode : wfNode c' = true) :
    wfChildren (setChild cs e c') = true := by
  induction cs with
  | nil => simp [setChild, wfChildren, hhead, hnode, findChild]
  | cons hd tl ih =>
      obtain ⟨e₁, c₁⟩ := hd
      simp only [wfChildren, Bool.and_eq_true] at hwf
      by_cases he : e₁ = e
      · subst he
        simp only [setChild, if_pos rfl, wfChildren, Bool.and_eq_true]
        exact ⟨⟨⟨by simp [hhead], hnode⟩, hwf.1.2⟩, hwf.2⟩
      · simp only [setChild, if_neg he, wfChildren, Bool.and_eq_true]
        refine ⟨⟨⟨hwf.1.1.1, hwf.1.1.2⟩, ?_⟩, ih hwf.2⟩
        rw [findChild_setChild_ne tl e e₁ c' (by simp [he])]
        exact hwf.1.2

theorem evictableSumL_setChild_found (cs : List (Int × RadixNode)) (e : Int)
    (c c' : RadixNode) (h : findChild cs e = some c) :
    evictableSumL (setChild cs e c') + evictableSum c
      = evictableSumL cs + evictableSum c' := by
  induction cs with
  | nil => simp [findChild] at h
  | cons hd tl ih =>
      obtain ⟨e₁, c₁⟩ := hd
      by_cases he : e₁ = e
      · subst he
        simp only [findChild, if_pos rfl] at h
        cases h
        simp only [setChild, if_pos rfl, evictableSumL]
        omega
      · simp only [findChild, if_neg he] at h
        simp only [setChild, if_neg he, evictableSumL]
        have := ih h
        omega

theorem protectedSumL_setChild_found (cs : List (Int × RadixNode)) (e : Int)
    (c c' : RadixNode) (h : findChild cs e = some c) :
    protectedSumL (setChild cs e c') + protectedSum c
      = protectedSumL cs + protectedSum c' := by
  induction cs with
  | nil => simp [findChild] at h
  | cons hd tl ih =>
      obtain ⟨e₁, c₁⟩ := hd
      by_cases he : e₁ = e
      · subst he
        simp only [findChild, if_pos rfl] at h
        cases h
        simp only [setChild, if_pos rfl, protectedSumL]
        omega
      · simp only [findChild, if_neg he] at h
        simp only [setChild, if_neg he, protectedSumL]
        have := ih h
        omega

theorem evictableSumL_setChild_new (cs : List (Int × RadixNode)) (e : Int)
    (c' : RadixNode) (h : findChild cs e = none) :
    evictableSumL (setChild cs e c') = evictableSumL cs + evictableSum c' := by
  induction cs with
  | nil => simp [setChild, evictableSumL]
  | cons hd tl ih =>
      obtain ⟨e₁, c₁⟩ := hd
      by_cases he : e₁ = e
      · simp [findChild, he] at h
      · simp only [findChild, if_neg he] at h
        simp only [setChild, if_neg he, evictableSumL, ih h]
        omega

theorem protectedSumL_setChild_new (cs : List (Int × RadixNode)) (e : Int)
    (c' : RadixNode) (h : findChild cs e = none) :
    protectedSumL (setChild cs e c') = protectedSumL cs + protectedSum c' := by
  induction cs with
  | nil => simp [setChild, protectedSumL]
  | cons hd tl ih =>
      obtain ⟨e₁, c₁⟩ := hd
      by_cases he : e₁ = e
      · simp [findChild, he] at h
      · simp only [findChild, if_neg he] at h
        simp only [setChild, if_neg he, protectedSumL, ih h]
        omega

theorem treeIdsL_setChild_found (cs : List (Int × RadixNode)) (e : Int)
    (c c' : RadixNode) (h : findChild cs e = some c) :
    ∃ pre post, treeIdsL cs = pre ++ treeIds c ++ post ∧
      treeIdsL (setChild cs e c') = pre ++ treeIds c' ++ post := by
  induction cs with
  | nil => simp [findChild] at h
  | cons hd tl ih =>
      obtain ⟨e₁, c₁⟩ := hd
      by_cases he : e₁ = e
      · subst he
        simp only [findChild, if_pos rfl] at h
        cases h
        exact ⟨[], treeIdsL tl, by simp [treeIdsL], by simp [setChild, treeIdsL]⟩
      · simp only [findChild, if_neg he] at h
        obtain ⟨pre, post, h1, h2⟩ := ih h
        refine ⟨treeIds c₁ ++ pre, post, ?_, ?_⟩
        · simp [treeIdsL, h1]
        · simp [setChild, if_neg he, treeIdsL, h2]

theorem treeIdsL_setChild_new (cs : List (Int × RadixNode)) (e : Int)
    (c' : RadixNode) (h : findChild cs e = none) :
    treeIdsL (setChild cs e c') = treeIdsL cs ++ treeIds c' := by
  induction cs with
  | nil => simp [setChild, treeIdsL]
  | cons hd tl ih =>
      obtain ⟨e₁, c₁⟩ := hd
      by_cases he : e₁ = e
      · simp [findChild, he] at h
      · simp only [findChild, if_neg he] at h
        simp [setChild, if_neg he, treeIdsL, ih h]

theorem withTimestamp_fields (c : RadixNode) (ts : Nat) :
    (c.withTimestamp ts).node_id = c.node_id ∧ (c.withTimestamp ts).key = c.key ∧
    (c.withTimestamp ts).value = c.value ∧
    (c.withTimestamp ts).ref_count = c.ref_count ∧
    (c.withTimestamp ts).children = c.children := by
  cases c
  exact ⟨rfl, rfl, rfl, rfl, rfl⟩

theorem evictableSum_withTimestamp (c : RadixNode) (ts : Nat) :
    evictableSum (c.withTimestamp ts) = evictableSum c := by
  cases c; simp [RadixNode.withTimestamp, evictableSum]

theorem protectedSum_withTimestamp (c : RadixNode) (ts : Nat) :
    protectedSum (c.withTimestamp ts) = protectedSum c := by
  cases c; simp [RadixNode.withTimestamp, protectedSum]

theorem treeIds_withTimestamp (c : RadixNode) (ts : Nat) :
    treeIds (c.withTimestamp ts) = treeIds c := by
  cases c; simp [RadixNode.withTimestamp, treeIds]

theorem wfNode_withTimestamp (c : RadixNode) (ts : Nat) :
    wfNode (c.withTimestamp ts) = wfNode c := by
  cases c; simp [RadixNode.withTimestamp, wfNode]

theorem lookupLen_withTimestamp (fuel : Nat) (c : RadixNode) (ts : Nat) (ids : List Int) :
    lookupLen fuel (c.withTimestamp ts) ids = lookupLen fuel c ids := by
  cases fuel with
  | zero => rfl
  | succ fuel =>
      cases ids with
      | nil => rfl
      | cons x rest =>
          cases c
          simp [lookupLen, RadixNode.withTimestamp, RadixNode.children]

theorem commonPrefixLen_lt_ne (a b : List Int) (h : commonPrefixLen a b < a.length)
    (h2 : commonPrefixLen a b < b.length) :
    a.get ⟨commonPrefixLen a b, h⟩ ≠ b.get ⟨commonPrefixLen a b, h2⟩ := by
  induction a generalizing b with
  | nil => simp at h
  | cons x xs ih =>
      cases b with
      | nil => simp at h2
      | cons y ys =>
          by_cases hxy : x = y
          · subst hxy
            simp only [commonPrefixLen, if_pos rfl] at h h2 ⊢
            have hx : commonPrefixLen xs ys < xs.length := by simpa using h
            have hy : commonPrefixLen xs ys < ys.length := by simpa using h2
            have := ih ys hx hy
            simpa using this
          · simp only [commonPrefixLen, if_neg hxy] at h h2 ⊢
            simpa using hxy

theorem wfNode_iff (c : RadixNode) :
    wfNode c = true ↔ c.key ≠ [] ∧ c.key.length = c.value.length ∧
      wfChildren c.children = true := by
  cases c
  simp [wfNode, RadixNode.key, RadixNode.value, RadixNode.children,
    List.isEmpty_iff, and_assoc]

theorem evictableSum_eq (c : RadixNode) :
    evictableSum c
      = (if c.ref_count = 0 then c.key.length else 0) + evictableSumL c.children := by
  cases c; rfl

theorem protectedSum_eq (c : RadixNode) :
    protectedSum c
      = (if c.ref_count = 0 then 0 else c.key.length) + protectedSumL c.children := by
  cases c; rfl

theorem treeIds_eq (c : RadixNode) : treeIds c = c.node_id :: treeIdsL c.children := by
  cases c; rfl

theorem key_mk (i : Nat) (k v : List Int) (r ts : Nat) (cs : List (Int × RadixNode)) :
    (RadixNode.mk i k v r ts cs).key = k := rfl

theorem value_mk (i : Nat) (k v : List Int) (r ts : Nat) (cs : List (Int × RadixNode)) :
    (RadixNode.mk i k v r ts cs).value = v := rfl

theorem ref_count_mk (i : Nat) (k v : List Int) (r ts : Nat) (cs : List (Int × RadixNode)) :
    (RadixNode.mk i k v r ts cs).ref_count = r := rfl

theorem timestamp_mk (i : Nat) (k v : List Int) (r ts : Nat) (cs : List (Int × RadixNode)) :
    (RadixNode.mk i k v r ts cs).timestamp = ts := rfl

theorem node_id_mk (i : Nat) (k v : List Int) (r ts : Nat) (cs : List (Int × RadixNode)) :
    (RadixNode.mk i k v r ts cs).node_id = i := rfl

theorem children_mk (i : Nat) (k v : List Int) (r ts : Nat) (cs : List (Int × RadixNode)) :
    (RadixNode.mk i k v r ts cs).children = cs := rfl

theorem len_mk (i : Nat) (k v : List Int) (r ts : Nat) (cs : List (Int × RadixNode)) :
    (RadixNode.mk i k v r ts cs).len = k.length := rfl

theorem split_node_spec (nid : Nat) (c : RadixNode) (pos : Nat)
    (hwf : wfNode c = true) (hpos : 0 < pos) (hlt : pos < c.key.length) :
    ∃ splitN, split_node nid c pos = .ok (splitN, nid + 1) ∧
      splitN.key = c.key.take pos ∧
      splitN.ref_count = c.ref_count ∧
      splitN.timestamp = c.timestamp ∧
      splitN.node_id = nid ∧
      wfNode splitN = true ∧
      evictableSum splitN = evictableSum c ∧
      protectedSum splitN = protectedSum c ∧
      treeIds splitN = nid :: treeIds c ∧
      (∀ z, z ≠ c.key.get ⟨pos, hlt⟩ → findChild splitN.children z = none) := by
  obtain ⟨hk, hkv, hcs⟩ := (wfNode_iff c).mp hwf
  have hcond : ¬ (pos = 0 ∨ c.key.length ≤ pos) := by omega
  have hdrop : (c.key.drop pos).head? = some (c.key.get ⟨pos, hlt⟩) := by
    rw [List.head?_drop]
    exact List.getElem?_eq_getElem hlt
  refine ⟨RadixNode.mk nid (c.key.take pos) (c.value.take pos) c.ref_count c.timestamp
    [(c.key.get ⟨pos, hlt⟩, RadixNode.mk c.node_id (c.key.drop pos) (c.value.drop pos)
      c.ref_count c.timestamp c.children)], ?_, ?_, ?_, ?_, ?_, ?_, ?_, ?_, ?_, ?_⟩
  · unfold split_node
    rw [if_neg hcond]
    dsimp only
    rw [hdrop]
  · rw [key_mk]
  · rw [ref_count_mk]
  · rw [timestamp_mk]
  · rw [node_id_mk]
  · rw [wfNode_iff]
    refine ⟨?_, ?_, ?_⟩
    · rw [key_mk]
      intro hnil
      have hlen := congrArg List.length hnil
      simp only [List.length_take, List.length_nil] at hlen
      omega
    · rw [key_mk, value_mk]
      simp only [List.length_take]
      omega
    · rw [children_mk]
      simp only [wfChildren, Bool.and_eq_true]
      refine ⟨⟨⟨?_, ?_⟩, ?_⟩, ?_⟩
      · rw [key_mk, hdrop]
        simp
      · rw [wfNode_iff, key_mk, value_mk, children_mk]
        refine ⟨?_, ?_, hcs⟩
        · intro hnil
          have hlen := congrArg List.length hnil
          simp only [List.length_drop, List.length_nil] at hlen
          omega
        · simp only [List.length_drop]
          omega
      · simp [findChild]
      · simp [wfChildren]
  · rw [evictableSum_eq, evictableSum_eq c]
    rw [ref_count_mk, key_mk, children_mk]
    simp only [evictableSumL, evictableSum_eq, ref_count_mk, key_mk, children_mk]
    simp only [List.length_take, List.length_drop]
    split <;> omega
  · rw [protectedSum_eq, protectedSum_eq c]
    rw [ref_count_mk, key_mk, children_mk]
    simp only [protectedSumL, protectedSum_eq, ref_count_mk, key_mk, children_mk]
    simp only [List.length_take, List.length_drop]
    split <;> omega
  · rw [treeIds_eq, treeIds_eq c]
    rw [node_id_mk, children_mk]
    simp only [treeIdsL, treeIds_eq, node_id_mk, children_mk]
    simp
  · intro z hz
    rw [children_mk]
    simp only [findChild]
    rw [if_neg (Ne.symm hz)]

theorem perm_count_helper (pre post A A' L : List Nat) (h : A'.Perm (A ++ L)) :
    (pre ++ A' ++ post).Perm ((pre ++ A ++ post) ++ L) := by
  rw [List.perm_iff_count]
  intro a
  have hc := List.perm_iff_count.mp h a
  simp only [List.count_append] at hc ⊢
  omega

theorem withChildren_fields (t : RadixNode) (cs : List (Int × RadixNode)) :
    (t.withChildren cs).node_id = t.node_id ∧ (t.withChildren cs).key = t.key ∧
    (t.withChildren cs).value = t.value ∧ (t.withChildren cs).ref_count = t.ref_count ∧
    (t.withChildren cs).timestamp = t.timestamp := by
  cases t
  exact ⟨rfl, rfl, rfl, rfl, rfl⟩

theorem walkLoop_spec :
    ∀ (fuel : Nat) (t : RadixNode) (ids : List Int) (nid tick : Nat),
      wfChildren t.children = true →
      ids.length < fuel →
      ∃ t' path n nid',
        walkLoop tick fuel t ids nid = .ok (t', path, n, nid') ∧
        t'.node_id = t.node_id ∧ t'.key = t.key ∧ t'.value = t.value ∧
        t'.ref_count = t.ref_count ∧ t'.timestamp = t.timestamp ∧
        wfChildren t'.children = true ∧
        evictableSum t' = evictableSum t ∧
        protectedSum t' = protectedSum t ∧
        n ≤ ids.length ∧
        keysAlong t' path = some (ids.take n) ∧
        (∃ nd, nodeAt t' path = some nd ∧
          ∀ hnl : n < ids.length, findChild nd.children (ids.get ⟨n, hnl⟩) = none) ∧
        n = lookupLen fuel t ids ∧
        ((treeIds t').Perm (treeIds t) ∧ nid' = nid ∨
         (treeIds t').Perm (treeIds t ++ [nid]) ∧ nid' = nid + 1) := by
  intro fuel
  induction fuel with
  | zero =>
      intro t ids nid tick hwf hfuel
      omega
  | succ fuel ih =>
      intro t ids nid tick hwf hfuel
      cases ids with
      | nil =>
          refine ⟨t, [], 0, nid, ?_, rfl, rfl, rfl, rfl, rfl, hwf, rfl, rfl, ?_, ?_, ?_, ?_, ?_⟩
          · rfl
          · simp
          · simp [keysAlong]
          · exact ⟨t, rfl, fun h => by simp at h⟩
          · rfl
          · exact Or.inl ⟨List.Perm.refl _, rfl⟩
      | cons x rest =>
          cases hfc : findChild t.children x with
          | none =>
              refine ⟨t, [], 0, nid, ?_, rfl, rfl, rfl, rfl, rfl, hwf, rfl, rfl, ?_, ?_, ?_, ?_, ?_⟩
              · simp only [walkLoop, hfc]
              · simp
              · simp [keysAlong]
              · exact ⟨t, rfl, fun h => by simpa using hfc⟩
              · simp [lookupLen, hfc]
              · exact Or.inl ⟨List.Perm.refl _, rfl⟩
          | some c =>
              obtain ⟨hwfc, hhead⟩ := wfChildren_findChild _ _ _ hwf hfc
              obtain ⟨hknil, hkv, hccs⟩ := (wfNode_iff c).mp hwfc
              have hklen : 0 < c.key.length := List.length_pos.mpr hknil
              by_cases hm : commonPrefixLen c.key (x :: rest) = c.key.length
              · -- full edge match: refresh timestamp, descend
                have hmle : c.key.length ≤ (x :: rest).length := by
                  have := commonPrefixLen_le_right c.key (x :: rest)
                  omega
                have htake : (x :: rest).take c.key.length = c.key :=
                  commonPrefixLen_full_take _ _ hm
                obtain ⟨hwid, hwkey, hwval, hwrc, hwcs⟩ :=
                  withTimestamp_fields c tick
                have hdroplen : ((x :: rest).drop c.key.length).length < fuel := by
                  simp only [List.length_drop]
                  simp only [List.length_cons] at hfuel ⊢
                  omega
                obtain ⟨c'', p', n', nid', hrec, hid, hkey, hval, hrc, hts, hwf'',
                  hes, hps, hn'le, hka, ⟨nd, hnd, hconf⟩, hlk, hperm⟩ :=
                  ih (c.withTimestamp tick) ((x :: rest).drop c.key.length) nid tick
                    (by rw [hwcs]; exact hccs) hdroplen
                have hckey : c''.key = c.key := by rw [hkey, hwkey]
                have hcval : c''.value = c.value := by rw [hval, hwval]
                refine ⟨t.withChildren (setChild t.children x c''), x :: p',
                  c.key.length + n', nid', ?_, ?_, ?_, ?_, ?_, ?_, ?_, ?_, ?_, ?_, ?_, ?_, ?_, ?_⟩
                · simp only [walkLoop, hfc]
                  rw [if_pos hm, hm, hrec]
                · exact (withChildren_fields t _).1
                · exact (withChildren_fields t _).2.1
                · exact (withChildren_fields t _).2.2.1
                · exact (withChildren_fields t _).2.2.2.1
                · exact (withChildren_fields t _).2.2.2.2
                · rw [withChildren_children]
                  refine wfChildren_setChild _ _ _ hwf ?_ ?_
                  · rw [hckey]; exact hhead
                  · rw [wfNode_iff, hckey, hcval]
                    exact ⟨hknil, hkv, hwf''⟩
                · rw [evictableSum_eq, evictableSum_eq t, withChildren_children,
                    (withChildren_fields t _).2.1, (withChildren_fields t _).2.2.2.1]
                  have h1 := evictableSumL_setChild_found t.children x c c'' hfc
                  have h2 : evictableSum c'' = evictableSum c := by
                    rw [hes, evictableSum_withTimestamp]
                  omega
                · rw [protectedSum_eq, protectedSum_eq t, withChildren_children,
                    (withChildren_fields t _).2.1, (withChildren_fields t _).2.2.2.1]
                  have h1 := protectedSumL_setChild_found t.children x c c'' hfc
                  have h2 : protectedSum c'' = protectedSum c := by
                    rw [hps, protectedSum_withTimestamp]
                  omega
                · have h1 : n' ≤ (x :: rest).length - c.key.length := by
                    simpa [List.length_drop] using hn'le
                  omega
                · simp only [keysAlong, withChildren_children,
                    findChild_setChild_self]
                  rw [hka]
                  simp only [hckey]
                  rw [List.take_add, htake]
                · refine ⟨nd, ?_, ?_⟩
                  · simp only [nodeAt, withChildren_children, findChild_setChild_self]
                    exact hnd
                  · intro hnl
                    have hnl' : n' < ((x :: rest).drop c.key.length).length := by
                      simp only [List.length_drop]
                      simp only [List.length_cons] at hnl ⊢
                      omega
                    have := hconf hnl'
                    have hgeq : ((x :: rest).drop c.key.length).get ⟨n', hnl'⟩
                        = (x :: rest).get ⟨c.key.length + n', hnl⟩ := by
                      simp only [List.get_eq_getElem]
                      exact (List.getElem_drop' (x :: rest) hnl).symm
                    rw [← hgeq]
                    exact this
                · simp only [lookupLen, hfc]
                  rw [if_pos hm, hm]
                  congr 1
                  rw [hlk, lookupLen_withTimestamp]
                · obtain ⟨pre, post, hold, hnew⟩ :=
                    treeIdsL_setChild_found t.children x c c'' hfc
                  have htc : treeIds (c.withTimestamp tick) = treeIds c :=
                    treeIds_withTimestamp c tick
                  rcases hperm with ⟨hp, hnid⟩ | ⟨hp, hnid⟩
                  · refine Or.inl ⟨?_, hnid⟩
                    rw [treeIds_eq, treeIds_eq t, withChildren_children,
                      (withChildren_fields t _).1, hnew, hold]
                    have : (treeIds c'').Perm (treeIds c ++ []) := by
                      simpa [htc] using hp
                    have := perm_count_helper pre post (treeIds c) (treeIds c'') [] this
                    simpa using this.cons t.node_id
                  · refine Or.inr ⟨?_, hnid⟩
                    rw [treeIds_eq, treeIds_eq t, withChildren_children,
                      (withChildren_fields t _).1, hnew, hold]
                    have : (treeIds c'').Perm (treeIds c ++ [nid]) := by
                      simpa [htc] using hp
                    have := perm_count_helper pre post (treeIds c) (treeIds c'') [nid] this
                    have h2 := this.cons t.node_id
                    refine h2.trans ?_
                    rw [List.perm_iff_count]
                    intro a
                    simp only [List.count_append, List.count_cons, List.count_nil]
                    omega
              · -- partial match: split the child
                obtain ⟨ktail, hck⟩ : ∃ ktail, c.key = x :: ktail := by
                  cases hk : c.key with
                  | nil => rw [hk] at hhead; simp at hhead
                  | cons a b =>
                      rw [hk] at hhead
                      simp at hhead
                      exact ⟨b, by rw [hhead]⟩
                have hMpos : 0 < commonPrefixLen c.key (x :: rest) := by
                  rw [hck]
                  simp [commonPrefixLen]
                have hMlt : commonPrefixLen c.key (x :: rest) < c.key.length := by
                  have := commonPrefixLen_le_left c.key (x :: rest)
                  omega
                have hMle : commonPrefixLen c.key (x :: rest) ≤ (x :: rest).length :=
                  commonPrefixLen_le_right _ _
                obtain ⟨splitN, hsplit, hskey, hsrc, hsts, hsid, hswf, hses, hsps,
                  hstids, hsconf⟩ :=
                  split_node_spec nid c (commonPrefixLen c.key (x :: rest)) hwfc hMpos hMlt
                have hsheadx : splitN.key.head? = some x := by
                  rw [hskey, hck]
                  rw [hck] at hMpos
                  cases hmm : commonPrefixLen (x :: ktail) (x :: rest) with
                  | zero => omega
                  | succ mm => simp [List.take_succ_cons]
                refine ⟨t.withChildren (setChild t.children x splitN), [x],
                  commonPrefixLen c.key (x :: rest), nid + 1, ?_, ?_, ?_, ?_, ?_, ?_,
                  ?_, ?_, ?_, ?_, ?_, ?_, ?_, ?_⟩
                · simp only [walkLoop, hfc]
                  rw [if_neg hm, hsplit]
                  dsimp only
                  rw [hck]
                  rfl
                · exact (withChildren_fields t _).1
                · exact (withChildren_fields t _).2.1
                · exact (withChildren_fields t _).2.2.1
                · exact (withChildren_fields t _).2.2.2.1
                · exact (withChildren_fields t _).2.2.2.2
                · rw [withChildren_children]
                  exact wfChildren_setChild _ _ _ hwf hsheadx hswf
                · rw [evictableSum_eq, evictableSum_eq t, withChildren_children,
                    (withChildren_fields t _).2.1, (withChildren_fields t _).2.2.2.1]
                  have h1 := evictableSumL_setChild_found t.children x c splitN hfc
                  omega
                · rw [protectedSum_eq, protectedSum_eq t, withChildren_children,
                    (withChildren_fields t _).2.1, (withChildren_fields t _).2.2.2.1]
                  have h1 := protectedSumL_setChild_found t.children x c splitN hfc
                  omega
                · exact hMle
                · simp only [keysAlong, withChildren_children, findChild_setChild_self,
                    List.append_nil]
                  rw [hskey, take_commonPrefixLen_eq]
                · refine ⟨splitN, ?_, ?_⟩
                  · simp only [nodeAt, withChildren_children, findChild_setChild_self]
                  · intro hnl
                    refine hsconf _ ?_
                    intro heq
                    exact commonPrefixLen_lt_ne c.key (x :: rest) hMlt hnl heq.symm
                · simp only [lookupLen, hfc]
                  rw [if_neg hm]
                · obtain ⟨pre, post, hold, hnew⟩ :=
                    treeIdsL_setChild_found t.children x c splitN hfc
                  refine Or.inr ⟨?_, rfl⟩
                  rw [treeIds_eq, treeIds_eq t, withChildren_children,
                    (withChildren_fields t _).1, hnew, hold]
                  have hp : (treeIds splitN).Perm (treeIds c ++ [nid]) := by
                    rw [hstids, List.perm_iff_count]
                    intro a
                    simp only [List.count_append, List.count_cons, List.count_nil]
                    omega
                  have := perm_count_helper pre post (treeIds c) (treeIds splitN) [nid] hp
                  have h2 := this.cons t.node_id
                  refine h2.trans ?_
                  rw [List.perm_iff_count]
                  intro a
                  simp only [List.count_append, List.count_cons, List.count_nil]
                  omega

theorem evictableSumL_children_root (t : RadixNode) (h : t.key = []) :
    evictableSumL t.children = evictableSum t := by
  rw [evictableSum_eq, h]
  simp

theorem protectedSumL_children_root (t : RadixNode) (h : t.key = []) :
    protectedSumL t.children = protectedSum t := by
  rw [protectedSum_eq, h]
  simp

theorem wfManager_iff (m : RadixCacheManager) :
    wfManager m = true ↔
      m.root_node.key = [] ∧ m.root_node.value = [] ∧ m.root_node.ref_count = 1 ∧
      wfChildren m.root_node.children = true ∧
      m.evictable_size = evictableSumL m.root_node.children ∧
      m.protected_size = protectedSumL m.root_node.children ∧
      (treeIds m.root_node).Nodup ∧
      (∀ i ∈ treeIds m.root_node, i < m.next_node_id) := by
  unfold wfManager
  simp [List.isEmpty_iff, List.all_eq_true, and_assoc]

theorem walk_spec (m : RadixCacheManager) (ids : List Int)
    (hwf : wfManager m = true) :
    ∃ m' path n,
      walk m ids = .ok (m', path, n) ∧
      wfManager m' = true ∧
      m'.evictable_size = m.evictable_size ∧
      m'.protected_size = m.protected_size ∧
      evictableSumL m'.root_node.children = evictableSumL m.root_node.children ∧
      protectedSumL m'.root_node.children = protectedSumL m.root_node.children ∧
      m'.clock = m.clock + 1 ∧
      m.next_node_id ≤ m'.next_node_id ∧
      n ≤ ids.length ∧
      keysAlong m'.root_node path = some (ids.take n) ∧
      (∃ nd, nodeAt m'.root_node path = some nd ∧
        ∀ hnl : n < ids.length, findChild nd.children (ids.get ⟨n, hnl⟩) = none) ∧
      n = lookupLen (ids.length + 1) m.root_node ids := by
  obtain ⟨hrk, hrv, hrc, hrcs, hev, hpr, hnd, hbound⟩ := (wfManager_iff m).mp hwf
  obtain ⟨t', path, n, nid', hrun, hid, hkey, hval, hrcf, hts, hwf', hes, hps, hnle,
    hka, hnode, hlk, hperm⟩ :=
    walkLoop_spec (ids.length + 1) m.root_node ids m.next_node_id m.clock hrcs
      (by omega)
  refine ⟨{ m with root_node := t', next_node_id := nid', clock := m.clock + 1 },
    path, n, ?_, ?_, rfl, rfl, ?_, ?_, rfl, ?_, hnle, hka, hnode, hlk⟩
  · unfold walk
    dsimp only
    rw [hrun]
  · rw [wfManager_iff]
    refine ⟨show t'.key = [] by rw [hkey]; exact hrk,
      show t'.value = [] by rw [hval]; exact hrv,
      show t'.ref_count = 1 by rw [hrcf]; exact hrc,
      show wfChildren t'.children = true from hwf', ?_, ?_, ?_, ?_⟩
    · show m.evictable_size = evictableSumL t'.children
      rw [hev, evictableSumL_children_root _ (show t'.key = [] by rw [hkey]; exact hrk),
        evictableSumL_children_root _ hrk, hes]
    · show m.protected_size = protectedSumL t'.children
      rw [hpr, protectedSumL_children_root _ (show t'.key = [] by rw [hkey]; exact hrk),
        protectedSumL_children_root _ hrk, hps]
    · show (treeIds t').Nodup
      rcases hperm with ⟨hp, _⟩ | ⟨hp, _⟩
      · exact hp.nodup_iff.mpr hnd
      · refine hp.nodup_iff.mpr ?_
        rw [List.nodup_append]
        refine ⟨hnd, List.nodup_singleton _, ?_⟩
        intro a ha hb
        simp at hb
        subst hb
        exact absurd (hbound _ ha) (by omega)
    · show ∀ i ∈ treeIds t', i < nid'
      intro i hi
      rcases hperm with ⟨hp, hnid⟩ | ⟨hp, hnid⟩
      · have := hp.mem_iff.mp hi
        have := hbound _ this
        omega
      · have := hp.mem_iff.mp hi
        simp at this
        rcases this with hin | heq
        · have := hbound _ hin
          omega
        · omega
  · show evictableSumL t'.children = evictableSumL m.root_node.children
    rw [evictableSumL_children_root _ (show t'.key = [] by rw [hkey]; exact hrk),
      evictableSumL_children_root _ hrk, hes]
  · show protectedSumL t'.children = protectedSumL m.root_node.children
    rw [protectedSumL_children_root _ (show t'.key = [] by rw [hkey]; exact hrk),
      protectedSumL_children_root _ hrk, hps]
  · show m.next_node_id ≤ nid'
    rcases hperm with ⟨_, hnid⟩ | ⟨_, hnid⟩ <;> omega

theorem valuesAlong_of_keysAlong :
    ∀ (path : List Int) (t : RadixNode) (ks : List Int),
      keysAlong t path = some ks → wfChildren t.children = true →
      ∃ vs, valuesAlong t path = some vs ∧ vs.length = ks.length := by
  intro path
  induction path with
  | nil =>
      intro t ks h hwf
      simp only [keysAlong] at h
      cases h
      exact ⟨[], rfl, rfl⟩
  | cons e p ih =>
      intro t ks h hwf
      simp only [keysAlong] at h
      cases hfc : findChild t.children e with
      | none => rw [hfc] at h; cases h
      | some c =>
          rw [hfc] at h
          dsimp only at h
          cases hka : keysAlong c p with
          | none => rw [hka] at h; cases h
          | some r =>
              rw [hka] at h
              dsimp only at h
              cases h
              obtain ⟨hwfc, _⟩ := wfChildren_findChild _ _ _ hwf hfc
              obtain ⟨hknil, hkv, hccs⟩ := (wfNode_iff c).mp hwfc
              obtain ⟨vs, hvs, hlen⟩ := ih c r hka hccs
              refine ⟨c.value ++ vs, ?_, ?_⟩
              · simp only [valuesAlong, hfc, hvs]
              · simp [hlen, hkv]

theorem matchPrefix_spec (m : RadixCacheManager) (ids : List Int)
    (hwf : wfManager m = true) :
    ∃ m' h v,
      matchPrefix m ids = .ok (m', h, v) ∧
      wfManager m' = true ∧
      m'.evictable_size = m.evictable_size ∧
      m'.protected_size = m.protected_size ∧
      evictableSumL m'.root_node.children = evictableSumL m.root_node.children ∧
      protectedSumL m'.root_node.children = protectedSumL m.root_node.children ∧
      h.cached_len ≤ ids.length ∧
      v.length = h.cached_len ∧
      h.cached_len = lookupLen (ids.length + 1) m.root_node ids ∧
      m'.clock = m.clock + 1 ∧ m.next_node_id ≤ m'.next_node_id := by
  obtain ⟨m', path, n, hwalk, hwf', hev, hpr, hevL, hprL, hclock, hnid, hnle, hka,
    hnode, hlk⟩ := walk_spec m ids hwf
  by_cases hn : n = 0
  · subst hn
    refine ⟨m', ⟨0, path⟩, [], ?_, hwf', hev, hpr, hevL, hprL, by simp, rfl, hlk,
      hclock, hnid⟩
    unfold matchPrefix
    rw [hwalk]
    dsimp only
    simp
  · have hwfc' : wfChildren m'.root_node.children = true :=
      ((wfManager_iff m').mp hwf').2.2.2.1
    obtain ⟨vs, hvs, hvlen⟩ := valuesAlong_of_keysAlong path m'.root_node _ hka hwfc'
    refine ⟨m', ⟨n, path⟩, vs, ?_, hwf', hev, hpr, hevL, hprL, hnle, ?_, hlk,
      hclock, hnid⟩
    · unfold matchPrefix
      rw [hwalk]
      dsimp only
      rw [if_neg hn, hvs]
    · rw [hvlen]
      simp only [List.length_take]
      omega

/-- C8: a successful matchPrefix leaves evictable_size and protected_size (and the
recomputed sums over the tree) unchanged, including when the walk splits an existing
node at an interior position: split_node copies the ref_count, so both counters and
both recomputed sums are preserved. -/
theorem C8_match_preserves_sizes (m m' : RadixCacheManager) (ids : List Int)
    (h : RadixCacheHandle) (v : List Int) (hwf : wfManager m = true)
    (hm : matchPrefix m ids = .ok (m', h, v)) :
    m'.evictable_size = m.evictable_size ∧ m'.protected_size = m.protected_size ∧
    evictableSumL m'.root_node.children = evictableSumL m.root_node.children ∧
    protectedSumL m'.root_node.children = protectedSumL m.root_node.children := by
  obtain ⟨m'', h', v', heq, _, he, hp, heL, hpL, _⟩ := matchPrefix_spec m ids hwf
  rw [hm] at heq
  cases heq
  exact ⟨he, hp, heL, hpL⟩

/-- C10: a successful matchPrefix returns a handle and an index vector such that the
number of returned indices equals the handle's cached_len, cached_len is at most
the input length, and a zero-length match returns an empty index vector. -/
theorem C10_match_lengths (m m' : RadixCacheManager) (ids : List Int)
    (h : RadixCacheHandle) (v : List Int) (hwf : wfManager m = true)
    (hm : matchPrefix m ids = .ok (m', h, v)) :
    v.length = h.cached_len ∧ h.cached_len ≤ ids.length ∧
    (h.cached_len = 0 → v = []) := by
  obtain ⟨m'', h', v', heq, _, _, _, _, _, hle, hlen, _⟩ := matchPrefix_spec m ids hwf
  rw [hm] at heq
  cases heq
  refine ⟨hlen, hle, ?_⟩
  intro h0
  rw [← List.length_eq_zero]
  rw [hlen, h0]

theorem C8_match_preserves_sizes_witness :
    (RadixCacheManager.mk
      (RadixNode.mk 0 [] [] 1 0
        [(1, RadixNode.mk 2 [1, 2] [7, 8] 0 2 [(3, RadixNode.mk 1 [3] [9] 0 2 [])])])
      3 3 0 4).evictable_size
      = (RadixCacheManager.mk
          (RadixNode.mk 0 [] [] 1 0 [(1, RadixNode.mk 1 [1, 2, 3] [7, 8, 9] 0 2 [])])
          2 3 0 3).evictable_size :=
  (C8_match_preserves_sizes
    (RadixCacheManager.mk
      (RadixNode.mk 0 [] [] 1 0 [(1, RadixNode.mk 1 [1, 2, 3] [7, 8, 9] 0 2 [])]) 2 3 0 3)
    (RadixCacheManager.mk
      (RadixNode.mk 0 [] [] 1 0
        [(1, RadixNode.mk 2 [1, 2] [7, 8] 0 2 [(3, RadixNode.mk 1 [3] [9] 0 2 [])])])
      3 3 0 4)
    [1, 2, 9] ⟨2, [1]⟩ [7, 8] (by decide) rfl).1

theorem C10_match_lengths_witness :
    ([7, 8] : List Int).length = (RadixCacheHandle.mk 2 [1]).cached_len :=
  (C10_match_lengths
    (RadixCacheManager.mk
      (RadixNode.mk 0 [] [] 1 0 [(1, RadixNode.mk 1 [1, 2, 3] [7, 8, 9] 0 2 [])]) 2 3 0 3)
    (RadixCacheManager.mk
      (RadixNode.mk 0 [] [] 1 0
        [(1, RadixNode.mk 2 [1, 2] [7, 8] 0 2 [(3, RadixNode.mk 1 [3] [9] 0 2 [])])])
      3 3 0 4)
    [1, 2, 9] ⟨2, [1]⟩ [7, 8] (by decide) rfl).1

theorem lookupLen_nil (fuel : Nat) (t : RadixNode) : lookupLen fuel t [] = 0 := by
  cases fuel <;> rfl

theorem lookupLen_le_length :
    ∀ (fuel : Nat) (t : RadixNode) (ids : List Int), lookupLen fuel t ids ≤ ids.length := by
  intro fuel
  induction fuel with
  | zero => intro t ids; simp [lookupLen]
  | succ fuel ih =>
      intro t ids
      cases ids with
      | nil => simp [lookupLen]
      | cons x rest =>
          simp only [lookupLen]
          cases hfc : findChild t.children x with
          | none => simp
          | some c =>
              dsimp only
              have hle := commonPrefixLen_le_right c.key (x :: rest)
              split
              · have := ih c ((x :: rest).drop (commonPrefixLen c.key (x :: rest)))
                simp only [List.length_drop] at this
                omega
              · exact hle

theorem lookupLen_ge_keysAlong :
    ∀ (path : List Int) (t : RadixNode) (q : List Int),
      keysAlong t path = some q → wfChildren t.children = true →
      ∀ fuel, q.length < fuel → q.length ≤ lookupLen fuel t q := by
  intro path
  induction path with
  | nil =>
      intro t q h hwf fuel hfuel
      simp only [keysAlong] at h
      cases h
      simp
  | cons e p ih =>
      intro t q h hwf fuel hfuel
      simp only [keysAlong] at h
      cases hfc : findChild t.children e with
      | none => rw [hfc] at h; cases h
      | some c =>
          rw [hfc] at h
          dsimp only at h
          cases hka : keysAlong c p with
          | none => rw [hka] at h; cases h
          | some r =>
              rw [hka] at h
              dsimp only at h
              cases h
              obtain ⟨hwfc, hhead⟩ := wfChildren_findChild _ _ _ hwf hfc
              obtain ⟨hknil, hkv, hccs⟩ := (wfNode_iff c).mp hwfc
              have hklen : 0 < c.key.length := List.length_pos.mpr hknil
              cases fuel with
              | zero => simp at hfuel
              | succ fuel =>
                  obtain ⟨ktail, hck⟩ : ∃ ktail, c.key = e :: ktail := by
                    cases hk : c.key with
                    | nil => rw [hk] at hhead; simp at hhead
                    | cons a b =>
                        rw [hk] at hhead
                        simp at hhead
                        exact ⟨b, by rw [hhead]⟩
                  have hq : c.key ++ r = e :: (ktail ++ r) := by rw [hck]; simp
                  rw [hq]
                  simp only [lookupLen]
                  rw [show findChild t.children e = some c from hfc]
                  dsimp only
                  have hcp : commonPrefixLen c.key (e :: (ktail ++ r))
                      = c.key.length := by
                    conv_lhs => rw [show e :: (ktail ++ r) = c.key ++ r by rw [hck]; simp]
                    exact commonPrefixLen_self_append _ _
                  rw [if_pos hcp, hcp]
                  have hdrop : (e :: (ktail ++ r)).drop c.key.length = r := by
                    conv_lhs => rw [show e :: (ktail ++ r) = c.key ++ r by rw [hck]; simp]
                    simp
                  rw [hdrop]
                  have hrlen : r.length < fuel := by
                    have h1 : (c.key ++ r).length < fuel + 1 := hfuel
                    simp only [List.length_append] at h1
                    omega
                  have hih := ih c r hka hccs fuel hrlen
                  have hlq : (e :: (ktail ++ r)).length = c.key.length + r.length := by
                    rw [← hq]
                    simp
                  omega

theorem updateAt_addChild_spec :
    ∀ (path : List Int) (t nd : RadixNode) (edge : Int) (newNode : RadixNode),
      nodeAt t path = some nd →
      wfChildren t.children = true →
      findChild nd.children edge = none →
      newNode.key.head? = some edge →
      wfNode newNode = true →
      ∃ t₂,
        updateAt t path
          (fun x => x.withChildren (setChild x.children edge newNode)) = some t₂ ∧
        t₂.node_id = t.node_id ∧ t₂.key = t.key ∧ t₂.value = t.value ∧
        t₂.ref_count = t.ref_count ∧ t₂.timestamp = t.timestamp ∧
        wfChildren t₂.children = true ∧
        evictableSum t₂ = evictableSum t + evictableSum newNode ∧
        protectedSum t₂ = protectedSum t + protectedSum newNode ∧
        (treeIds t₂).Perm (treeIds t ++ treeIds newNode) ∧
        (∀ pre, keysAlong t path = some pre →
          keysAlong t₂ (path ++ [edge]) = some (pre ++ newNode.key)) := by
  intro path
  induction path with
  | nil =>
      intro t nd edge newNode hat hwf hnone hhead hwfn
      simp only [nodeAt] at hat
      cases hat
      refine ⟨t.withChildren (setChild t.children edge newNode), rfl,
        (withChildren_fields t _).1, (withChildren_fields t _).2.1,
        (withChildren_fields t _).2.2.1, (withChildren_fields t _).2.2.2.1,
        (withChildren_fields t _).2.2.2.2, ?_, ?_, ?_, ?_, ?_⟩
      · rw [withChildren_children]
        exact wfChildren_setChild _ _ _ hwf hhead hwfn
      · rw [evictableSum_eq, evictableSum_eq t, withChildren_children,
          (withChildren_fields t _).2.1, (withChildren_fields t _).2.2.2.1,
          evictableSumL_setChild_new _ _ _ hnone]
        omega
      · rw [protectedSum_eq, protectedSum_eq t, withChildren_children,
          (withChildren_fields t _).2.1, (withChildren_fields t _).2.2.2.1,
          protectedSumL_setChild_new _ _ _ hnone]
        omega
      · rw [treeIds_eq, treeIds_eq t, withChildren_children,
          (withChildren_fields t _).1, treeIdsL_setChild_new _ _ _ hnone]
        exact List.Perm.refl _
      · intro pre hka
        simp only [keysAlong] at hka
        cases hka
        simp only [List.nil_append, keysAlong, withChildren_children,
          findChild_setChild_self]
        simp
  | cons e p ih =>
      intro t nd edge newNode hat hwf hnone hhead hwfn
      simp only [nodeAt] at hat
      cases hfc : findChild t.children e with
      | none => rw [hfc] at hat; cases hat
      | some c =>
          rw [hfc] at hat
          obtain ⟨hwfc, hheadc⟩ := wfChildren_findChild _ _ _ hwf hfc
          obtain ⟨hknil, hkv, hccs⟩ := (wfNode_iff c).mp hwfc
          obtain ⟨c₂, hupd, hid, hkey, hval, hrc, hts, hwf₂, hes, hps, hperm, hka⟩ :=
            ih c nd edge newNode hat hccs hnone hhead hwfn
          refine ⟨t.withChildren (setChild t.children e c₂), ?_,
            (withChildren_fields t _).1, (withChildren_fields t _).2.1,
            (withChildren_fields t _).2.2.1, (withChildren_fields t _).2.2.2.1,
            (withChildren_fields t _).2.2.2.2, ?_, ?_, ?_, ?_, ?_⟩
          · simp only [updateAt, hfc, hupd]
          · rw [withChildren_children]
            refine wfChildren_setChild _ _ _ hwf ?_ ?_
            · rw [hkey]; exact hheadc
            · rw [wfNode_iff, hkey, hval]
              exact ⟨hknil, hkv, hwf₂⟩
          · rw [evictableSum_eq, evictableSum_eq t, withChildren_children,
              (withChildren_fields t _).2.1, (withChildren_fields t _).2.2.2.1]
            have h1 := evictableSumL_setChild_found t.children e c c₂ hfc
            omega
          · rw [protectedSum_eq, protectedSum_eq t, withChildren_children,
              (withChildren_fields t _).2.1, (withChildren_fields t _).2.2.2.1]
            have h1 := protectedSumL_setChild_found t.children e c c₂ hfc
            omega
          · obtain ⟨pre', post', hold, hnew⟩ :=
              treeIdsL_setChild_found t.children e c c₂ hfc
            rw [treeIds_eq, treeIds_eq t, withChildren_children,
              (withChildren_fields t _).1, hnew, hold]
            have := perm_count_helper pre' post' (treeIds c) (treeIds c₂)
              (treeIds newNode) hperm
            have h2 := this.cons t.node_id
            refine h2.trans ?_
            rw [List.perm_iff_count]
            intro a
            simp only [List.count_append, List.count_cons, List.count_nil]
            omega
          · intro pre hkap
            simp only [keysAlong] at hkap
            rw [hfc] at hkap
            dsimp only at hkap
            cases hkar : keysAlong c p with
            | none => rw [hkar] at hkap; cases hkap
            | some r =>
                rw [hkar] at hkap
                dsimp only at hkap
                cases hkap
                have hkk := hka r hkar
                simp only [List.cons_append, keysAlong, withChildren_children,
                  findChild_setChild_self]
                simp [hkk, hkey]

theorem insertPrefix_spec (m : RadixCacheManager) (ids idxs : List Int)
    (hwf : wfManager m = true) (hlen : ids.length = idxs.length) :
    ∃ m₂ n, insertPrefix m ids idxs = .ok (m₂, n) ∧
      wfManager m₂ = true ∧
      n ≤ ids.length ∧
      lookupLen (ids.length + 1) m₂.root_node ids = ids.length := by
  obtain ⟨m₁, path, n, hwalk, hwf₁, hev, hpr, hevL, hprL, hclock, hnid, hnle, hka,
    ⟨nd, hnd, hconf⟩, hlk⟩ := walk_spec m ids hwf
  obtain ⟨hrk, hrv, hrc, hrcs, hevq, hprq, hndup, hbound⟩ := (wfManager_iff m₁).mp hwf₁
  by_cases hn : n < ids.length
  · -- a new leaf is attached
    have hedge : (RadixNode.mk m₁.next_node_id (ids.drop n) (idxs.drop n) 0 m₁.clock
        []).key.head? = some (ids.get ⟨n, hn⟩) := by
      rw [key_mk, List.head?_drop]
      exact List.getElem?_eq_getElem hn
    have hwfn : wfNode (RadixNode.mk m₁.next_node_id (ids.drop n) (idxs.drop n) 0
        m₁.clock []) = true := by
      rw [wfNode_iff, key_mk, value_mk, children_mk]
      refine ⟨?_, ?_, rfl⟩
      · intro hnil
        have := congrArg List.length hnil
        simp at this
        omega
      · simp
        omega
    obtain ⟨t₂, hupd, hid, hkey, hval, hrcf, hts, hwf₂, hes, hps, hperm, hkext⟩ :=
      updateAt_addChild_spec path m₁.root_node nd (ids.get ⟨n, hn⟩)
        (RadixNode.mk m₁.next_node_id (ids.drop n) (idxs.drop n) 0 m₁.clock [])
        hnd hrcs (hconf hn) hedge hwfn
    refine ⟨{ m₁ with
                root_node := t₂
                next_node_id := m₁.next_node_id + 1
                clock := m₁.clock + 1
                evictable_size := m₁.evictable_size + (ids.drop n).length }, n,
      ?_, ?_, by omega, ?_⟩
    · unfold insertPrefix
      rw [if_neg (by omega)]
      rw [hwalk]
      dsimp only
      rw [dif_pos hn, hupd]
      rfl
    · rw [wfManager_iff]
      refine ⟨show t₂.key = [] by rw [hkey]; exact hrk,
        show t₂.value = [] by rw [hval]; exact hrv,
        show t₂.ref_count = 1 by rw [hrcf]; exact hrc,
        hwf₂, ?_, ?_, ?_, ?_⟩
      · show m₁.evictable_size + (ids.drop n).length = evictableSumL t₂.children
        rw [evictableSumL_children_root _ (show t₂.key = [] by rw [hkey]; exact hrk),
          hes, evictableSum_eq (RadixNode.mk _ _ _ _ _ _), ref_count_mk, key_mk,
          children_mk, ← evictableSumL_children_root _ hrk]
        simp [evictableSumL]
        omega
      · show m₁.protected_size = protectedSumL t₂.children
        rw [protectedSumL_children_root _ (show t₂.key = [] by rw [hkey]; exact hrk),
          hps, protectedSum_eq (RadixNode.mk _ _ _ _ _ _), ref_count_mk, key_mk,
          children_mk, ← protectedSumL_children_root _ hrk]
        simp [protectedSumL]
        exact hprq
      · show (treeIds t₂).Nodup
        refine hperm.nodup_iff.mpr ?_
        rw [treeIds_eq (RadixNode.mk _ _ _ _ _ _), node_id_mk, children_mk]
        simp only [treeIdsL]
        rw [List.nodup_append]
        refine ⟨hndup, List.nodup_singleton _, ?_⟩
        intro a ha hb
        simp at hb
        subst hb
        exact absurd (hbound _ ha) (by omega)
      · show ∀ i ∈ treeIds t₂, i < m₁.next_node_id + 1
        intro i hi
        have := hperm.mem_iff.mp hi
        simp only [List.mem_append] at this
        rcases this with hin | hin
        · have := hbound _ hin
          omega
        · rw [treeIds_eq (RadixNode.mk _ _ _ _ _ _), node_id_mk, children_mk] at hin
          simp [treeIdsL] at hin
          omega
    · show lookupLen (ids.length + 1) t₂ ids = ids.length
      have hfull := hkext (ids.take n) hka
      rw [key_mk] at hfull
      rw [List.take_append_drop] at hfull
      have hge := lookupLen_ge_keysAlong _ _ _ hfull hwf₂ (ids.length + 1) (by omega)
      have hle2 := lookupLen_le_length (ids.length + 1) t₂ ids
      omega
  · -- the walk consumed the whole input
    have hn' : n = ids.length := by omega
    refine ⟨m₁, n, ?_, hwf₁, by omega, ?_⟩
    · unfold insertPrefix
      rw [if_neg (by omega)]
      rw [hwalk]
      dsimp only
      rw [dif_neg hn]
    · subst hn'
      rw [List.take_length] at hka
      have hge := lookupLen_ge_keysAlong _ _ _ hka hrcs (ids.length + 1) (by omega)
      have hle2 := lookupLen_le_length (ids.length + 1) m₁.root_node ids
      omega

/-- C5: for equal-length non-empty ids and indices, after a successful insertPrefix
a subsequent matchPrefix on the same ids succeeds and returns a handle with
cached_len = ids.length (the full sequence is cached), from any well-formed cache
state — in particular whether or not matchPrefix was called before the insert. -/
theorem C5_insert_then_match (m m₂ : RadixCacheManager) (ids idxs : List Int) (n : Nat)
    (hwf : wfManager m = true) (hne : ids ≠ []) (hlen : ids.length = idxs.length)
    (hins : insertPrefix m ids idxs = .ok (m₂, n)) :
    ∃ m₃ h v, matchPrefix m₂ ids = .ok (m₃, h, v) ∧ h.cached_len = ids.length := by
  obtain ⟨m₂', n', heq, hwf₂, hn'le, hlook⟩ := insertPrefix_spec m ids idxs hwf hlen
  rw [hins] at heq
  cases heq
  obtain ⟨m₃, h, v, hm, _, _, _, _, _, _, _, hcl, _⟩ := matchPrefix_spec m₂ ids hwf₂
  exact ⟨m₃, h, v, hm, by rw [hcl, hlook]⟩

theorem C5_insert_then_match_witness :
    wfManager newCache = true ∧ ([1, 2] : List Int) ≠ [] ∧
    ([1, 2] : List Int).length = ([7, 8] : List Int).length ∧
    ∃ m₃ h v,
      matchPrefix (RadixCacheManager.mk
        (RadixNode.mk 0 [] [] 1 0 [(1, RadixNode.mk 1 [1, 2] [7, 8] 0 2 [])]) 2 2 0 3)
        [1, 2] = .ok (m₃, h, v) ∧ h.cached_len = ([1, 2] : List Int).length :=
  ⟨by decide, by decide, by decide,
    C5_insert_then_match newCache
      (RadixCacheManager.mk
        (RadixNode.mk 0 [] [] 1 0 [(1, RadixNode.mk 1 [1, 2] [7, 8] 0 2 [])]) 2 2 0 3)
      [1, 2] [7, 8] 0 (by decide) (by decide) (by decide) (by rfl)⟩

theorem checkChildren_of_wf_fuel :
    ∀ (n : Nat) (cs : List (Int × RadixNode)), nodeCountL cs ≤ n →
      wfChildren cs = true →
      checkChildren cs = .ok (evictableSumL cs, protectedSumL cs) := by
  intro n
  induction n with
  | zero =>
      intro cs hle hwf
      cases cs with
      | nil => rfl
      | cons hd tl =>
          obtain ⟨e, c⟩ := hd
          cases c with
          | mk i k v rc ts cs' =>
              simp [nodeCountL, nodeCount] at hle
  | succ n ih =>
      intro cs hle hwf
      cases cs with
      | nil => rfl
      | cons hd tl =>
          obtain ⟨e, c⟩ := hd
          cases c with
          | mk i k v rc ts cs' =>
              simp only [wfChildren, Bool.and_eq_true, beq_iff_eq,
                Option.isNone_iff_eq_none] at hwf
              obtain ⟨⟨⟨hhead, hwfc⟩, hnone⟩, hwft⟩ := hwf
              obtain ⟨hknil, hkv, hwfcs'⟩ := (wfNode_iff _).mp hwfc
              rw [key_mk] at hknil hkv
              rw [value_mk] at hkv
              rw [children_mk] at hwfcs'
              have hcnt : nodeCountL ((e, RadixNode.mk i k v rc ts cs') :: tl)
                  = 1 + nodeCountL cs' + nodeCountL tl := by
                simp [nodeCountL, nodeCount]
              have h1 : checkChildren cs' = .ok (evictableSumL cs', protectedSumL cs') :=
                ih cs' (by omega) hwfcs'
              have h2 : checkChildren tl = .ok (evictableSumL tl, protectedSumL tl) :=
                ih tl (by omega) hwft
              simp only [checkChildren, key_mk] at *
              rw [if_neg (by simp [hhead])]
              have hsub : checkSubtree (RadixNode.mk i k v rc ts cs')
                  = .ok ((if rc = 0 then k.length else 0) + evictableSumL cs',
                         (if rc = 0 then 0 else k.length) + protectedSumL cs') := by
                simp only [checkSubtree]
                rw [if_neg (by simp [hknil, hkv])]
                rw [h1]
                by_cases hrc : rc = 0
                · simp [hrc]
                · simp [hrc]
              rw [hsub, h2]
              simp only [evictableSumL, protectedSumL, evictableSum, protectedSum]

theorem checkChildren_of_wf (cs : List (Int × RadixNode)) (hwf : wfChildren cs = true) :
    checkChildren cs = .ok (evictableSumL cs, protectedSumL cs) :=
  checkChildren_of_wf_fuel (nodeCountL cs) cs (Nat.le_refl _) hwf

theorem check_integrity_of_wf (m : RadixCacheManager) (hwf : wfManager m = true) :
    check_integrity m = .ok () := by
  obtain ⟨hrk, hrv, hrc, hrcs, hev, hpr, _, _⟩ := (wfManager_iff m).mp hwf
  unfold check_integrity
  rw [if_neg (by simp [hrc])]
  rw [if_neg (by simp [hrk, hrv])]
  rw [checkChildren_of_wf _ hrcs]
  dsimp only
  rw [if_neg (by simp [← hev, ← hpr])]

theorem withRefCount_fields (c : RadixNode) (r : Nat) :
    (c.withRefCount r).node_id = c.node_id ∧ (c.withRefCount r).key = c.key ∧
    (c.withRefCount r).value = c.value ∧ (c.withRefCount r).ref_count = r ∧
    (c.withRefCount r).timestamp = c.timestamp ∧
    (c.withRefCount r).children = c.children := by
  cases c
  exact ⟨rfl, rfl, rfl, rfl, rfl, rfl⟩

theorem treeIds_withRefCount (c : RadixNode) (r : Nat) :
    treeIds (c.withRefCount r) = treeIds c := by
  cases c
  rfl

theorem lockNodeOp_sums (u : Bool) (nd nd' : RadixNode) (ev pr ev' pr' : Nat)
    (h : lockNodeOp u nd ev pr = .ok (nd', ev', pr')) :
    nd'.node_id = nd.node_id ∧ nd'.key = nd.key ∧ nd'.value = nd.value ∧
    nd'.timestamp = nd.timestamp ∧ nd'.children = nd.children ∧
    treeIds nd' = treeIds nd ∧
    ev' + evictableSum nd = ev + evictableSum nd' ∧
    pr' + protectedSum nd = pr + protectedSum nd' := by
  unfold lockNodeOp at h
  have hlen : nd.len = nd.key.length := rfl
  by_cases hu : u = true
  · rw [if_pos hu] at h
    by_cases hrc : nd.ref_count = 0
    · rw [if_pos hrc] at h
      cases h
    · rw [if_neg hrc] at h
      dsimp only at h
      by_cases hz : nd.ref_count - 1 = 0
      · rw [if_pos hz] at h
        by_cases hle : nd.len ≤ pr
        · rw [if_pos hle] at h
          cases h
          obtain ⟨h1, h2, h3, h4, h5, h6⟩ := withRefCount_fields nd (nd.ref_count - 1)
          refine ⟨h1, h2, h3, h5, h6, treeIds_withRefCount _ _, ?_, ?_⟩
          · rw [evictableSum_eq (nd.withRefCount _), evictableSum_eq nd, h2, h4, h6,
              if_neg hrc, if_pos hz]
            rw [hlen] at hle ⊢
            omega
          · rw [protectedSum_eq (nd.withRefCount _), protectedSum_eq nd, h2, h4, h6,
              if_neg hrc, if_pos hz]
            rw [hlen] at hle ⊢
            omega
        · rw [if_neg hle] at h
          cases h
      · rw [if_neg hz] at h
        cases h
        obtain ⟨h1, h2, h3, h4, h5, h6⟩ := withRefCount_fields nd (nd.ref_count - 1)
        refine ⟨h1, h2, h3, h5, h6, treeIds_withRefCount _ _, ?_, ?_⟩
        · rw [evictableSum_eq (nd.withRefCount _), evictableSum_eq nd, h2, h4, h6,
            if_neg hrc, if_neg hz]
        · rw [protectedSum_eq (nd.withRefCount _), protectedSum_eq nd, h2, h4, h6,
            if_neg hrc, if_neg hz]
  · rw [if_neg hu] at h
    by_cases hrc : nd.ref_count = 0
    · rw [if_pos hrc] at h
      by_cases hle : nd.len ≤ ev
      · rw [if_pos hle] at h
        cases h
        obtain ⟨h1, h2, h3, h4, h5, h6⟩ := withRefCount_fields nd (nd.ref_count + 1)
        refine ⟨h1, h2, h3, h5, h6, treeIds_withRefCount _ _, ?_, ?_⟩
        · rw [evictableSum_eq (nd.withRefCount _), evictableSum_eq nd, h2, h4, h6,
            if_pos hrc, if_neg (by omega)]
          rw [hlen] at hle ⊢
          omega
        · rw [protectedSum_eq (nd.withRefCount _), protectedSum_eq nd, h2, h4, h6,
            if_pos hrc, if_neg (by omega)]
          omega
      · rw [if_neg hle] at h
        cases h
    · rw [if_neg hrc] at h
      cases h
      obtain ⟨h1, h2, h3, h4, h5, h6⟩ := withRefCount_fields nd (nd.ref_count + 1)
      refine ⟨h1, h2, h3, h5, h6, treeIds_withRefCount _ _, ?_, ?_⟩
      · rw [evictableSum_eq (nd.withRefCount _), evictableSum_eq nd, h2, h4, h6,
          if_neg hrc, if_neg (by omega)]
      · rw [protectedSum_eq (nd.withRefCount _), protectedSum_eq nd, h2, h4, h6,
          if_neg hrc, if_neg (by omega)]

theorem lockPath_wf :
    ∀ (p : List Int) (u : Bool) (t : RadixNode) (ev pr : Nat)
      (t' : RadixNode) (ev' pr' : Nat),
      lockPath u t p ev pr = .ok (t', ev', pr') →
      wfChildren t.children = true →
      t'.node_id = t.node_id ∧ t'.key = t.key ∧ t'.value = t.value ∧
      t'.ref_count = t.ref_count ∧ t'.timestamp = t.timestamp ∧
      wfChildren t'.children = true ∧ treeIds t' = treeIds t ∧
      ev' + evictableSum t = ev + evictableSum t' ∧
      pr' + protectedSum t = pr + protectedSum t' := by
  intro p
  induction p with
  | nil =>
      intro u t ev pr t' ev' pr' h hwf
      simp only [lockPath] at h
      cases h
      exact ⟨rfl, rfl, rfl, rfl, rfl, hwf, rfl, rfl, rfl⟩
  | cons e p ih =>
      intro u t ev pr t' ev' pr' h hwf
      simp only [lockPath] at h
      cases hfc : findChild t.children e with
      | none => rw [hfc] at h; cases h
      | some c =>
          rw [hfc] at h
          dsimp only at h
          cases hrec : lockPath u c p ev pr with
          | error err => rw [hrec] at h; cases h
          | ok out =>
              obtain ⟨c₁, ev₁, pr₁⟩ := out
              rw [hrec] at h
              dsimp only at h
              cases hop : lockNodeOp u c₁ ev₁ pr₁ with
              | error err => rw [hop] at h; cases h
              | ok out₂ =>
                  obtain ⟨c₂, ev₂, pr₂⟩ := out₂
                  rw [hop] at h
                  dsimp only at h
                  cases h
                  obtain ⟨hwfc, hhead⟩ := wfChildren_findChild _ _ _ hwf hfc
                  obtain ⟨hknil, hkv, hccs⟩ := (wfNode_iff c).mp hwfc
                  obtain ⟨g1, g2, g3, g4, g5, g6, g7, g8, g9⟩ :=
                    ih u c ev pr c₁ ev₁ pr₁ hrec hccs
                  obtain ⟨f1, f2, f3, f4, f5, f6, f7, f8⟩ :=
                    lockNodeOp_sums u c₁ c₂ _ _ _ _ hop
                  obtain ⟨w1, w2, w3, w4, w5⟩ := withChildren_fields t
                    (setChild t.children e c₂)
                  refine ⟨w1, w2, w3, w4, w5, ?_, ?_, ?_, ?_⟩
                  · rw [withChildren_children]
                    refine wfChildren_setChild _ _ _ hwf ?_ ?_
                    · rw [f2, g2]
                      exact hhead
                    · rw [wfNode_iff, f2, f3, g2, g3, f5]
                      exact ⟨hknil, hkv, g6⟩
                  · obtain ⟨pre, post, ho, hn⟩ :=
                      treeIdsL_setChild_found t.children e c c₂ hfc
                    rw [treeIds_eq, treeIds_eq t, withChildren_children,
                      (withChildren_fields t _).1, hn, ho, f6, g7]
                  · rw [evictableSum_eq (t.withChildren _), evictableSum_eq t,
                      withChildren_children, (withChildren_fields t _).2.1,
                      (withChildren_fields t _).2.2.2.1]
                    have hset := evictableSumL_setChild_found t.children e c c₂ hfc
                    omega
                  · rw [protectedSum_eq (t.withChildren _), protectedSum_eq t,
                      withChildren_children, (withChildren_fields t _).2.1,
                      (withChildren_fields t _).2.2.2.1]
                    have hset := protectedSumL_setChild_found t.children e c c₂ hfc
                    omega

theorem lock_handle_wf (m m' : RadixCacheManager) (h : RadixCacheHandle) (u : Bool)
    (hwf : wfManager m = true) (hok : lock_handle m h u = .ok m') :
    wfManager m' = true ∧ m'.next_node_id = m.next_node_id := by
  obtain ⟨hrk, hrv, hrc, hrcs, hev, hpr, hnd, hbound⟩ := (wfManager_iff m).mp hwf
  unfold lock_handle at hok
  cases hlp : lockPath u m.root_node h.path m.evictable_size m.protected_size with
  | error err => rw [hlp] at hok; cases hok
  | ok out =>
      obtain ⟨t, ev, pr⟩ := out
      rw [hlp] at hok
      dsimp only at hok
      cases hok
      obtain ⟨g1, g2, g3, g4, g5, g6, g7, g8, g9⟩ :=
        lockPath_wf h.path u m.root_node m.evictable_size m.protected_size t ev pr
          hlp hrcs
      refine ⟨(wfManager_iff _).mpr ⟨?_, ?_, ?_, g6, ?_, ?_, ?_, ?_⟩, rfl⟩
      · show t.key = []
        rw [g2]; exact hrk
      · show t.value = []
        rw [g3]; exact hrv
      · show t.ref_count = 1
        rw [g4]; exact hrc
      · show ev = evictableSumL t.children
        have h1 : evictableSumL t.children = evictableSum t :=
          evictableSumL_children_root _ (by rw [g2]; exact hrk)
        have h2 : evictableSumL m.root_node.children = evictableSum m.root_node :=
          evictableSumL_children_root _ hrk
        omega
      · show pr = protectedSumL t.children
        have h1 : protectedSumL t.children = protectedSum t :=
          protectedSumL_children_root _ (by rw [g2]; exact hrk)
        have h2 : protectedSumL m.root_node.children = protectedSum m.root_node :=
          protectedSumL_children_root _ hrk
        omega
      · show (treeIds t).Nodup
        rw [g7]; exact hnd
      · show ∀ i ∈ treeIds t, i < m.next_node_id
        rw [g7]; exact hbound

theorem nodeAt_snoc :
    ∀ (q : List Int) (x : Int) (t nd : RadixNode),
      nodeAt t (q ++ [x]) = some nd →
      ∃ par, nodeAt t q = some par ∧ findChild par.children x = some nd := by
  intro q
  induction q with
  | nil =>
      intro x t nd h
      simp only [List.nil_append, nodeAt] at h
      cases hfc : findChild t.children x with
      | none => rw [hfc] at h; cases h
      | some c =>
          rw [hfc] at h
          simp only [nodeAt] at h
          cases h
          exact ⟨t, rfl, hfc⟩
  | cons e q ih =>
      intro x t nd h
      simp only [List.cons_append, nodeAt] at h
      cases hfc : findChild t.children e with
      | none => rw [hfc] at h; cases h
      | some c =>
          rw [hfc] at h
          obtain ⟨par, h1, h2⟩ := ih x c nd h
          exact ⟨par, by simp only [nodeAt, hfc]; exact h1, h2⟩

theorem wfChildren_nodeAt :
    ∀ (q : List Int) (t par : RadixNode),
      wfChildren t.children = true → nodeAt t q = some par →
      wfChildren par.children = true := by
  intro q
  induction q with
  | nil =>
      intro t par hwf h
      simp only [nodeAt] at h
      cases h
      exact hwf
  | cons e q ih =>
      intro t par hwf h
      simp only [nodeAt] at h
      cases hfc : findChild t.children e with
      | none => rw [hfc] at h; cases h
      | some c =>
          rw [hfc] at h
          obtain ⟨hwfc, _⟩ := wfChildren_findChild _ _ _ hwf hfc
          exact ih c par ((wfNode_iff c).mp hwfc).2.2 h

theorem findChild_removeChild_none (cs : List (Int × RadixNode)) (e e' : Int)
    (h : findChild cs e' = none) : findChild (removeChild cs e) e' = none := by
  induction cs with
  | nil => simp [removeChild, findChild]
  | cons hd tl ih =>
      obtain ⟨e₁, c₁⟩ := hd
      by_cases h1 : e₁ = e'
      · simp [findChild, h1] at h
      · simp only [findChild, if_neg h1] at h
        by_cases h2 : e₁ = e
        · simp only [removeChild, if_pos h2]
          exact h
        · simp only [removeChild, if_neg h2, findChild, if_neg h1]
          exact ih h

theorem wfChildren_removeChild (cs : List (Int × RadixNode)) (e : Int)
    (hwf : wfChildren cs = true) : wfChildren (removeChild cs e) = true := by
  induction cs with
  | nil => exact hwf
  | cons hd tl ih =>
      obtain ⟨e₁, c₁⟩ := hd
      simp only [wfChildren, Bool.and_eq_true] at hwf
      obtain ⟨⟨⟨hhead, hwfc⟩, hnone⟩, hwft⟩ := hwf
      by_cases h2 : e₁ = e
      · simp only [removeChild, if_pos h2]
        exact hwft
      · simp only [removeChild, if_neg h2, wfChildren, Bool.and_eq_true]
        refine ⟨⟨⟨hhead, hwfc⟩, ?_⟩, ih hwft⟩
        rw [Option.isNone_iff_eq_none] at hnone ⊢
        exact findChild_removeChild_none tl e e₁ hnone

theorem evictableSumL_removeChild_found (cs : List (Int × RadixNode)) (e : Int)
    (c : RadixNode) (h : findChild cs e = some c) :
    evictableSumL (removeChild cs e) + evictableSum c = evictableSumL cs := by
  induction cs with
  | nil => simp [findChild] at h
  | cons hd tl ih =>
      obtain ⟨e₁, c₁⟩ := hd
      by_cases he : e₁ = e
      · subst he
        simp only [findChild, if_pos rfl] at h
        cases h
        simp only [removeChild, eq_self_iff_true, if_true, evictableSumL]
        omega
      · simp only [findChild, if_neg he] at h
        simp only [removeChild, if_neg he, evictableSumL]
        have := ih h
        omega

theorem protectedSumL_removeChild_found (cs : List (Int × RadixNode)) (e : Int)
    (c : RadixNode) (h : findChild cs e = some c) :
    protectedSumL (removeChild cs e) + protectedSum c = protectedSumL cs := by
  induction cs with
  | nil => simp [findChild] at h
  | cons hd tl ih =>
      obtain ⟨e₁, c₁⟩ := hd
      by_cases he : e₁ = e
      · subst he
        simp only [findChild, if_pos rfl] at h
        cases h
        simp only [removeChild, eq_self_iff_true, if_true, protectedSumL]
        omega
      · simp only [findChild, if_neg he] at h
        simp only [removeChild, if_neg he, protectedSumL]
        have := ih h
        omega

theorem treeIdsL_removeChild_found (cs : List (Int × RadixNode)) (e : Int)
    (c : RadixNode) (h : findChild cs e = some c) :
    ∃ pre post, treeIdsL cs = pre ++ treeIds c ++ post ∧
      treeIdsL (removeChild cs e) = pre ++ post := by
  induction cs with
  | nil => simp [findChild] at h
  | cons hd tl ih =>
      obtain ⟨e₁, c₁⟩ := hd
      by_cases he : e₁ = e
      · subst he
        simp only [findChild, if_pos rfl] at h
        cases h
        exact ⟨[], treeIdsL tl, by simp [treeIdsL], by simp [removeChild, treeIdsL]⟩
      · simp only [findChild, if_neg he] at h
        obtain ⟨pre, post, h1, h2⟩ := ih h
        refine ⟨treeIds c₁ ++ pre, post, ?_, ?_⟩
        · simp [treeIdsL, h1]
        · simp [removeChild, if_neg he, treeIdsL, h2]

theorem updateAt_removeChild_spec :
    ∀ (p : List Int) (t par : RadixNode) (edge : Int) (nd : RadixNode),
      nodeAt t p = some par →
      wfChildren t.children = true →
      findChild par.children edge = some nd →
      ∃ t₂,
        updateAt t p
          (fun x => x.withChildren (removeChild x.children edge)) = some t₂ ∧
        t₂.node_id = t.node_id ∧ t₂.key = t.key ∧ t₂.value = t.value ∧
        t₂.ref_count = t.ref_count ∧ t₂.timestamp = t.timestamp ∧
        wfChildren t₂.children = true ∧
        evictableSum t₂ + evictableSum nd = evictableSum t ∧
        protectedSum t₂ + protectedSum nd = protectedSum t ∧
        (treeIds t).Perm (treeIds t₂ ++ treeIds nd) ∧
        nodeAt t₂ p = some (par.withChildren (removeChild par.children edge)) := by
  intro p
  induction p with
  | nil =>
      intro t par edge nd hat hwf hfc
      simp only [nodeAt] at hat
      cases hat
      refine ⟨t.withChildren (removeChild t.children edge), rfl,
        (withChildren_fields t _).1, (withChildren_fields t _).2.1,
        (withChildren_fields t _).2.2.1, (withChildren_fields t _).2.2.2.1,
        (withChildren_fields t _).2.2.2.2, ?_, ?_, ?_, ?_, rfl⟩
      · rw [withChildren_children]
        exact wfChildren_removeChild _ _ hwf
      · rw [evictableSum_eq (t.withChildren _), evictableSum_eq t,
          withChildren_children, (withChildren_fields t _).2.1,
          (withChildren_fields t _).2.2.2.1]
        have := evictableSumL_removeChild_found t.children edge nd hfc
        omega
      · rw [protectedSum_eq (t.withChildren _), protectedSum_eq t,
          withChildren_children, (withChildren_fields t _).2.1,
          (withChildren_fields t _).2.2.2.1]
        have := protectedSumL_removeChild_found t.children edge nd hfc
        omega
      · obtain ⟨pre, post, hold, hnew⟩ :=
          treeIdsL_removeChild_found t.children edge nd hfc
        rw [treeIds_eq, treeIds_eq (t.withChildren _), withChildren_children,
          (withChildren_fields t _).1, hold, hnew]
        rw [List.perm_iff_count]
        intro a
        simp only [List.count_append, List.count_cons, List.count_nil]
        omega
  | cons e p ih =>
      intro t par edge nd hat hwf hfc
      simp only [nodeAt] at hat
      cases hfce : findChild t.children e with
      | none => rw [hfce] at hat; cases hat
      | some c =>
          rw [hfce] at hat
          obtain ⟨hwfc, hheadc⟩ := wfChildren_findChild _ _ _ hwf hfce
          obtain ⟨hknil, hkv, hccs⟩ := (wfNode_iff c).mp hwfc
          obtain ⟨c₂, hupd, hid, hkey, hval, hrc, hts, hwf₂, hes, hps, hperm, hat₂⟩ :=
            ih c par edge nd hat hccs hfc
          refine ⟨t.withChildren (setChild t.children e c₂), ?_,
            (withChildren_fields t _).1, (withChildren_fields t _).2.1,
            (withChildren_fields t _).2.2.1, (withChildren_fields t _).2.2.2.1,
            (withChildren_fields t _).2.2.2.2, ?_, ?_, ?_, ?_, ?_⟩
          · simp only [updateAt, hfce, hupd]
          · rw [withChildren_children]
            refine wfChildren_setChild _ _ _ hwf ?_ ?_
            · rw [hkey]; exact hheadc
            · rw [wfNode_iff, hkey, hval]
              exact ⟨hknil, hkv, hwf₂⟩
          · rw [evictableSum_eq (t.withChildren _), evictableSum_eq t,
              withChildren_children, (withChildren_fields t _).2.1,
              (withChildren_fields t _).2.2.2.1]
            have h1 := evictableSumL_setChild_found t.children e c c₂ hfce
            omega
          · rw [protectedSum_eq (t.withChildren _), protectedSum_eq t,
              withChildren_children, (withChildren_fields t _).2.1,
              (withChildren_fields t _).2.2.2.1]
            have h1 := protectedSumL_setChild_found t.children e c c₂ hfce
            omega
          · obtain ⟨pre, post, hold, hnew⟩ :=
              treeIdsL_setChild_found t.children e c c₂ hfce
            rw [treeIds_eq, treeIds_eq (t.withChildren _), withChildren_children,
              (withChildren_fields t _).1, hold, hnew]
            have hh := perm_count_helper pre post (treeIds c₂) (treeIds c)
              (treeIds nd) hperm
            have h2 := hh.cons t.node_id
            refine h2.trans ?_
            rw [List.perm_iff_count]
            intro a
            simp only [List.count_append, List.count_cons, List.count_nil]
            omega
          · simp only [nodeAt, withChildren_children, findChild_setChild_self]
            exact hat₂

theorem evictLoop_wf (size : Nat) :
    ∀ (fuel : Nat) (heap : List HeapEntry) (t : RadixNode) (ev es : Nat)
      (acc : List Int) (trace : List EvictedInfo)
      (t' : RadixNode) (ev' : Nat) (acc' : List Int) (trace' : List EvictedInfo),
      evictLoop size fuel heap t ev es acc trace = .ok (t', ev', acc', trace') →
      wfChildren t.children = true →
      ev = evictableSum t →
      t'.key = t.key ∧ t'.value = t.value ∧ t'.ref_count = t.ref_count ∧
      wfChildren t'.children = true ∧
      ev' = evictableSum t' ∧
      protectedSum t' = protectedSum t ∧
      (∀ i ∈ treeIds t', i ∈ treeIds t) ∧
      ((treeIds t).Nodup → (treeIds t').Nodup) := by
  intro fuel
  induction fuel with
  | zero =>
      intro heap t ev es acc trace t' ev' acc' trace' h hwf hev
      simp [evictLoop] at h
  | succ fuel ih =>
      intro heap t ev es acc trace t' ev' acc' trace' h hwf hev
      simp only [evictLoop] at h
      by_cases hstop : size ≤ es
      · rw [if_pos hstop] at h
        cases h
        exact ⟨rfl, rfl, rfl, hwf, hev, rfl, fun i hi => hi, fun hh => hh⟩
      · rw [if_neg hstop] at h
        cases heap with
        | nil =>
            dsimp only at h
            cases h
        | cons entry heap' =>
            dsimp only at h
            cases hnd : nodeAt t entry.path with
            | none => rw [hnd] at h; cases h
            | some nd =>
                rw [hnd] at h
                dsimp only at h
                by_cases hskip :
                    entry.path = [] ∨ ¬ nd.children.isEmpty ∨ 0 < nd.ref_count
                · rw [if_pos hskip] at h
                  exact ih heap' t ev es acc trace t' ev' acc' trace' h hwf hev
                · rw [if_neg hskip] at h
                  push_neg at hskip
                  obtain ⟨hpne, hleaf, hrcle⟩ := hskip
                  have hchil : nd.children = [] := List.isEmpty_iff.mp hleaf
                  have hrc0 : nd.ref_count = 0 := by omega
                  cases hhead : nd.key.head? with
                  | none => rw [hhead] at h; cases h
                  | some edge =>
                      rw [hhead] at h
                      dsimp only at h
                      by_cases hle : nd.len ≤ ev
                      · rw [if_pos hle] at h
                        rw [← List.dropLast_append_getLast hpne] at hnd
                        obtain ⟨par, hq, hfx⟩ :=
                          nodeAt_snoc entry.path.dropLast (entry.path.getLast hpne)
                            t nd hnd
                        have hwfpar : wfChildren par.children = true :=
                          wfChildren_nodeAt entry.path.dropLast t par hwf hq
                        obtain ⟨hwfnd, hheadx⟩ :=
                          wfChildren_findChild _ _ _ hwfpar hfx
                        rw [hhead] at hheadx
                        have hedge : edge = entry.path.getLast hpne :=
                          Option.some_injective _ hheadx
                        rw [← hedge] at hfx
                        obtain ⟨t₂, hupd, hid, hkey, hval, hrcf, hts, hwf₂, hes, hps,
                          hperm, hat₂⟩ :=
                          updateAt_removeChild_spec entry.path.dropLast t par edge
                            nd hq hwf hfx
                        rw [hupd] at h
                        dsimp only at h
                        rw [hat₂] at h
                        dsimp only at h
                        have hesnd : evictableSum nd = nd.len := by
                          rw [evictableSum_eq, hchil, if_pos hrc0]
                          simp [evictableSumL]
                          rfl
                        have hpsnd : protectedSum nd = 0 := by
                          rw [protectedSum_eq, hchil, if_pos hrc0]
                          simp [protectedSumL]
                        obtain ⟨k1, k2, k3, k4, k5, k6, k7, k8⟩ :=
                          ih _ t₂ (ev - nd.len) (es + nd.len) (acc ++ nd.value)
                            (trace ++ [⟨nd.timestamp, nd.node_id, nd.ref_count,
                                       nd.value, nd.len⟩])
                            t' ev' acc' trace' h hwf₂ (by omega)
                        refine ⟨by rw [k1, hkey], by rw [k2, hval],
                          by rw [k3, hrcf], k4, k5, by rw [k6]; omega, ?_, ?_⟩
                        · intro i hi
                          have h1 := k7 i hi
                          have h2 := hperm.mem_iff.mpr (List.mem_append_left _ h1)
                          exact h2
                        · intro hnd2
                          have hnd3 := hperm.nodup_iff.mp hnd2
                          exact k8 ((List.nodup_append.mp hnd3).1)
                      · rw [if_neg hle] at h
                        cases h

theorem evictWithTrace_wf (m m' : RadixCacheManager) (size : Nat) (out : List Int)
    (tr : List EvictedInfo) (hwf : wfManager m = true)
    (h : evictWithTrace m size = .ok (m', out, tr)) :
    wfManager m' = true ∧ m'.next_node_id = m.next_node_id ∧
    m'.protected_size = m.protected_size := by
  obtain ⟨hrk, hrv, hrc, hrcs, hev, hpr, hids, hbound⟩ := (wfManager_iff m).mp hwf
  unfold evictWithTrace at h
  by_cases h0 : size = 0
  · rw [if_pos h0] at h
    cases h
    exact ⟨hwf, rfl, rfl⟩
  · rw [if_neg h0] at h
    by_cases hlt : m.evictable_size < size
    · rw [if_pos hlt] at h
      cases h
    · rw [if_neg hlt] at h
      dsimp only at h
      cases hloop : evictLoop size (nodeCount m.root_node + 1)
          ((collectLeaves m.root_node []).foldl heapPush []) m.root_node
          m.evictable_size 0 [] [] with
      | error e => rw [hloop] at h; cases h
      | ok out4 =>
          obtain ⟨t, ev, acc, trace⟩ := out4
          rw [hloop] at h
          dsimp only at h
          cases h
          obtain ⟨k1, k2, k3, k4, k5, k6, k7, k8⟩ :=
            evictLoop_wf size _ _ m.root_node m.evictable_size 0 [] [] _ _ _ _
              hloop hrcs
              (by rw [hev, evictableSumL_children_root _ hrk])
          have htk : t.key = [] := by rw [k1]; exact hrk
          refine ⟨(wfManager_iff _).mpr ⟨htk, by rw [k2]; exact hrv,
            by rw [k3]; exact hrc, k4, ?_, ?_, k8 hids,
            fun i hi => hbound i (k7 i hi)⟩, rfl, rfl⟩
          · show ev = evictableSumL t.children
            rw [evictableSumL_children_root _ htk]
            exact k5
          · show m.protected_size = protectedSumL t.children
            rw [protectedSumL_children_root _ htk, k6,
              ← protectedSumL_children_root _ hrk]
            exact hpr

theorem runOp_wf (m m' : RadixCacheManager) (op : RadixOp)
    (hwf : wfManager m = true) (h : runOp m op = .ok m') : wfManager m' = true := by
  cases op with
  | insert ids idxs =>
      simp only [runOp] at h
      cases hins : insertPrefix m ids idxs with
      | error e => rw [hins] at h; cases h
      | ok p =>
          obtain ⟨m₂, n⟩ := p
          rw [hins] at h
          dsimp only at h
          cases h
          have hlen : ids.length = idxs.length := by
            by_contra hne
            unfold insertPrefix at hins
            rw [if_pos hne] at hins
            cases hins
          obtain ⟨m₂', n', heq, hwf₂, _, _⟩ := insertPrefix_spec m ids idxs hwf hlen
          rw [hins] at heq
          cases heq
          exact hwf₂
  | matchP ids =>
      simp only [runOp] at h
      cases hm : matchPrefix m ids with
      | error e => rw [hm] at h; cases h
      | ok p =>
          obtain ⟨m₂, hdl, v⟩ := p
          rw [hm] at h
          dsimp only at h
          cases h
          obtain ⟨m₂', hd', v', heq, hwf₂, _⟩ := matchPrefix_spec m ids hwf
          rw [hm] at heq
          cases heq
          exact hwf₂
  | lock p u =>
      exact (lock_handle_wf m m' ⟨0, p⟩ u hwf h).1
  | evictOp s =>
      simp only [runOp] at h
      unfold evict at h
      cases he : evictWithTrace m s with
      | error e => rw [he] at h; cases h
      | ok p =>
          obtain ⟨m₂, acc, tr⟩ := p
          rw [he] at h
          dsimp only at h
          cases h
          exact (evictWithTrace_wf m _ s _ _ hwf he).1

theorem runOps_wf :
    ∀ (ops : List RadixOp) (m m' : RadixCacheManager),
      wfManager m = true → runOps m ops = .ok m' → wfManager m' = true := by
  intro ops
  induction ops with
  | nil =>
      intro m m' hwf h
      simp only [runOps] at h
      cases h
      exact hwf
  | cons op ops ih =>
      intro m m' hwf h
      simp only [runOps] at h
      cases hop : runOp m op with
      | error e => rw [hop] at h; cases h
      | ok m₁ =>
          rw [hop] at h
          dsimp only at h
          exact ih m₁ m' (runOp_wf m m₁ op hwf hop) h

/-- C1: after every sequence of successful cache operations (insert_prefix,
match_prefix, lock_handle/unlock, evict) starting from a fresh cache,
check_integrity returns Ok; in particular evictable_size equals the recomputed
sum of |key| over non-root nodes with ref_count = 0, protected_size equals the
sum over non-root nodes with ref_count > 0, the root keeps ref_count = 1 with
empty key and value, and every child is stored under its first key token
(wfChildren; the parent back-link is definitional in the ownership-tree
embedding). -/
theorem C1_integrity_after_ops (ops : List RadixOp) (m : RadixCacheManager)
    (h : runOps newCache ops = .ok m) :
    check_integrity m = .ok () ∧
    m.evictable_size = evictableSumL m.root_node.children ∧
    m.protected_size = protectedSumL m.root_node.children ∧
    m.root_node.ref_count = 1 ∧ m.root_node.key = [] ∧ m.root_node.value = [] ∧
    wfChildren m.root_node.children = true := by
  have hwf : wfManager m = true := runOps_wf ops newCache m (by rfl) h
  obtain ⟨h1, h2, h3, h4, h5, h6, _⟩ := (wfManager_iff m).mp hwf
  exact ⟨check_integrity_of_wf m hwf, h5, h6, h3, h1, h2, h4⟩

theorem C1_integrity_after_ops_witness :
    runOps newCache
      [.insert [1,2,3] [10,11,12], .matchP [1,2], .lock [1] false,
       .evictOp 1, .lock [1] true, .evictOp 2] =
      .ok (RadixCacheManager.mk (RadixNode.mk 0 [] [] 1 0 []) 3 0 0 4) ∧
    check_integrity (RadixCacheManager.mk (RadixNode.mk 0 [] [] 1 0 []) 3 0 0 4)
      = .ok () :=
  ⟨by rfl,
    (C1_integrity_after_ops
      [.insert [1,2,3] [10,11,12], .matchP [1,2], .lock [1] false,
       .evictOp 1, .lock [1] true, .evictOp 2]
      (RadixCacheManager.mk (RadixNode.mk 0 [] [] 1 0 []) 3 0 0 4) (by rfl)).1⟩

theorem entryLe_iff (a b : HeapEntry) :
    entryLe a b = true ↔ lexLe (a.timestamp, a.node_id) (b.timestamp, b.node_id) := by
  unfold entryLe lexLe
  dsimp only
  by_cases h1 : a.timestamp < b.timestamp
  · rw [if_pos h1]
    simp only [eq_self_iff_true, true_iff]
    exact Or.inl h1
  · rw [if_neg h1]
    by_cases h2 : b.timestamp < a.timestamp
    · rw [if_pos h2]
      simp only [Bool.false_eq_true, false_iff]
      omega
    · rw [if_neg h2]
      simp only [decide_eq_true_eq]
      omega

theorem entryLe_total (a b : HeapEntry) :
    entryLe a b = true ∨ entryLe b a = true := by
  rw [entryLe_iff, entryLe_iff]
  unfold lexLe
  dsimp only
  omega

theorem entryLe_trans (a b c : HeapEntry) (h1 : entryLe a b = true)
    (h2 : entryLe b c = true) : entryLe a c = true := by
  rw [entryLe_iff] at *
  unfold lexLe at *
  dsimp only at *
  omega

theorem heapPush_perm (h : List HeapEntry) (e : HeapEntry) :
    (heapPush h e).Perm (e :: h) := by
  induction h with
  | nil => simp [heapPush]
  | cons x xs ih =>
      simp only [heapPush]
      by_cases hle : entryLe e x = true
      · rw [if_pos hle]
      · rw [if_neg hle]
        refine (ih.cons x).trans ?_
        exact List.Perm.swap e x xs

theorem heapPush_sorted (h : List HeapEntry) (e : HeapEntry)
    (hs : List.Pairwise (fun a b => entryLe a b = true) h) :
    List.Pairwise (fun a b => entryLe a b = true) (heapPush h e) := by
  induction h with
  | nil => simp [heapPush]
  | cons x xs ih =>
      simp only [heapPush]
      rw [List.pairwise_cons] at hs
      obtain ⟨hx, hxs⟩ := hs
      by_cases hle : entryLe e x = true
      · rw [if_pos hle]
        rw [List.pairwise_cons]
        refine ⟨?_, List.pairwise_cons.mpr ⟨hx, hxs⟩⟩
        intro y hy
        rcases List.mem_cons.mp hy with rfl | hy2
        · exact hle
        · exact entryLe_trans e x y hle (hx y hy2)
      · rw [if_neg hle]
        rw [List.pairwise_cons]
        refine ⟨?_, ih hxs⟩
        intro y hy
        have hy2 := (heapPush_perm xs e).mem_iff.mp hy
        rcases List.mem_cons.mp hy2 with heq | hy3
        · rcases entryLe_total e x with ht | ht
          · exact absurd ht hle
          · rw [heq]
            exact ht
        · exact hx y hy3

theorem foldl_heapPush_perm :
    ∀ (l h : List HeapEntry), (l.foldl heapPush h).Perm (h ++ l) := by
  intro l
  induction l with
  | nil => simp
  | cons e l ih =>
      intro h
      simp only [List.foldl_cons]
      refine (ih (heapPush h e)).trans ?_
      have h1 := (heapPush_perm h e).append_right l
      refine h1.trans ?_
      rw [List.perm_iff_count]
      intro a
      simp [List.count_append, List.count_cons]
      omega

theorem foldl_heapPush_sorted :
    ∀ (l h : List HeapEntry),
      List.Pairwise (fun a b => entryLe a b = true) h →
      List.Pairwise (fun a b => entryLe a b = true) (l.foldl heapPush h) := by
  intro l
  induction l with
  | nil => intro h hs; exact hs
  | cons e l ih =>
      intro h hs
      simp only [List.foldl_cons]
      exact ih (heapPush h e) (heapPush_sorted h e hs)

theorem nodeAt_append :
    ∀ (r s : List Int) (t : RadixNode),
      nodeAt t (r ++ s) = (nodeAt t r).bind (fun x => nodeAt x s) := by
  intro r
  induction r with
  | nil => intro s t; simp [nodeAt]
  | cons e r ih =>
      intro s t
      simp only [List.cons_append, nodeAt]
      cases hfc : findChild t.children e with
      | none => simp
      | some c => simp [ih s c]

theorem nodeAt_prefix_leaf (t nd : RadixNode) (r s : List Int)
    (h : nodeAt t r = some nd) (hleaf : nd.children = []) (hs : s ≠ []) :
    nodeAt t (r ++ s) = none := by
  rw [nodeAt_append, h]
  cases s with
  | nil => exact absurd rfl hs
  | cons f s' =>
      simp [nodeAt, hleaf, findChild]

theorem findChild_removeChild_wf (cs : List (Int × RadixNode)) (e f : Int)
    (hwf : wfChildren cs = true) :
    findChild (removeChild cs e) f = if f = e then none else findChild cs f := by
  induction cs with
  | nil => simp [removeChild, findChild]
  | cons hd tl ih =>
      obtain ⟨e₁, c₁⟩ := hd
      simp only [wfChildren, Bool.and_eq_true, Option.isNone_iff_eq_none] at hwf
      obtain ⟨⟨⟨hhead, hwfc⟩, hnone⟩, hwft⟩ := hwf
      by_cases h1 : e₁ = e
      · subst h1
        simp only [removeChild, eq_self_iff_true, if_true]
        by_cases h2 : f = e₁
        · subst h2
          rw [if_pos rfl]
          exact hnone
        · rw [if_neg h2]
          simp only [findChild]
          rw [if_neg (Ne.symm h2)]
      · simp only [removeChild, if_neg h1]
        by_cases h2 : f = e
        · subst h2
          rw [if_pos rfl]
          simp only [findChild]
          rw [if_neg h1]
          rw [ih hwft, if_pos rfl]
        · rw [if_neg h2]
          simp only [findChild]
          by_cases h3 : e₁ = f
          · rw [if_pos h3, if_pos h3]
          · rw [if_neg h3, if_neg h3, ih hwft, if_neg h2]

theorem findChild_treeIds_infix (cs : List (Int × RadixNode)) (e : Int) (c : RadixNode)
    (h : findChild cs e = some c) :
    ∃ pre post, treeIdsL cs = pre ++ (treeIds c ++ post) := by
  induction cs with
  | nil => simp [findChild] at h
  | cons hd tl ih =>
      obtain ⟨e₁, c₁⟩ := hd
      by_cases he : e₁ = e
      · subst he
        simp only [findChild, eq_self_iff_true, if_true] at h
        cases h
        exact ⟨[], treeIdsL tl, by simp [treeIdsL]⟩
      · simp only [findChild, if_neg he] at h
        obtain ⟨pre, post, h1⟩ := ih h
        exact ⟨treeIds c₁ ++ pre, post, by simp [treeIdsL, h1]⟩

theorem nodeAt_treeIds_infix :
    ∀ (q : List Int) (t b : RadixNode), nodeAt t q = some b →
      ∃ pre post, treeIds t = pre ++ (treeIds b ++ post) := by
  intro q
  induction q with
  | nil =>
      intro t b h
      simp only [nodeAt] at h
      cases h
      exact ⟨[], [], by simp⟩
  | cons e q ih =>
      intro t b h
      simp only [nodeAt] at h
      cases hfc : findChild t.children e with
      | none => rw [hfc] at h; cases h
      | some c =>
          rw [hfc] at h
          obtain ⟨p1, s1, hd1⟩ := findChild_treeIds_infix t.children e c hfc
          obtain ⟨p2, s2, hd2⟩ := ih c b h
          refine ⟨t.node_id :: (p1 ++ p2), s2 ++ s1, ?_⟩
          rw [treeIds_eq, hd1, hd2]
          simp

theorem nodeAt_mem_ids (q : List Int) (t b : RadixNode) (h : nodeAt t q = some b) :
    b.node_id ∈ treeIds t := by
  obtain ⟨pre, post, hd⟩ := nodeAt_treeIds_infix q t b h
  rw [hd]
  have : b.node_id ∈ treeIds b := by
    rw [treeIds_eq]
    exact List.mem_cons_self _ _
  simp [this]

theorem nodeAt_nodup (q : List Int) (t b : RadixNode) (hnd : (treeIds t).Nodup)
    (h : nodeAt t q = some b) : (treeIds b).Nodup := by
  obtain ⟨pre, post, hd⟩ := nodeAt_treeIds_infix q t b h
  rw [hd] at hnd
  exact ((List.sublist_append_left _ post).trans
    (List.sublist_append_right pre _)).nodup hnd

theorem findChild_mem_idsL (cs : List (Int × RadixNode)) (e : Int) (c : RadixNode)
    (h : findChild cs e = some c) (x : Nat) (hx : x ∈ treeIds c) :
    x ∈ treeIdsL cs := by
  obtain ⟨pre, post, hd⟩ := findChild_treeIds_infix cs e c h
  rw [hd]
  simp [hx]

theorem findChild_disjoint :
    ∀ (cs : List (Int × RadixNode)) (e f : Int) (c d : RadixNode),
      e ≠ f → findChild cs e = some c → findChild cs f = some d →
      (treeIdsL cs).Nodup →
      ∀ x, x ∈ treeIds c → x ∈ treeIds d → False := by
  intro cs
  induction cs with
  | nil => intro e f c d hne hc hd hnd x hxc hxd; simp [findChild] at hc
  | cons hd0 tl ih =>
      intro e f c d hne hc hd hnd x hxc hxd
      obtain ⟨g, c₁⟩ := hd0
      have hnd' : (treeIds c₁ ++ treeIdsL tl).Nodup := by
        simpa [treeIdsL] using hnd
      rw [List.nodup_append] at hnd'
      obtain ⟨hn1, hn2, hdisj⟩ := hnd'
      by_cases hg1 : g = e
      · subst hg1
        simp only [findChild, eq_self_iff_true, if_true] at hc
        cases hc
        simp only [findChild, if_neg (fun hh => hne hh)] at hd
        exact hdisj hxc (findChild_mem_idsL tl f d hd x hxd)
      · simp only [findChild, if_neg hg1] at hc
        by_cases hg2 : g = f
        · subst hg2
          simp only [findChild, eq_self_iff_true, if_true] at hd
          cases hd
          exact hdisj hxd (findChild_mem_idsL tl e c hc x hxc)
        · simp only [findChild, if_neg hg2] at hd
          exact ih e f c d hne hc hd hn2 x hxc hxd

theorem nodeAt_id_inj :
    ∀ (p q : List Int) (t a b : RadixNode),
      (treeIds t).Nodup → nodeAt t p = some a → nodeAt t q = some b →
      a.node_id = b.node_id → p = q := by
  intro p
  induction p with
  | nil =>
      intro q t a b hnd hp hq heq
      simp only [nodeAt] at hp
      cases hp
      cases q with
      | nil => rfl
      | cons f q' =>
          exfalso
          simp only [nodeAt] at hq
          cases hfc : findChild t.children f with
          | none => rw [hfc] at hq; cases hq
          | some c =>
              rw [hfc] at hq
              have hmem : b.node_id ∈ treeIdsL t.children :=
                findChild_mem_idsL t.children f c hfc b.node_id
                  (nodeAt_mem_ids q' c b hq)
              rw [treeIds_eq, List.nodup_cons] at hnd
              rw [← heq] at hmem
              exact hnd.1 hmem
  | cons e p' ih =>
      intro q t a b hnd hp hq heq
      cases q with
      | nil =>
          exfalso
          simp only [nodeAt] at hp hq
          cases hq
          cases hfc : findChild t.children e with
          | none => rw [hfc] at hp; cases hp
          | some c =>
              rw [hfc] at hp
              have hmem : a.node_id ∈ treeIdsL t.children :=
                findChild_mem_idsL t.children e c hfc a.node_id
                  (nodeAt_mem_ids p' c a hp)
              rw [treeIds_eq, List.nodup_cons] at hnd
              rw [heq] at hmem
              exact hnd.1 hmem
      | cons f q' =>
          simp only [nodeAt] at hp hq
          cases hfc1 : findChild t.children e with
          | none => rw [hfc1] at hp; cases hp
          | some c1 =>
              rw [hfc1] at hp
              cases hfc2 : findChild t.children f with
              | none => rw [hfc2] at hq; cases hq
              | some c2 =>
                  rw [hfc2] at hq
                  by_cases hef : e = f
                  · subst hef
                    rw [hfc1] at hfc2
                    cases hfc2
                    have hndc : (treeIds c1).Nodup := by
                      obtain ⟨pre, post, hd⟩ :=
                        findChild_treeIds_infix t.children e c1 hfc1
                      rw [treeIds_eq, List.nodup_cons] at hnd
                      rw [hd] at hnd
                      exact ((List.sublist_append_left _ post).trans
                        (List.sublist_append_right pre _)).nodup hnd.2
                    rw [ih q' c1 a b hndc hp hq heq]
                  · exfalso
                    rw [treeIds_eq, List.nodup_cons] at hnd
                    refine findChild_disjoint t.children e f c1 c2 hef hfc1 hfc2
                      hnd.2 a.node_id (nodeAt_mem_ids p' c1 a hp) ?_
                    rw [heq]
                    exact nodeAt_mem_ids q' c2 b hq

theorem nodeAt_remove_keep :
    ∀ (p : List Int) (t t₂ : RadixNode) (edge : Int),
      wfChildren t.children = true →
      updateAt t p (fun x => x.withChildren (removeChild x.children edge)) = some t₂ →
      ∀ (q : List Int) (nd₁ : RadixNode), nodeAt t q = some nd₁ →
        ¬ (p ++ [edge] <+: q) →
        ∃ nd₂, nodeAt t₂ q = some nd₂ ∧ nd₂.node_id = nd₁.node_id ∧
          nd₂.timestamp = nd₁.timestamp ∧ nd₂.ref_count = nd₁.ref_count ∧
          (nd₁.children = [] → nd₂.children = []) := by
  intro p
  induction p with
  | nil =>
      intro t t₂ edge hwf hupd q nd₁ hq hpre
      simp only [updateAt] at hupd
      cases hupd
      cases q with
      | nil =>
          simp only [nodeAt] at hq ⊢
          cases hq
          refine ⟨_, rfl, (withChildren_fields t _).1,
            (withChildren_fields t _).2.2.2.2, (withChildren_fields t _).2.2.2.1,
            ?_⟩
          intro hc
          rw [withChildren_children, hc]
          rfl
      | cons f q' =>
          have hfe : f ≠ edge := by
            intro hh
            subst hh
            exact hpre ⟨q', rfl⟩
          simp only [nodeAt] at hq ⊢
          rw [withChildren_children, findChild_removeChild_wf t.children edge f hwf,
            if_neg hfe]
          exact ⟨nd₁, hq, rfl, rfl, rfl, fun hh => hh⟩
  | cons e p' ih =>
      intro t t₂ edge hwf hupd q nd₁ hq hpre
      simp only [updateAt] at hupd
      cases hfc : findChild t.children e with
      | none => rw [hfc] at hupd; cases hupd
      | some c =>
          rw [hfc] at hupd
          dsimp only at hupd
          cases hrec : updateAt c p'
              (fun x => x.withChildren (removeChild x.children edge)) with
          | none => rw [hrec] at hupd; cases hupd
          | some c₂ =>
              rw [hrec] at hupd
              dsimp only at hupd
              cases hupd
              obtain ⟨hwfc, _⟩ := wfChildren_findChild _ _ _ hwf hfc
              have hccs : wfChildren c.children = true := ((wfNode_iff c).mp hwfc).2.2
              cases q with
              | nil =>
                  simp only [nodeAt] at hq ⊢
                  cases hq
                  refine ⟨_, rfl, (withChildren_fields t _).1,
                    (withChildren_fields t _).2.2.2.2,
                    (withChildren_fields t _).2.2.2.1, ?_⟩
                  intro hc
                  rw [hc] at hfc
                  simp [findChild] at hfc
              | cons f q' =>
                  simp only [nodeAt] at hq ⊢
                  by_cases hfe : f = e
                  · subst hfe
                    rw [hfc] at hq
                    rw [withChildren_children, findChild_setChild_self]
                    refine ih c c₂ edge hccs hrec q' nd₁ hq ?_
                    intro hh
                    refine hpre ?_
                    rw [List.cons_append]
                    exact (List.cons_prefix_cons).mpr ⟨rfl, hh⟩
                  · rw [withChildren_children,
                      findChild_setChild_ne t.children e f c₂ hfe]
                    cases hfc2 : findChild t.children f with
                    | none => rw [hfc2] at hq; cases hq
                    | some d =>
                        rw [hfc2] at hq
                        exact ⟨nd₁, hq, rfl, rfl, rfl, fun hh => hh⟩

theorem nodeAt_remove_sub :
    ∀ (p : List Int) (t t₂ : RadixNode) (edge : Int),
      wfChildren t.children = true →
      updateAt t p (fun x => x.withChildren (removeChild x.children edge)) = some t₂ →
      ∀ (q : List Int) (nd₂ : RadixNode), nodeAt t₂ q = some nd₂ →
        ∃ nd₁, nodeAt t q = some nd₁ ∧ nd₁.node_id = nd₂.node_id ∧
          (nd₁.children = [] → nd₂.children = []) := by
  intro p
  induction p with
  | nil =>
      intro t t₂ edge hwf hupd q nd₂ hq
      simp only [updateAt] at hupd
      cases hupd
      cases q with
      | nil =>
          simp only [nodeAt] at hq ⊢
          cases hq
          refine ⟨t, rfl, ((withChildren_fields t _).1).symm, ?_⟩
          intro hc
          rw [withChildren_children, hc]
          rfl
      | cons f q' =>
          simp only [nodeAt, withChildren_children,
            findChild_removeChild_wf t.children edge f hwf] at hq
          by_cases hfe : f = edge
          · rw [if_pos hfe] at hq
            cases hq
          · rw [if_neg hfe] at hq
            simp only [nodeAt]
            cases hfc : findChild t.children f with
            | none => rw [hfc] at hq; cases hq
            | some d =>
                rw [hfc] at hq
                exact ⟨nd₂, hq, rfl, fun hh => hh⟩
  | cons e p' ih =>
      intro t t₂ edge hwf hupd q nd₂ hq
      simp only [updateAt] at hupd
      cases hfc : findChild t.children e with
      | none => rw [hfc] at hupd; cases hupd
      | some c =>
          rw [hfc] at hupd
          dsimp only at hupd
          cases hrec : updateAt c p'
              (fun x => x.withChildren (removeChild x.children edge)) with
          | none => rw [hrec] at hupd; cases hupd
          | some c₂ =>
              rw [hrec] at hupd
              dsimp only at hupd
              cases hupd
              obtain ⟨hwfc, _⟩ := wfChildren_findChild _ _ _ hwf hfc
              have hccs : wfChildren c.children = true := ((wfNode_iff c).mp hwfc).2.2
              cases q with
              | nil =>
                  simp only [nodeAt] at hq ⊢
                  cases hq
                  refine ⟨t, rfl, ((withChildren_fields t _).1).symm, ?_⟩
                  intro hc
                  rw [hc] at hfc
                  simp [findChild] at hfc
              | cons f q' =>
                  simp only [nodeAt] at hq ⊢
                  by_cases hfe : f = e
                  · subst hfe
                    rw [withChildren_children, findChild_setChild_self] at hq
                    obtain ⟨nd₁, h1, h2, h3⟩ := ih c c₂ edge hccs hrec q' nd₂ hq
                    rw [hfc]
                    exact ⟨nd₁, h1, h2, h3⟩
                  · rw [withChildren_children,
                      findChild_setChild_ne t.children e f c₂ hfe] at hq
                    cases hfc2 : findChild t.children f with
                    | none => rw [hfc2] at hq; cases hq
                    | some d =>
                        rw [hfc2] at hq
                        exact ⟨nd₂, hq, rfl, fun hh => hh⟩

theorem collectLeaves_spec_fuel :
    ∀ (n : Nat),
      (∀ (t : RadixNode) (p : List Int), nodeCount t ≤ n →
        wfChildren t.children = true →
        ∀ ent ∈ collectLeaves t p,
          ∃ q nd, ent.path = p ++ q ∧ nodeAt t q = some nd ∧
            nd.node_id = ent.node_id ∧ nd.timestamp = ent.timestamp ∧
            nd.children = [] ∧ nd.ref_count = 0) ∧
      (∀ (cs : List (Int × RadixNode)) (p : List Int), nodeCountL cs ≤ n →
        wfChildren cs = true →
        ∀ ent ∈ collectLeavesL cs p,
          ∃ e c q nd, findChild cs e = some c ∧ ent.path = p ++ (e :: q) ∧
            nodeAt c q = some nd ∧ nd.node_id = ent.node_id ∧
            nd.timestamp = ent.timestamp ∧ nd.children = [] ∧ nd.ref_count = 0) := by
  intro n
  induction n with
  | zero =>
      constructor
      · intro t p hle
        cases t with
        | mk i k v rc ts cs => simp [nodeCount] at hle
      · intro cs p hle hwf ent hent
        cases cs with
        | nil => simp [collectLeavesL] at hent
        | cons hd tl =>
            obtain ⟨g, c⟩ := hd
            cases c with
            | mk i k v rc ts cs' => simp [nodeCountL, nodeCount] at hle
  | succ n ih =>
      have hA : ∀ (t : RadixNode) (p : List Int), nodeCount t ≤ n + 1 →
          wfChildren t.children = true →
          ∀ ent ∈ collectLeaves t p,
            ∃ q nd, ent.path = p ++ q ∧ nodeAt t q = some nd ∧
              nd.node_id = ent.node_id ∧ nd.timestamp = ent.timestamp ∧
              nd.children = [] ∧ nd.ref_count = 0 := by
        intro t p hle hwf ent hent
        cases t with
        | mk i k v rc ts cs =>
            simp only [collectLeaves] at hent
            by_cases hemp : cs.isEmpty
            · rw [if_pos hemp] at hent
              have hcs : cs = [] := List.isEmpty_iff.mp hemp
              by_cases hrc : rc = 0
              · rw [if_pos hrc] at hent
                simp only [List.mem_singleton] at hent
                subst hent
                refine ⟨[], RadixNode.mk i k v rc ts cs, by simp, rfl, ?_, ?_, ?_, ?_⟩
                · rfl
                · rfl
                · rw [children_mk, hcs]
                · rw [ref_count_mk, hrc]
              · rw [if_neg hrc] at hent
                simp at hent
            · rw [if_neg hemp] at hent
              have hcount : nodeCountL cs ≤ n := by
                simp only [nodeCount] at hle
                omega
              have hwf' : wfChildren cs = true := by
                rw [children_mk] at hwf
                exact hwf
              obtain ⟨e, c, q, nd, hfc, hpath, hat, h1, h2, h3, h4⟩ :=
                ih.2 cs p hcount hwf' ent hent
              refine ⟨e :: q, nd, hpath, ?_, h1, h2, h3, h4⟩
              simp only [nodeAt, children_mk, hfc]
              exact hat
      refine ⟨hA, ?_⟩
      intro cs p hle hwf ent hent
      induction cs with
      | nil => simp [collectLeavesL] at hent
      | cons hd tl ihl =>
          obtain ⟨g, c⟩ := hd
          simp only [wfChildren, Bool.and_eq_true, Option.isNone_iff_eq_none] at hwf
          obtain ⟨⟨⟨hhead, hwfc⟩, hnone⟩, hwft⟩ := hwf
          simp only [collectLeavesL, List.mem_append] at hent
          rcases hent with hent | hent
          · have hcnt : nodeCount c ≤ n + 1 := by
              simp only [nodeCountL] at hle
              omega
            obtain ⟨q, nd, hpath, hat, h1, h2, h3, h4⟩ :=
              hA c (p ++ [g]) hcnt ((wfNode_iff c).mp hwfc).2.2 ent hent
            refine ⟨g, c, q, nd, ?_, ?_, hat, h1, h2, h3, h4⟩
            · simp only [findChild, eq_self_iff_true, if_true]
            · rw [hpath]
              simp
          · have hcnt : nodeCountL tl ≤ n + 1 := by
              simp only [nodeCountL] at hle
              have : 1 ≤ nodeCount c := by
                cases c with
                | mk i k v rc ts cs' => simp [nodeCount]
              omega
            obtain ⟨e, c', q, nd, hfc, hpath, hat, h1, h2, h3, h4⟩ :=
              ihl hcnt hwft hent
            refine ⟨e, c', q, nd, ?_, hpath, hat, h1, h2, h3, h4⟩
            have hge : g ≠ e := by
              intro hh
              subst hh
              rw [hnone] at hfc
              cases hfc
            simp only [findChild, if_neg hge]
            exact hfc

theorem collectLeaves_ids_sublist_fuel :
    ∀ (n : Nat),
      (∀ (t : RadixNode) (p : List Int), nodeCount t ≤ n →
        ((collectLeaves t p).map HeapEntry.node_id).Sublist (treeIds t)) ∧
      (∀ (cs : List (Int × RadixNode)) (p : List Int), nodeCountL cs ≤ n →
        ((collectLeavesL cs p).map HeapEntry.node_id).Sublist (treeIdsL cs)) := by
  intro n
  induction n with
  | zero =>
      constructor
      · intro t p hle
        cases t with
        | mk i k v rc ts cs => simp [nodeCount] at hle
      · intro cs p hle
        cases cs with
        | nil => simp [collectLeavesL, treeIdsL]
        | cons hd tl =>
            obtain ⟨g, c⟩ := hd
            cases c with
            | mk i k v rc ts cs' => simp [nodeCountL, nodeCount] at hle
  | succ n ih =>
      have hA : ∀ (t : RadixNode) (p : List Int), nodeCount t ≤ n + 1 →
          ((collectLeaves t p).map HeapEntry.node_id).Sublist (treeIds t) := by
        intro t p hle
        cases t with
        | mk i k v rc ts cs =>
            simp only [collectLeaves, treeIds]
            by_cases hemp : cs.isEmpty
            · rw [if_pos hemp]
              by_cases hrc : rc = 0
              · rw [if_pos hrc]
                simp
              · rw [if_neg hrc]
                simp
            · rw [if_neg hemp]
              have hcount : nodeCountL cs ≤ n := by
                simp only [nodeCount] at hle
                omega
              exact (ih.2 cs p hcount).cons i
      refine ⟨hA, ?_⟩
      intro cs p hle
      induction cs with
      | nil => simp [collectLeavesL, treeIdsL]
      | cons hd tl ihl =>
          obtain ⟨g, c⟩ := hd
          simp only [collectLeavesL, treeIdsL, List.map_append]
          refine List.Sublist.append ?_ ?_
          · refine hA c (p ++ [g]) ?_
            simp only [nodeCountL] at hle
            omega
          · refine ihl ?_
            simp only [nodeCountL] at hle
            have : 1 ≤ nodeCount c := by
              cases c with
              | mk i k v rc ts cs' => simp [nodeCount]
            omega

theorem evictLoop_order (size : Nat) (S : List Nat) :
    ∀ (fuel : Nat) (heap : List HeapEntry) (t : RadixNode) (ev es : Nat)
      (acc : List Int) (trace : List EvictedInfo)
      (t' : RadixNode) (ev' : Nat) (acc' : List Int) (trace' : List EvictedInfo),
      evictLoop size fuel heap t ev es acc trace = .ok (t', ev', acc', trace') →
      wfChildren t.children = true →
      (treeIds t).Nodup →
      (∀ e ∈ heap, entryValid t e) →
      List.Pairwise (fun a b => entryLe a b = true) heap →
      (heap.map HeapEntry.node_id).Nodup →
      leafIdsOnly S t →
      ∃ newT : List EvictedInfo,
        trace' = trace ++ newT ∧
        acc' = acc ++ (newT.map EvictedInfo.value).join ∧
        size ≤ es + (newT.map EvictedInfo.key_len).sum ∧
        (∀ b ∈ newT, b.ref_count = 0 ∧ b.value.length = b.key_len) ∧
        List.Pairwise
          (fun a b => lexLe (a.timestamp, a.node_id) (b.timestamp, b.node_id))
          (newT.filter (fun b => decide (b.node_id ∈ S))) ∧
        (∀ b ∈ newT, b.node_id ∈ S →
          ∃ e, e ∈ heap ∧ e.node_id = b.node_id ∧ e.timestamp = b.timestamp) := by
  intro fuel
  induction fuel with
  | zero =>
      intro heap t ev es acc trace t' ev' acc' trace' h
      simp [evictLoop] at h
  | succ fuel ih =>
      intro heap t ev es acc trace t' ev' acc' trace' h hwf hnd hvalid hsort hids hS
      simp only [evictLoop] at h
      by_cases hstop : size ≤ es
      · rw [if_pos hstop] at h
        cases h
        exact ⟨[], by simp, by simp, by simpa using hstop, by simp, by simp, by simp⟩
      · rw [if_neg hstop] at h
        cases heap with
        | nil =>
            dsimp only at h
            cases h
        | cons entry heap' =>
            dsimp only at h
            cases hnd0 : nodeAt t entry.path with
            | none => rw [hnd0] at h; cases h
            | some nd =>
                rw [hnd0] at h
                dsimp only at h
                have htail : ∀ e ∈ heap', entryValid t e :=
                  fun e he => hvalid e (List.mem_cons_of_mem _ he)
                have hsort' := (List.pairwise_cons.mp hsort).2
                have hsorthd := (List.pairwise_cons.mp hsort).1
                have hids' : (heap'.map HeapEntry.node_id).Nodup := by
                  simp only [List.map_cons] at hids
                  exact (List.nodup_cons.mp hids).2
                have hidhd : entry.node_id ∉ heap'.map HeapEntry.node_id := by
                  simp only [List.map_cons] at hids
                  exact (List.nodup_cons.mp hids).1
                by_cases hskip :
                    entry.path = [] ∨ ¬ nd.children.isEmpty ∨ 0 < nd.ref_count
                · rw [if_pos hskip] at h
                  obtain ⟨newT, k1, k2, k3, k4, k5, k6⟩ :=
                    ih heap' t ev es acc trace t' ev' acc' trace' h hwf hnd
                      htail hsort' hids' hS
                  refine ⟨newT, k1, k2, k3, k4, k5, ?_⟩
                  intro b hb hbS
                  obtain ⟨e, he, h1, h2⟩ := k6 b hb hbS
                  exact ⟨e, List.mem_cons_of_mem _ he, h1, h2⟩
                · rw [if_neg hskip] at h
                  push_neg at hskip
                  obtain ⟨hpne, hleaf, hrcle⟩ := hskip
                  have hchil : nd.children = [] := List.isEmpty_iff.mp hleaf
                  have hrc0 : nd.ref_count = 0 := by omega
                  cases hhead : nd.key.head? with
                  | none => rw [hhead] at h; cases h
                  | some edge =>
                      rw [hhead] at h
                      dsimp only at h
                      by_cases hle : nd.len ≤ ev
                      · rw [if_pos hle] at h
                        have hndsnoc := hnd0
                        rw [← List.dropLast_append_getLast hpne] at hndsnoc
                        obtain ⟨par, hq, hfx⟩ :=
                          nodeAt_snoc entry.path.dropLast
                            (entry.path.getLast hpne) t nd hndsnoc
                        have hwfpar : wfChildren par.children = true :=
                          wfChildren_nodeAt entry.path.dropLast t par hwf hq
                        obtain ⟨hwfnd, hheadx⟩ :=
                          wfChildren_findChild _ _ _ hwfpar hfx
                        rw [hhead] at hheadx
                        have hedge : edge = entry.path.getLast hpne :=
                          Option.some_injective _ hheadx
                        rw [← hedge] at hfx
                        obtain ⟨t₂, hupd, hid, hkey, hval, hrcf, hts, hwf₂, hes, hps,
                          hperm, hat₂⟩ :=
                          updateAt_removeChild_spec entry.path.dropLast t par edge
                            nd hq hwf hfx
                        rw [hupd] at h
                        dsimp only at h
                        rw [hat₂] at h
                        dsimp only at h
                        -- facts about the popped entry and node
                        obtain ⟨nd₀, hq₀, hidm, htsm, _, _, _⟩ :=
                          hvalid entry (List.mem_cons_self _ _)
                        rw [hnd0] at hq₀
                        cases hq₀
                        -- the removed path is entry.path itself
                        have hpexp : entry.path
                            = entry.path.dropLast ++ [edge] := by
                          rw [hedge]
                          exact (List.dropLast_append_getLast hpne).symm
                        -- validity of the surviving entries in the new tree
                        have hkeep : ∀ e ∈ heap', entryValid t₂ e := by
                          intro e he
                          obtain ⟨nd', hq', hid', hts', hchil', hrc', hpne'⟩ :=
                            htail e he
                          have hnpre : ¬ (entry.path.dropLast ++ [edge] <+: e.path) := by
                            intro hpre
                            obtain ⟨s, hs⟩ := hpre
                            rw [← hpexp] at hs
                            cases hsn : s with
                            | nil =>
                                rw [hsn, List.append_nil] at hs
                                rw [← hs] at hq'
                                rw [hnd0] at hq'
                                cases hq'
                                refine hidhd ?_
                                rw [← hidm, hid']
                                exact List.mem_map_of_mem HeapEntry.node_id he
                            | cons a s' =>
                                rw [hsn] at hs
                                rw [← hs] at hq'
                                rw [nodeAt_prefix_leaf t nd entry.path (a :: s')
                                  hnd0 hchil (by simp)] at hq'
                                cases hq'
                          obtain ⟨nd₂', hq₂', hidn, htsn, hrcn, hchn⟩ :=
                            nodeAt_remove_keep entry.path.dropLast t t₂ edge hwf
                              hupd e.path nd' hq' hnpre
                          exact ⟨nd₂', hq₂', by rw [hidn, hid'],
                            by rw [htsn, hts'], hchn hchil',
                            by rw [hrcn, hrc'], hpne'⟩
                        -- the pushed parent cannot collide with surviving entries
                        have hparid : ∀ e ∈ heap',
                            e.node_id ≠ par.node_id := by
                          intro e he heq
                          obtain ⟨nd', hq', hid', hts', hchil', hrc', hpne'⟩ :=
                            htail e he
                          have hinj := nodeAt_id_inj e.path entry.path.dropLast t
                            nd' par hnd hq' hq (by rw [hid', heq])
                          rw [hinj] at hq'
                          rw [hq] at hq'
                          cases hq'
                          rw [hchil'] at hfx
                          simp [findChild] at hfx
                        -- the parent node still has its child, so its id is not a leaf id
                        have hparS : par.node_id ∉ S := by
                          intro hmem
                          have := hS entry.path.dropLast par hq hmem
                          rw [this] at hfx
                          simp [findChild] at hfx
                        have hnds : (treeIds t₂).Nodup :=
                          (List.nodup_append.mp (hperm.nodup_iff.mp hnd)).1
                        have hS₂ : leafIdsOnly S t₂ := by
                          intro q nd₂x hq₂ hmem
                          obtain ⟨nd₁x, hq₁, hidx, hchx⟩ :=
                            nodeAt_remove_sub entry.path.dropLast t t₂ edge hwf
                              hupd q nd₂x hq₂
                          exact hchx (hS q nd₁x hq₁ (by rw [hidx]; exact hmem))
                        -- case split on whether the parent is re-enqueued
                        by_cases hC : entry.path.dropLast ≠ [] ∧
                            (par.withChildren
                              (removeChild par.children edge)).children.isEmpty ∧
                            (par.withChildren
                              (removeChild par.children edge)).ref_count = 0
                        · rw [if_pos hC] at h
                          obtain ⟨newT, k1, k2, k3, k4, k5, k6⟩ :=
                            ih _ t₂ (ev - nd.len) (es + nd.len) (acc ++ nd.value)
                              (trace ++ [⟨nd.timestamp, nd.node_id, nd.ref_count,
                                         nd.value, nd.len⟩])
                              t' ev' acc' trace' h hwf₂ hnds
                              (by
                                intro e he
                                have hpm := (heapPush_perm heap' _).mem_iff.mp he
                                rcases List.mem_cons.mp hpm with heq | he'
                                · rw [heq]
                                  exact ⟨par.withChildren
                                      (removeChild par.children edge), hat₂,
                                    rfl, rfl, List.isEmpty_iff.mp hC.2.1,
                                    hC.2.2, hC.1⟩
                                · exact hkeep e he')
                              (heapPush_sorted heap' _ hsort')
                              (by
                                have hpm := (heapPush_perm heap'
                                  ⟨(par.withChildren
                                      (removeChild par.children edge)).timestamp,
                                    (par.withChildren
                                      (removeChild par.children edge)).node_id,
                                    entry.path.dropLast⟩).map HeapEntry.node_id
                                refine hpm.nodup_iff.mpr ?_
                                simp only [List.map_cons]
                                rw [List.nodup_cons]
                                refine ⟨?_, hids'⟩
                                intro hmem
                                obtain ⟨e, he, heq⟩ := List.mem_map.mp hmem
                                exact hparid e he
                                  (by rw [heq, (withChildren_fields par _).1])
                              ) hS₂
                          refine ⟨⟨nd.timestamp, nd.node_id, nd.ref_count,
                            nd.value, nd.len⟩ :: newT, ?_, ?_, ?_, ?_, ?_, ?_⟩
                          · rw [k1]
                            simp
                          · rw [k2]
                            simp
                          · simp only [List.map_cons, List.sum_cons]
                            show size ≤ es +
                              (nd.len + (List.map EvictedInfo.key_len newT).sum)
                            omega
                          · intro b hb
                            rcases List.mem_cons.mp hb with heq | hb'
                            · rw [heq]
                              refine ⟨hrc0, ?_⟩
                              show nd.value.length = nd.len
                              have h1 := ((wfNode_iff nd).mp hwfnd).2.1
                              have h2 : nd.len = nd.key.length := rfl
                              omega
                            · exact k4 b hb'
                          · rw [List.filter_cons]
                            by_cases hbS : nd.node_id ∈ S
                            · rw [if_pos (by simpa using hbS)]
                              rw [List.pairwise_cons]
                              refine ⟨?_, k5⟩
                              intro b hb
                              obtain ⟨hbmem, hbS'⟩ := List.mem_filter.mp hb
                              obtain ⟨e, he, h1, h2⟩ := k6 b hbmem
                                (by simpa using hbS')
                              have heS : e.node_id ∈ S := by
                                rw [h1]
                                simpa using hbS'
                              have he' : e ∈ heap' := by
                                have hpm := (heapPush_perm heap' _).mem_iff.mp he
                                rcases List.mem_cons.mp hpm with heq | he'
                                · exfalso
                                  refine hparS ?_
                                  rw [← (show e.node_id = par.node_id by
                                    rw [heq, (withChildren_fields par _).1])]
                                  exact heS
                                · exact he'
                              have hlee := hsorthd e he'
                              rw [entryLe_iff] at hlee
                              dsimp only
                              rw [← hidm, ← htsm] at hlee
                              rw [← h1, ← h2]
                              exact hlee
                            · rw [if_neg (by simpa using hbS)]
                              exact k5
                          · intro b hb hbS
                            rcases List.mem_cons.mp hb with heq | hb'
                            · refine ⟨entry, List.mem_cons_self _ _, ?_, ?_⟩
                              · rw [heq]
                                exact hidm.symm
                              · rw [heq]
                                exact htsm.symm
                            · obtain ⟨e, he, h1, h2⟩ := k6 b hb' hbS
                              have he' : e ∈ heap' := by
                                have hpm := (heapPush_perm heap' _).mem_iff.mp he
                                rcases List.mem_cons.mp hpm with heq | he'
                                · exfalso
                                  refine hparS ?_
                                  rw [← (show e.node_id = par.node_id by
                                    rw [heq, (withChildren_fields par _).1])]
                                  rw [h1]
                                  exact hbS
                                · exact he'
                              exact ⟨e, List.mem_cons_of_mem _ he', h1, h2⟩
                        · rw [if_neg hC] at h
                          obtain ⟨newT, k1, k2, k3, k4, k5, k6⟩ :=
                            ih heap' t₂ (ev - nd.len) (es + nd.len) (acc ++ nd.value)
                              (trace ++ [⟨nd.timestamp, nd.node_id, nd.ref_count,
                                         nd.value, nd.len⟩])
                              t' ev' acc' trace' h hwf₂ hnds hkeep hsort' hids' hS₂
                          refine ⟨⟨nd.timestamp, nd.node_id, nd.ref_count,
                            nd.value, nd.len⟩ :: newT, ?_, ?_, ?_, ?_, ?_, ?_⟩
                          · rw [k1]
                            simp
                          · rw [k2]
                            simp
                          · simp only [List.map_cons, List.sum_cons]
                            show size ≤ es +
                              (nd.len + (List.map EvictedInfo.key_len newT).sum)
                            omega
                          · intro b hb
                            rcases List.mem_cons.mp hb with heq | hb'
                            · rw [heq]
                              refine ⟨hrc0, ?_⟩
                              show nd.value.length = nd.len
                              have h1 := ((wfNode_iff nd).mp hwfnd).2.1
                              have h2 : nd.len = nd.key.length := rfl
                              omega
                            · exact k4 b hb'
                          · rw [List.filter_cons]
                            by_cases hbS : nd.node_id ∈ S
                            · rw [if_pos (by simpa using hbS)]
                              rw [List.pairwise_cons]
                              refine ⟨?_, k5⟩
                              intro b hb
                              obtain ⟨hbmem, hbS'⟩ := List.mem_filter.mp hb
                              obtain ⟨e, he, h1, h2⟩ := k6 b hbmem
                                (by simpa using hbS')
                              have hlee := hsorthd e he
                              rw [entryLe_iff] at hlee
                              dsimp only
                              rw [← hidm, ← htsm] at hlee
                              rw [← h1, ← h2]
                              exact hlee
                            · rw [if_neg (by simpa using hbS)]
                              exact k5
                          · intro b hb hbS
                            rcases List.mem_cons.mp hb with heq | hb'
                            · refine ⟨entry, List.mem_cons_self _ _, ?_, ?_⟩
                              · rw [heq]
                                exact hidm.symm
                              · rw [heq]
                                exact htsm.symm
                            · obtain ⟨e, he, h1, h2⟩ := k6 b hb' hbS
                              exact ⟨e, List.mem_cons_of_mem _ he, h1, h2⟩
                      · rw [if_neg hle] at h
                        cases h

/-- C2 (amended): with a well-formed cache, evict(size) fails with EvictTooLarge
when size exceeds evictable_size; evict is the trace-erasing projection of
evictWithTrace; and on success the returned indices number at least `size`,
are exactly the concatenation of the removed leaves' values in removal order,
their total equals the sum of the removed whole-leaf lengths, no removed node
has ref_count > 0, and the leaves present at the start of the eviction are
removed in increasing (timestamp, node_id) order.  (The original claim's
ordering over ALL removals is false: a parent re-enqueued mid-eviction can
carry an older timestamp, see the counterexample.) -/
theorem C2_evict_spec (m : RadixCacheManager) (size : Nat)
    (hwf : wfManager m = true) :
    (m.evictable_size < size →
      evictWithTrace m size = .error (.EvictTooLarge size m.evictable_size)) ∧
    (∀ r, evictWithTrace m size = .ok r → evict m size = .ok (r.1, r.2.1)) ∧
    (∀ m' out trace, evictWithTrace m size = .ok (m', out, trace) →
      size ≤ out.length ∧
      out = (trace.map EvictedInfo.value).join ∧
      out.length = (trace.map EvictedInfo.key_len).sum ∧
      (∀ b ∈ trace, b.ref_count = 0) ∧
      List.Pairwise
        (fun a b => a.timestamp < b.timestamp ∨
          (a.timestamp = b.timestamp ∧ a.node_id ≤ b.node_id))
        (trace.filter (fun b => decide (b.node_id ∈
          (collectLeaves m.root_node []).map HeapEntry.node_id)))) := by
  obtain ⟨hrk, hrv, hrc, hrcs, hev, hpr, hnds, hbound⟩ := (wfManager_iff m).mp hwf
  refine ⟨?_, ?_, ?_⟩
  · intro hlt
    unfold evictWithTrace
    rw [if_neg (by omega), if_pos hlt]
  · intro r hok
    unfold evict
    rw [hok]
  · intro m' out trace hok
    unfold evictWithTrace at hok
    by_cases h0 : size = 0
    · rw [if_pos h0] at hok
      cases hok
      subst h0
      exact ⟨by simp, by simp, by simp, by simp, by simp⟩
    · rw [if_neg h0] at hok
      by_cases hlt : m.evictable_size < size
      · rw [if_pos hlt] at hok
        cases hok
      · rw [if_neg hlt] at hok
        dsimp only at hok
        cases hloop : evictLoop size (nodeCount m.root_node + 1)
            ((collectLeaves m.root_node []).foldl heapPush []) m.root_node
            m.evictable_size 0 [] [] with
        | error e => rw [hloop] at hok; cases hok
        | ok out4 =>
            obtain ⟨t, ev, acc, tr⟩ := out4
            rw [hloop] at hok
            dsimp only at hok
            cases hok
            have hperm0 : ((collectLeaves m.root_node []).foldl heapPush []).Perm
                (collectLeaves m.root_node []) := by
              simpa using foldl_heapPush_perm (collectLeaves m.root_node []) []
            have hvalid0 : ∀ e ∈ (collectLeaves m.root_node []).foldl heapPush [],
                entryValid m.root_node e := by
              intro e he
              have hmem := hperm0.mem_iff.mp he
              obtain ⟨q, nd, hpath, hat, h1, h2, h3, h4⟩ :=
                (collectLeaves_spec_fuel (nodeCount m.root_node)).1 m.root_node []
                  (Nat.le_refl _) hrcs e hmem
              simp only [List.nil_append] at hpath
              refine ⟨nd, by rw [hpath]; exact hat, h1, h2, h3, h4, ?_⟩
              rw [hpath]
              intro hq
              rw [hq] at hat
              simp only [nodeAt] at hat
              cases hat
              rw [hrc] at h4
              cases h4
            have hsort0 := foldl_heapPush_sorted (collectLeaves m.root_node []) []
              (List.Pairwise.nil)
            have hids0 : (((collectLeaves m.root_node []).foldl heapPush []).map
                HeapEntry.node_id).Nodup := by
              refine (hperm0.map HeapEntry.node_id).nodup_iff.mpr ?_
              exact ((collectLeaves_ids_sublist_fuel (nodeCount m.root_node)).1
                m.root_node [] (Nat.le_refl _)).nodup hnds
            have hS0 : leafIdsOnly
                ((collectLeaves m.root_node []).map HeapEntry.node_id)
                m.root_node := by
              intro q nd hq hmem
              obtain ⟨ent, hent, hide⟩ := List.mem_map.mp hmem
              obtain ⟨qe, nde, hpath, hate, h1, h2, h3, h4⟩ :=
                (collectLeaves_spec_fuel (nodeCount m.root_node)).1 m.root_node []
                  (Nat.le_refl _) hrcs ent hent
              simp only [List.nil_append] at hpath
              have hinj := nodeAt_id_inj q qe m.root_node nd nde hnds hq
                hate (by rw [← hide, h1])
              rw [hinj] at hq
              rw [hate] at hq
              cases hq
              exact h3
            obtain ⟨newT, k1, k2, k3, k4, k5, k6⟩ :=
              evictLoop_order size
                ((collectLeaves m.root_node []).map HeapEntry.node_id)
                (nodeCount m.root_node + 1)
                ((collectLeaves m.root_node []).foldl heapPush [])
                m.root_node m.evictable_size 0 [] [] t ev _ _ hloop
                hrcs hnds hvalid0 hsort0 hids0 hS0
            simp only [List.nil_append] at k1 k2
            subst k1
            subst k2
            refine ⟨?_, rfl, ?_, fun b hb => (k4 b hb).1, ?_⟩
            · rw [List.length_join]
              have hmm : (List.map List.length
                  (List.map EvictedInfo.value trace))
                  = List.map EvictedInfo.key_len trace := by
                rw [List.map_map]
                refine List.map_congr_left ?_
                intro b hb
                exact (k4 b hb).2
              rw [hmm]
              simpa using k3
            · rw [List.length_join]
              have hmm : (List.map List.length
                  (List.map EvictedInfo.value trace))
                  = List.map EvictedInfo.key_len trace := by
                rw [List.map_map]
                refine List.map_congr_left ?_
                intro b hb
                exact (k4 b hb).2
              rw [hmm]
            · refine k5.imp ?_
              intro a b hab
              unfold lexLe at hab
              dsimp only at hab
              exact hab

/-- Counterexample to the unamended C2 ordering conjunct: after inserting [1]
then [1,2], evicting 2 tokens removes node 2 (timestamp 4) before node 1
(timestamp 3) because the parent is re-enqueued only after its child is
removed, so removals are not globally increasing in (timestamp, id). -/
theorem C2_counterexample :
    insertPrefix newCache [1] [10] = .ok (RadixCacheManager.mk
      (RadixNode.mk 0 [] [] 1 0 [(1, RadixNode.mk 1 [1] [10] 0 2 [])]) 2 1 0 3, 0) ∧
    insertPrefix (RadixCacheManager.mk
      (RadixNode.mk 0 [] [] 1 0 [(1, RadixNode.mk 1 [1] [10] 0 2 [])]) 2 1 0 3)
      [1, 2] [10, 20] = .ok (RadixCacheManager.mk
      (RadixNode.mk 0 [] [] 1 0
        [(1, RadixNode.mk 1 [1] [10] 0 3 [(2, RadixNode.mk 2 [2] [20] 0 4 [])])])
      3 2 0 5, 1) ∧
    evictWithTrace (RadixCacheManager.mk
      (RadixNode.mk 0 [] [] 1 0
        [(1, RadixNode.mk 1 [1] [10] 0 3 [(2, RadixNode.mk 2 [2] [20] 0 4 [])])])
      3 2 0 5) 2
      = .ok (RadixCacheManager.mk (RadixNode.mk 0 [] [] 1 0 []) 3 0 0 5, [20, 10],
        [EvictedInfo.mk 4 2 0 [20] 1, EvictedInfo.mk 3 1 0 [10] 1]) ∧
    ¬ List.Pairwise
        (fun a b => a.timestamp < b.timestamp ∨
          (a.timestamp = b.timestamp ∧ a.node_id ≤ b.node_id))
        [EvictedInfo.mk 4 2 0 [20] 1, EvictedInfo.mk 3 1 0 [10] 1] :=
  ⟨rfl, rfl, rfl, by decide⟩

theorem C2_evict_spec_witness :
    wfManager (RadixCacheManager.mk
      (RadixNode.mk 0 [] [] 1 0
        [(1, RadixNode.mk 1 [1] [10] 0 3 [(2, RadixNode.mk 2 [2] [20] 0 4 [])])])
      3 2 0 5) = true ∧
    (2 ≤ ([20, 10] : List Int).length ∧
     ([20, 10] : List Int) =
       (([EvictedInfo.mk 4 2 0 [20] 1, EvictedInfo.mk 3 1 0 [10] 1]).map
         EvictedInfo.value).join ∧
     ([20, 10] : List Int).length =
       (([EvictedInfo.mk 4 2 0 [20] 1, EvictedInfo.mk 3 1 0 [10] 1]).map
         EvictedInfo.key_len).sum ∧
     (∀ b ∈ [EvictedInfo.mk 4 2 0 [20] 1, EvictedInfo.mk 3 1 0 [10] 1],
       b.ref_count = 0) ∧
     List.Pairwise
       (fun a b => a.timestamp < b.timestamp ∨
         (a.timestamp = b.timestamp ∧ a.node_id ≤ b.node_id))
       (([EvictedInfo.mk 4 2 0 [20] 1, EvictedInfo.mk 3 1 0 [10] 1]).filter
         (fun b => decide (b.node_id ∈
           (collectLeaves (RadixCacheManager.mk
             (RadixNode.mk 0 [] [] 1 0
               [(1, RadixNode.mk 1 [1] [10] 0 3
                 [(2, RadixNode.mk 2 [2] [20] 0 4 [])])])
             3 2 0 5).root_node []).map HeapEntry.node_id)))) :=
  ⟨by decide,
    (C2_evict_spec (RadixCacheManager.mk
      (RadixNode.mk 0 [] [] 1 0
        [(1, RadixNode.mk 1 [1] [10] 0 3 [(2, RadixNode.mk 2 [2] [20] 0 4 [])])])
      3 2 0 5) 2 (by decide)).2.2
      (RadixCacheManager.mk (RadixNode.mk 0 [] [] 1 0 []) 3 0 0 5) [20, 10]
      [EvictedInfo.mk 4 2 0 [20] 1, EvictedInfo.mk 3 1 0 [10] 1] (by rfl)⟩
